import Mathlib

/-!
Verification of the step-generation layer of the algorithm visualizer.

The repository's core is three pure step-generator modules
(`src/utils/sortingAlgorithms.js`, `src/utils/pathfindingAlgorithms.js`,
`src/utils/graphAlgorithms.js`).  Each JavaScript function is embedded
below as an executable Lean function; loops become structural recursion
on an explicit iteration count that matches the source's loop bound, and
JavaScript numbers become `Int`/`Nat`/`ℚ` (the only non-integer constant
in the code is the diagonal move cost `1.4`, modelled exactly as the
rational `7/5`).
-/

namespace AlgoViz

/-- A step emitted by the sorting algorithms
(`src/utils/sortingAlgorithms.js`).  Every step carries a full snapshot
of the working array (`[...array]` in the source). -/
inductive SortStep where
  | compare (indices : List Nat) (array : List Int)
  | swap (indices : List Nat) (array : List Int)
  | sorted (indices : List Nat) (array : List Int)
deriving Repr, DecidableEq

/-- The array snapshot carried by a sorting step. -/
def SortStep.snapshot : SortStep → List Int
  | .compare _ a => a
  | .swap _ a => a
  | .sorted _ a => a

/-- Whether a step is a `compare` step. -/
def SortStep.isCompare : SortStep → Bool
  | .compare _ _ => true
  | _ => false

/-- Whether a step is a `sorted` step. -/
def SortStep.isSorted : SortStep → Bool
  | .sorted _ _ => true
  | _ => false

/-- The indices of a `sorted` step, `none` for the other kinds. -/
def SortStep.sortedIndices : SortStep → Option (List Nat)
  | .sorted idx _ => some idx
  | _ => none

/-- Inner loop of `bubbleSort` (`sortingAlgorithms.js` lines 37-54):
`for (let j = 0; j < n - i - 1; j++)`.  `j` is the current loop index and
`count` the number of iterations still to run (initially `n - i - 1`).
Each iteration pushes a `compare` step for `[j, j+1]` and, when
`array[j] > array[j+1]`, swaps them and pushes a `swap` step.  Returns
the final array together with the emitted steps. -/
def bubbleInner (array : List Int) (j : Nat) : Nat → List Int × List SortStep
  | 0 => (array, [])
  | count + 1 =>
    let cmp := SortStep.compare [j, j + 1] array
    if array.getD j 0 > array.getD (j + 1) 0 then
      let a' := (array.set j (array.getD (j + 1) 0)).set (j + 1) (array.getD j 0)
      let r := bubbleInner a' (j + 1) count
      (r.1, cmp :: SortStep.swap [j, j + 1] a' :: r.2)
    else
      let r := bubbleInner array (j + 1) count
      (r.1, cmp :: r.2)

/-- Outer loop of `bubbleSort` (`sortingAlgorithms.js` lines 36-61):
`for (let i = 0; i < n; i++)`; `count` is the number of outer iterations
still to run (initially `n`).  After each inner pass it pushes one
`sorted` step whose indices are
`Array.from({length: n - i}, (_, idx) => n - 1 - idx)`. -/
def bubbleOuter (n : Nat) (array : List Int) (i : Nat) : Nat → List Int × List SortStep
  | 0 => (array, [])
  | count + 1 =>
    let inner := bubbleInner array 0 (n - i - 1)
    let mark := SortStep.sorted ((List.range (n - i)).map fun idx => n - 1 - idx) inner.1
    let rest := bubbleOuter n inner.1 (i + 1) count
    (rest.1, inner.2 ++ mark :: rest.2)

/-- `bubbleSort` (`sortingAlgorithms.js` lines 31-64). -/
def bubbleSort (arr : List Int) : List SortStep :=
  (bubbleOuter arr.length arr 0 arr.length).2

/-- Main loop of `merge` (`sortingAlgorithms.js` lines 90-112):
`while (i < leftArr.length && j < rightArr.length)`.  Pushes a `compare`
step for positions `[left+i, mid+1+j]`, writes the smaller element (ties
take the left) into `array[k]`, pushes a `swap` step for `[k]`, and
advances.  Returns the array and the final `i, j, k` together with the
emitted steps. -/
def mergeLoop (leftArr rightArr : List Int) (left mid : Nat) :
    Nat → List Int → Nat → Nat → Nat → (List Int × Nat × Nat × Nat) × List SortStep
  | 0, array, i, j, k => ((array, i, j, k), [])
  | fuel + 1, array, i, j, k =>
    if i < leftArr.length ∧ j < rightArr.length then
      let cmp := SortStep.compare [left + i, mid + 1 + j] array
      if leftArr.getD i 0 ≤ rightArr.getD j 0 then
        let a' := array.set k (leftArr.getD i 0)
        let r := mergeLoop leftArr rightArr left mid fuel a' (i + 1) j (k + 1)
        (r.1, cmp :: SortStep.swap [k] a' :: r.2)
      else
        let a' := array.set k (rightArr.getD j 0)
        let r := mergeLoop leftArr rightArr left mid fuel a' i (j + 1) (k + 1)
        (r.1, cmp :: SortStep.swap [k] a' :: r.2)
    else ((array, i, j, k), [])

/-- Tail-copy loop of `merge` (`sortingAlgorithms.js` lines 114-123 for
the left side and 125-134 for the right side; both loops have the same
shape, so they share this embedding).  Copies `src[i..]` into the array
starting at `k`, pushing one `swap` step per copied element; `src.length`
fuel always suffices since `i` only increases. -/
def mergeCopy (src : List Int) : Nat → List Int → Nat → Nat → List Int × List SortStep
  | 0, array, _, _ => (array, [])
  | fuel + 1, array, i, k =>
    if i < src.length then
      let a' := array.set k (src.getD i 0)
      let r := mergeCopy src fuel a' (i + 1) (k + 1)
      (r.1, SortStep.swap [k] a' :: r.2)
    else (array, [])

/-- `merge` (`sortingAlgorithms.js` lines 83-135).  `leftArr` is
`array.slice(left, mid+1)` and `rightArr` is `array.slice(mid+1, right+1)`. -/
def merge (array : List Int) (left mid right : Nat) : List Int × List SortStep :=
  let leftArr := (array.drop left).take (mid + 1 - left)
  let rightArr := (array.drop (mid + 1)).take (right - mid)
  let w := mergeLoop leftArr rightArr left mid (leftArr.length + rightArr.length) array 0 0 left
  let c1 := mergeCopy leftArr leftArr.length w.1.1 w.1.2.1 w.1.2.2.2
  let c2 := mergeCopy rightArr rightArr.length c1.1 w.1.2.2.1
    (w.1.2.2.2 + (leftArr.length - w.1.2.1))
  (c2.1, w.2 ++ c1.2 ++ c2.2)

/-- `mergeSortHelper` (`sortingAlgorithms.js` lines 137-144).  Each
recursive call is on a subrange at least one element smaller, so fuel
equal to the subrange size `right + 1 - left` (at the top call,
`arr.length`) always suffices. -/
def mergeSortHelper : Nat → List Int → Nat → Nat → List Int × List SortStep
  | 0, array, _, _ => (array, [])
  | fuel + 1, array, left, right =>
    if left < right then
      let mid := (left + right) / 2
      let r1 := mergeSortHelper fuel array left mid
      let r2 := mergeSortHelper fuel r1.1 (mid + 1) right
      let r3 := merge r2.1 left mid right
      (r3.1, r1.2 ++ r2.2 ++ r3.2)
    else (array, [])

/-- `mergeSort` (`sortingAlgorithms.js` lines 80-149).  In the source
`array.length - 1` is `-1` on the empty array, on which the helper is a
no-op; truncated subtraction gives the same behaviour. -/
def mergeSort (arr : List Int) : List SortStep :=
  (mergeSortHelper arr.length arr 0 (arr.length - 1)).2

/-- Partition loop of `quickSort` (`sortingAlgorithms.js` lines 171-187):
`for (let j = low; j < high; j++)`.  The source's `i` starts at `low - 1`
(possibly `-1`); `i1` here is always `i + 1`, so it starts at `low`.
When `array[j] < pivot` the source increments `i` and swaps positions
`i` and `j`, i.e. positions `i1` and `j`, then `i1` becomes `i1 + 1`.
`count` is the number of remaining iterations (initially `high - low`). -/
def partitionLoop (pivot : Int) (high : Nat) (array : List Int) (i1 j : Nat) :
    Nat → (List Int × Nat) × List SortStep
  | 0 => ((array, i1), [])
  | count + 1 =>
    let cmp := SortStep.compare [j, high] array
    if array.getD j 0 < pivot then
      let a' := (array.set i1 (array.getD j 0)).set j (array.getD i1 0)
      let r := partitionLoop pivot high a' (i1 + 1) (j + 1) count
      (r.1, cmp :: SortStep.swap [i1, j] a' :: r.2)
    else
      let r := partitionLoop pivot high array i1 (j + 1) count
      (r.1, cmp :: r.2)

/-- `partition` (`sortingAlgorithms.js` lines 167-197): pivot is
`array[high]`; after the loop the source swaps `i + 1` (here the final
`i1`) with `high`, pushes a `swap` step for `[i+1, high]` and returns
`i + 1` as the pivot position. -/
def partition (array : List Int) (low high : Nat) : (List Int × Nat) × List SortStep :=
  let pivot := array.getD high 0
  let r := partitionLoop pivot high array low low (high - low)
  let p := r.1.2
  let a' := (r.1.1.set p (r.1.1.getD high 0)).set high (r.1.1.getD p 0)
  ((a', p), r.2 ++ [SortStep.swap [p, high] a'])

/-- `quickSortHelper` (`sortingAlgorithms.js` lines 199-205).  The
recursion depth is bounded by the subrange size `high + 1 - low` (each
recursive call excludes the pivot position), so `fuel = arr.length` at
the top call always suffices; a call with `low ≥ high` is a no-op as in
the source (where `pi - 1` may be `-1`; truncated subtraction lands in
the same no-op case). -/
def quickSortHelper (array : List Int) (low high : Nat) : Nat → List Int × List SortStep
  | 0 => (array, [])
  | fuel + 1 =>
    if low < high then
      let pr := partition array low high
      let r1 := quickSortHelper pr.1.1 low (pr.1.2 - 1) fuel
      let r2 := quickSortHelper r1.1 (pr.1.2 + 1) high fuel
      (r2.1, pr.2 ++ r1.2 ++ r2.2)
    else (array, [])

/-- `quickSort` (`sortingAlgorithms.js` lines 164-209). -/
def quickSort (arr : List Int) : List SortStep :=
  (quickSortHelper arr 0 (arr.length - 1) arr.length).2

/-! ## Pathfinding (`src/utils/pathfindingAlgorithms.js`)

Positions are `[row, col]` pairs; as in the source, neighbour candidates
may be negative before the bounds check, so coordinates are `Int`.  A
grid is a matrix of cells, `0` = open, `1` = obstacle.  The JavaScript
`Set`/`Map` keyed by `JSON.stringify(pos)` (an injective encoding) are
modelled as a list of positions and an association list in which the
most recent binding for a key comes first, matching `Map.set`/`Map.get`
overwrite semantics. -/

/-- A grid position `[row, col]`. -/
abbrev Pos := Int × Int

/-- A grid of cells (`0` open, `1` obstacle). -/
abbrev Grid := List (List Nat)

/-- A step emitted by the pathfinding algorithms.  `explore` carries a
snapshot copy of the visited set (`new Set(visited)` in the source). -/
inductive PathStep where
  | explore (position : Pos) (visited : List Pos)
  | path (path : List Pos)
deriving Repr, DecidableEq

/-- Whether a step is a `path` step. -/
def PathStep.isPath : PathStep → Bool
  | .path _ => true
  | _ => false

/-- `parent.get(JSON.stringify(p))`: the first binding for `p` wins,
matching `Map` semantics with the newest binding consed in front. -/
def lookupParent (m : List (Pos × Pos)) (p : Pos) : Option Pos :=
  (m.find? fun q => q.1 = p).map (·.2)

/-- The neighbour validity check all three algorithms share
(`newRow >= 0 && newRow < rows && newCol >= 0 && newCol < cols &&
grid[newRow][newCol] === 0`). -/
def openCell (grid : Grid) (rows cols : Int) (p : Pos) : Bool :=
  0 ≤ p.1 && p.1 < rows && 0 ≤ p.2 && p.2 < cols &&
    ((grid.getD p.1.toNat []).getD p.2.toNat 1 == 0)

/-- The 4 BFS directions, in source order (up, down, left, right). -/
def directions4 : List Pos := [(-1, 0), (1, 0), (0, -1), (0, 1)]

/-- The 8 weighted directions of `dijkstra`/`aStar`, in source order;
orthogonal moves cost `1`, diagonal moves cost `1.4` (exactly `7/5`). -/
def directions8 : List (Pos × ℚ) :=
  [((-1, 0), 1), ((1, 0), 1), ((0, -1), 1), ((0, 1), 1),
   ((-1, -1), 1.4), ((-1, 1), 1.4), ((1, -1), 1.4), ((1, 1), 1.4)]

/-- Path reconstruction of `bfs` and `dijkstra` (lines 68-75 and
171-177): walk parent pointers from the end, unshifting each position
with a parent, then unshift the start.  The parent chain in any
reachable state visits pairwise distinct keys, so `parent.length + 1`
fuel always suffices. -/
def reconstructPath (parent : List (Pos × Pos)) (startPos : Pos) :
    Nat → Pos → List Pos → List Pos
  | 0, _, acc => startPos :: acc
  | fuel + 1, cur, acc =>
    match lookupParent parent cur with
    | some p => reconstructPath parent startPos fuel p (cur :: acc)
    | none => startPos :: acc

/-- One round of BFS neighbour expansion (lines 84-100): for each valid
unvisited neighbour, mark visited, record its parent and enqueue it.
The state is `(queue, visited, parent)`. -/
def bfsExpand (grid : Grid) (rows cols : Int) (cur : Pos)
    (st : List Pos × List Pos × List (Pos × Pos)) : List Pos × List Pos × List (Pos × Pos) :=
  directions4.foldl
    (fun st d =>
      let nb : Pos := (cur.1 + d.1, cur.2 + d.2)
      if openCell grid rows cols nb ∧ nb ∉ st.2.1 then
        (st.1 ++ [nb], nb :: st.2.1, (nb, cur) :: st.2.2)
      else st) st

/-- Main loop of `bfs` (lines 58-101).  Each iteration dequeues one
position and every enqueued position was freshly marked visited, so the
number of iterations is bounded by the number of cells; the top-level
call provides that much fuel. -/
def bfsLoop (grid : Grid) (rows cols : Int) (startPos endPos : Pos) :
    Nat → List Pos → List Pos → List (Pos × Pos) → List PathStep
  | 0, _, _, _ => []
  | fuel + 1, queue, visited, parent =>
    match queue with
    | [] => []
    | cur :: rest =>
      let step := PathStep.explore cur visited
      if cur = endPos then
        [step, PathStep.path (reconstructPath parent startPos (parent.length + 1) endPos [])]
      else
        let st := bfsExpand grid rows cols cur (rest, visited, parent)
        step :: bfsLoop grid rows cols startPos endPos fuel st.1 st.2.1 st.2.2

/-- `bfs` (lines 43-104).  The start is marked visited and enqueued
before the loop. -/
def bfs (grid : Grid) (startPos endPos : Pos) : List PathStep :=
  let rows : Int := grid.length
  let cols : Int := (grid.getD 0 []).length
  bfsLoop grid rows cols startPos endPos (grid.length * (grid.getD 0 []).length + 1)
    [startPos] [startPos] []

/-- `a < b` on distances where `none` stands for `Infinity`
(`Infinity < Infinity` is false in JavaScript, and every finite value is
`< Infinity`). -/
def ltInf : Option ℚ → Option ℚ → Bool
  | some a, some b => a < b
  | some _, none => true
  | none, _ => false

/-- `a + cost` where `none` stands for `Infinity`. -/
def addInf (a : Option ℚ) (cost : ℚ) : Option ℚ :=
  a.map (· + cost)

/-- Point update of a distance map (`Map.set`). -/
def setMap (m : Pos → Option ℚ) (key : Pos) (v : Option ℚ) : Pos → Option ℚ :=
  fun p => if p = key then v else m p

/-- All grid cells in row-major order, as scanned by `dijkstra`'s
minimum search (lines 150-158). -/
def cellList (rows cols : Nat) : List Pos :=
  (List.range rows).flatMap fun i => (List.range cols).map fun j => (Int.ofNat i, Int.ofNat j)

/-- `dijkstra`'s linear scan for the unvisited cell with minimum
tentative distance (lines 146-158): the accumulator is
`(current, minDistance)`, starting at `(null, Infinity)`, updated on
every strict improvement. -/
def dijkstraScan (dist : Pos → Option ℚ) (visited : List Pos) (rows cols : Nat) :
    Option Pos × Option ℚ :=
  (cellList rows cols).foldl
    (fun acc p => if p ∉ visited ∧ ltInf (dist p) acc.2 then (some p, dist p) else acc)
    (none, none)

/-- `dijkstra`'s relaxation of the 8 neighbours of `cur`
(lines 186-206).  The state is `(distances, parent)`. -/
def dijkstraRelax (grid : Grid) (rows cols : Int) (cur : Pos)
    (st : (Pos → Option ℚ) × List (Pos × Pos)) : (Pos → Option ℚ) × List (Pos × Pos) :=
  directions8.foldl
    (fun st dc =>
      let nb : Pos := (cur.1 + dc.1.1, cur.2 + dc.1.2)
      if openCell grid rows cols nb then
        let newDist := addInf (st.1 cur) dc.2
        if ltInf newDist (st.1 nb) then (setMap st.1 nb newDist, (nb, cur) :: st.2)
        else st
      else st) st

/-- Main loop of `dijkstra` (lines 145-207).  Each iteration adds one
cell to the visited set and the guard stops at `rows * cols`, so
`rows * cols + 1` fuel at the top call always suffices. -/
def dijkstraLoop (grid : Grid) (startPos endPos : Pos) (rows cols : Nat) :
    Nat → (Pos → Option ℚ) → List Pos → List (Pos × Pos) → List PathStep
  | 0, _, _, _ => []
  | fuel + 1, dist, visited, parent =>
    if visited.length < rows * cols then
      match (dijkstraScan dist visited rows cols).1 with
      | none => []
      | some cur =>
        let visited' := cur :: visited
        let step := PathStep.explore cur visited'
        if cur = endPos then
          [step, PathStep.path (reconstructPath parent startPos (parent.length + 1) endPos [])]
        else
          let st := dijkstraRelax grid rows cols cur (dist, parent)
          step :: dijkstraLoop grid startPos endPos rows cols fuel st.1 visited' st.2
    else []

/-- `dijkstra` (lines 119-210).  Distances start at `Infinity` (`none`)
everywhere except `startPos = 0`; the source's
`if (!current || minDistance === Infinity) break` is the `none` case of
the scan (a non-null `current` always comes with a finite minimum). -/
def dijkstra (grid : Grid) (startPos endPos : Pos) : List PathStep :=
  let rows := grid.length
  let cols := (grid.getD 0 []).length
  dijkstraLoop grid startPos endPos rows cols (rows * cols + 1)
    (fun p => if p = startPos then some 0 else none) [] []

/-- `aStar`'s heuristic (lines 247-250): Manhattan distance to the end. -/
def heuristic (endPos : Pos) (p : Pos) : ℚ :=
  ((p.1 - endPos.1).natAbs + (p.2 - endPos.2).natAbs : ℤ)

/-- `aStar`'s linear scan of the open set for the lowest f-score
(lines 264-276): starts from `openSet[0]` at index 0 and updates on
every strict improvement.  Returns the chosen position and its index. -/
def aStarScan (fScore : Pos → Option ℚ) (o0 : Pos) (restOpen : List Pos) : Pos × Nat :=
  (restOpen.foldl
    (fun (acc : (Pos × Nat) × Option ℚ × Nat) p =>
      if ltInf (fScore p) acc.2.1 then ((p, acc.2.2), fScore p, acc.2.2 + 1)
      else (acc.1, acc.2.1, acc.2.2 + 1))
    ((o0, 0), fScore o0, 1)).1

/-- `aStar`'s path reconstruction (lines 279-284): the path starts as
`[endPos]` and each parent (the start included, which has no parent
itself) is unshifted in turn. -/
def aStarReconstruct (parent : List (Pos × Pos)) :
    Nat → Pos → List Pos → List Pos
  | 0, _, acc => acc
  | fuel + 1, pos, acc =>
    match lookupParent parent pos with
    | some p => aStarReconstruct parent fuel p (p :: acc)
    | none => acc

/-- `aStar`'s neighbour relaxation (lines 302-329).  The state is
`(gScore, fScore, parent, openSet)`; a strictly improving unvisited
neighbour gets its parent, g- and f-scores updated and is appended to
the open set unless already present. -/
def aStarRelax (grid : Grid) (rows cols : Int) (endPos cur : Pos) (visited : List Pos)
    (st : (Pos → Option ℚ) × (Pos → Option ℚ) × List (Pos × Pos) × List Pos) :
    (Pos → Option ℚ) × (Pos → Option ℚ) × List (Pos × Pos) × List Pos :=
  directions8.foldl
    (fun st dc =>
      let nb : Pos := (cur.1 + dc.1.1, cur.2 + dc.1.2)
      if openCell grid rows cols nb ∧ nb ∉ visited then
        let tentative := addInf (st.1 cur) dc.2
        if ltInf tentative (st.1 nb) then
          let g' := setMap st.1 nb tentative
          let f' := setMap st.2.1 nb (addInf tentative (heuristic endPos nb))
          let parent' := (nb, cur) :: st.2.2.1
          let open' := if nb ∈ st.2.2.2 then st.2.2.2 else st.2.2.2 ++ [nb]
          (g', f', parent', open')
        else st
      else st) st

/-- Main loop of `aStar` (lines 263-330).  Each iteration removes one
position from the open set and marks it visited, and a visited position
is never re-inserted, so the iteration count is bounded by the number of
cells plus one; the top-level call provides that much fuel.  The goal
test happens *before* the pop is recorded: on reaching the goal the
`path` step is pushed without any `explore` step for the goal cell. -/
def aStarLoop (grid : Grid) (startPos endPos : Pos) (rows cols : Int) :
    Nat → (Pos → Option ℚ) → (Pos → Option ℚ) → List (Pos × Pos) → List Pos → List Pos →
    List PathStep
  | 0, _, _, _, _, _ => []
  | fuel + 1, gScore, fScore, parent, openSet, visited =>
    match openSet with
    | [] => []
    | o0 :: restOpen =>
      let pick := aStarScan fScore o0 restOpen
      let cur := pick.1
      if cur = endPos then
        [PathStep.path (aStarReconstruct parent (parent.length + 1) endPos [endPos])]
      else
        let openSet' := (o0 :: restOpen).eraseIdx pick.2
        let visited' := cur :: visited
        let step := PathStep.explore cur visited'
        let st := aStarRelax grid rows cols endPos cur visited'
          (gScore, fScore, parent, openSet')
        step :: aStarLoop grid startPos endPos rows cols fuel st.1 st.2.1 st.2.2.1 st.2.2.2
          visited'

/-- `aStar` (lines 227-333).  g- and f-scores start at `Infinity`
(`none`) except `gScore(start) = 0` and
`fScore(start) = heuristic(start)`; the open set starts as `[start]`. -/
def aStar (grid : Grid) (startPos endPos : Pos) : List PathStep :=
  let rows := grid.length
  let cols := (grid.getD 0 []).length
  aStarLoop grid startPos endPos rows cols (rows * cols + 2)
    (fun p => if p = startPos then some 0 else none)
    (fun p => if p = startPos then some (heuristic endPos startPos) else none)
    [] [startPos] []

/-! ## Graph traversal (`src/utils/graphAlgorithms.js`)

A graph is a node count (the algorithms only use `graph.nodes.length`;
node ids are `0 .. nodeCount - 1`) and an edge list. -/

/-- A graph: node count and edge list. -/
structure GraphV where
  nodes : Nat
  edges : List (Nat × Nat)

/-- A step emitted by the graph algorithms.  `visit` is the step shape
of `dfs`/`graphBFS` (`{node, visited, visitOrder}`); `topoVisit` and
`topoFinish` are `topologicalSort`'s `visit`/`finish` steps
(`{node, visited, result}`); `cycVisit`, `cycCycle` and `cycFinish` are
`detectCycle`'s `visit` (whose `state` field is always the constant
string `visiting`), `cycle` and `finish` steps, each carrying the
`hasCycle` flag value pushed at that moment. -/
inductive GraphStep where
  | visit (node : Nat) (visited : List Nat) (visitOrder : List Nat)
  | topoVisit (node : Nat) (visited : List Nat) (result : List Nat)
  | topoFinish (node : Nat) (visited : List Nat) (result : List Nat)
  | cycVisit (node : Nat) (hasCycle : Bool)
  | cycCycle (node : Nat) (hasCycle : Bool)
  | cycFinish (node : Nat) (hasCycle : Bool)
deriving Repr, DecidableEq

/-- `buildAdjacencyList` (`graphAlgorithms.js` lines 48-58): undirected,
each edge `[u,v]` appends `v` to `adj[u]` and then `u` to `adj[v]`, in
edge order.  The node count only sizes the object in the source. -/
def buildAdjacencyList (_nodeCount : Nat) (edges : List (Nat × Nat)) : Nat → List Nat :=
  fun i => edges.foldl
    (fun acc e => acc ++ (if e.1 = i then [e.2] else []) ++ (if e.2 = i then [e.1] else []))
    []

/-- The directed adjacency list built inside `topologicalSort`
(lines 201-209) and `detectCycle` (lines 273-280): each edge `[u,v]`
contributes only `u → v`. -/
def buildDirectedAdj (edges : List (Nat × Nat)) : Nat → List Nat :=
  fun i => (edges.filter fun e => e.1 = i).map (·.2)

/-- Main loop of `dfs` (lines 80-103).  The JavaScript array used as a
stack (`push`/`pop` at the end) is modelled with its top at the head, so
a `pop` is a head match and the sequence of `push`es over the reversed
neighbour list is a left fold consing each unvisited neighbour. -/
def dfsLoop (g : GraphV) : Nat → List Nat → List Nat → List Nat → List GraphStep
  | 0, _, _, _ => []
  | fuel + 1, stack, visited, visitOrder =>
    match stack with
    | [] => []
    | node :: rest =>
      if node ∉ visited then
        let visited' := node :: visited
        let visitOrder' := visitOrder ++ [node]
        let step := GraphStep.visit node visited' visitOrder'
        let adj := buildAdjacencyList g.nodes g.edges
        let stack' := (adj node).reverse.foldl
          (fun st nb => if nb ∉ visited' then nb :: st else st) rest
        step :: dfsLoop g fuel stack' visited' visitOrder'
      else dfsLoop g fuel rest visited visitOrder

/-- `dfs` (lines 74-106).  Every push onto the stack is of a
then-unvisited node, so the number of loop iterations is bounded by
`1 + nodes * (1 + 2 * edges)`; the top-level call provides that much
fuel. -/
def dfs (g : GraphV) (startNode : Nat) : List GraphStep :=
  dfsLoop g (1 + g.nodes * (1 + 2 * g.edges.length) + 1) [startNode] [] []

/-- Main loop of `graphBFS` (lines 132-149): dequeue, append to the
visit order, push one `visit` step, then enqueue (and mark visited)
every unvisited neighbour in adjacency order. -/
def graphBFSLoop (adj : Nat → List Nat) : Nat → List Nat → List Nat → List Nat → List GraphStep
  | 0, _, _, _ => []
  | fuel + 1, queue, visited, visitOrder =>
    match queue with
    | [] => []
    | node :: rest =>
      let visitOrder' := visitOrder ++ [node]
      let step := GraphStep.visit node visited visitOrder'
      let st := (adj node).foldl
        (fun st nb => if nb ∉ st.2 then (st.1 ++ [nb], nb :: st.2) else st)
        (rest, visited)
      step :: graphBFSLoop adj fuel st.1 st.2 visitOrder'

/-- `graphBFS` (lines 123-152).  The start node is marked visited and
enqueued before the loop; every enqueue marks a fresh node visited, so
`nodes + 2` fuel always suffices. -/
def graphBFS (g : GraphV) (startNode : Nat) : List GraphStep :=
  graphBFSLoop (buildAdjacencyList g.nodes g.edges) (g.nodes + 2) [startNode] [startNode] []

/-- The neighbour loop of `topologicalSort`'s `dfsHelper`
(lines 183-187): `rec` is the recursive `dfsHelper` call (at the next
fuel level down). -/
def topoDfsList (rec : Nat → List Nat → List Nat → List Nat × List Nat × List GraphStep) :
    List Nat → List Nat → List Nat → List Nat × List Nat × List GraphStep
  | [], visited, result => (visited, result, [])
  | nb :: rest, visited, result =>
    if nb ∉ visited then
      let r := rec nb visited result
      let r2 := topoDfsList rec rest r.1 r.2.1
      (r2.1, r2.2.1, r.2.2 ++ r2.2.2)
    else topoDfsList rec rest visited result

/-- `dfsHelper` of `topologicalSort` (lines 173-198): mark the node
visited, push a `visit` step (carrying the result list as it is on
entry), recurse into unvisited neighbours, prepend the node to the
result (`unshift`), then push a `finish` step.  Returns the new
`(visited, result)` and the steps emitted by this call.  Each nested
call marks a fresh node visited first, so the recursion depth is at most
the node count and `nodes + 1` fuel at each root suffices. -/
def topoDfs (adj : Nat → List Nat) :
    Nat → Nat → List Nat → List Nat → List Nat × List Nat × List GraphStep
  | 0, _, visited, result => (visited, result, [])
  | fuel + 1, node, visited, result =>
    let visited' := node :: visited
    let r := topoDfsList (topoDfs adj fuel) (adj node) visited' result
    let result' := node :: r.2.1
    (r.1, result',
      GraphStep.topoVisit node visited' result :: r.2.2
        ++ [GraphStep.topoFinish node r.1 result'])

/-- The root loop of `topologicalSort` (lines 211-215): every node in
index order is used as a DFS root if still unvisited. -/
def topoOuter (adj : Nat → List Nat) (n : Nat) :
    List Nat → List Nat → List Nat → List Nat × List Nat × List GraphStep
  | [], visited, result => (visited, result, [])
  | i :: rest, visited, result =>
    if i ∉ visited then
      let r := topoDfs adj (n + 1) i visited result
      let r2 := topoOuter adj n rest r.1 r.2.1
      (r2.1, r2.2.1, r.2.2 ++ r2.2.2)
    else topoOuter adj n rest visited result

/-- `topologicalSort` (lines 168-218), with its directed adjacency
list. -/
def topologicalSort (g : GraphV) : List GraphStep :=
  (topoOuter (buildDirectedAdj g.edges) g.nodes (List.range g.nodes) [] []).2.2

/-- The neighbour loop of `detectCycle`'s `dfsHelper` (lines 250-262):
a neighbour in state `1` is a back edge (set the flag, push a `cycle`
step); a neighbour in state `0` is recursed into via `rec`, the
recursive `dfsHelper` call (at the next fuel level down). -/
def cycDfsList (rec : Nat → (Nat → Nat) → Bool → (Nat → Nat) × Bool × List GraphStep) :
    List Nat → (Nat → Nat) → Bool → (Nat → Nat) × Bool × List GraphStep
  | [], states, flag => (states, flag, [])
  | nb :: rest, states, flag =>
    if states nb = 1 then
      let r := cycDfsList rec rest states true
      (r.1, r.2.1, GraphStep.cycCycle nb true :: r.2.2)
    else if states nb = 0 then
      let r := rec nb states flag
      let r2 := cycDfsList rec rest r.1 r.2.1
      (r2.1, r2.2.1, r.2.2 ++ r2.2.2)
    else cycDfsList rec rest states flag

/-- `dfsHelper` of `detectCycle` (lines 240-271): set the node's state
to `1` (visiting), push a `visit` step (its `hasCycle` field is the
constant `false`), walk the neighbours, set the state to `2` (visited)
and push a `finish` step carrying the flag's value at that moment.
State is `(states, hasCycle)`.  Each nested call marks a fresh node
state `1` first, so the recursion depth is at most the node count and
`nodes + 1` fuel at each root suffices. -/
def cycDfs (adj : Nat → List Nat) :
    Nat → Nat → (Nat → Nat) → Bool → (Nat → Nat) × Bool × List GraphStep
  | 0, _, states, flag => (states, flag, [])
  | fuel + 1, node, states, flag =>
    let states1 : Nat → Nat := fun m => if m = node then 1 else states m
    let r := cycDfsList (cycDfs adj fuel) (adj node) states1 flag
    let states2 : Nat → Nat := fun m => if m = node then 2 else r.1 m
    (states2, r.2.1,
      GraphStep.cycVisit node false :: r.2.2 ++ [GraphStep.cycFinish node r.2.1])

/-- The root loop of `detectCycle` (lines 282-286). -/
def cycOuter (adj : Nat → List Nat) (n : Nat) :
    List Nat → (Nat → Nat) → Bool → (Nat → Nat) × Bool × List GraphStep
  | [], states, flag => (states, flag, [])
  | i :: rest, states, flag =>
    if states i = 0 then
      let r := cycDfs adj (n + 1) i states flag
      let r2 := cycOuter adj n rest r.1 r.2.1
      (r2.1, r2.2.1, r.2.2 ++ r2.2.2)
    else cycOuter adj n rest states flag

/-- `detectCycle` (lines 231-289): every node starts in state `0` and
the flag starts `false`. -/
def detectCycle (g : GraphV) : List GraphStep :=
  (cycOuter (buildDirectedAdj g.edges) g.nodes (List.range g.nodes) (fun _ => 0) false).2.2

/-! ## Specification-side definitions used by the claims -/

/-- The found-cycle flag as replayed over a step trace: it is set
exactly when a `cycle` step is pushed. -/
def runFlag : Bool → List GraphStep → Bool
  | b, [] => b
  | _, GraphStep.cycCycle _ _ :: rest => runFlag true rest
  | b, _ :: rest => runFlag b rest

/-- Flag consistency of a `detectCycle` trace, given the flag value `b`
holding before the trace: every `cycle` step carries `true` and every
`finish` step carries the replayed flag value at its position. -/
def traceOk : Bool → List GraphStep → Bool
  | _, [] => true
  | _, GraphStep.cycCycle _ c :: rest => c && traceOk true rest
  | b, GraphStep.cycFinish _ c :: rest => (c == b) && traceOk b rest
  | b, _ :: rest => traceOk b rest

/-- The visited-set snapshot carried by a pathfinding step
(`path` steps carry none). -/
def PathStep.visitedOf : PathStep → Option (List Pos)
  | .explore _ v => some v
  | .path _ => none

/-- The visited-set snapshot carried by a graph step
(`detectCycle`'s steps carry none). -/
def GraphStep.visitedOf : GraphStep → Option (List Nat)
  | .visit _ v _ => some v
  | .topoVisit _ v _ => some v
  | .topoFinish _ v _ => some v
  | _ => none

/-- Visited-set monotonicity between two steps: whenever both carry a
visited snapshot, the earlier one is contained in the later one. -/
def stepMono {σ : Type} {α : Type} (visOf : σ → Option (List α)) (s t : σ) : Prop :=
  ∀ vs vt, visOf s = some vs → visOf t = some vt → vs ⊆ vt

/-- The direction vectors of the 8-directional cost model. -/
def dirs8 : List Pos := directions8.map Prod.fst

/-- One valid move from `a` to `b` under the direction set `dirs`: the
displacement is one of the directions and the *target* cell is in-bounds
and open (exactly the check the algorithms perform on a neighbour; none
of them ever checks the source cell). -/
def stepOk (dirs : List Pos) (grid : Grid) (rows cols : Int) (a b : Pos) : Prop :=
  (b.1 - a.1, b.2 - a.2) ∈ dirs ∧ openCell grid rows cols b = true

/-- A valid path from `s` to `e`: a non-empty list of positions starting
at `s`, ending at `e`, each consecutive pair a valid move. -/
def validPathG (dirs : List Pos) (grid : Grid) (rows cols : Int) (s e : Pos) :
    List Pos → Prop
  | [] => False
  | [p] => p = s ∧ p = e
  | p :: q :: rest => p = s ∧ stepOk dirs grid rows cols p q ∧ validPathG dirs grid rows cols q e (q :: rest)

/-- A valid 4-directional path (BFS's movement model). -/
def validPath4 (grid : Grid) (s e : Pos) (p : List Pos) : Prop :=
  validPathG directions4 grid grid.length (grid.getD 0 []).length s e p

/-- A valid 8-directional path (Dijkstra's and A*'s movement model). -/
def validPath8 (grid : Grid) (s e : Pos) (p : List Pos) : Prop :=
  validPathG dirs8 grid grid.length (grid.getD 0 []).length s e p

/-- The cost of one 8-directional move: `1` orthogonal, `1.4` diagonal. -/
def moveCost (a b : Pos) : ℚ :=
  if a.1 = b.1 ∨ a.2 = b.2 then 1 else 1.4

/-- The total weighted cost of a path. -/
def pathCost : List Pos → ℚ
  | [] => 0
  | [_] => 0
  | a :: b :: rest => moveCost a b + pathCost (b :: rest)

/-- A bounded structural version of one bubble pass, used in the
proofs: `passC c l` performs the first `c` adjacent compare-and-swap
steps of a bubbling pass over `l` and leaves the rest untouched. -/
def passC : Nat → List Int → List Int
  | 0, l => l
  | _ + 1, [] => []
  | _ + 1, [x] => [x]
  | c + 1, x :: y :: t => if x > y then y :: passC c (x :: t) else x :: passC c (y :: t)

/-- Sandwich property of a `topologicalSort` DFS call starting with
visited set `visited` and finishing with visited set `v'`: the visited
set only grows, every snapshot in the emitted steps lies between the
two, snapshots grow monotonically along the steps, and every `visit`
step's snapshot contains its own node. -/
def topoSpec (visited v' : List Nat) (steps : List GraphStep) : Prop :=
  visited ⊆ v'
    ∧ (∀ st ∈ steps, ∀ vs, st.visitedOf = some vs → visited ⊆ vs ∧ vs ⊆ v')
    ∧ steps.Pairwise (stepMono GraphStep.visitedOf)
    ∧ ∀ st ∈ steps, ∀ nd vs res, st = GraphStep.topoVisit nd vs res → nd ∈ vs

/-- The subarray `a[l..r]` (both ends inclusive), the unit merge sort
recursion works on. -/
def subarr (a : List Int) (l r : Nat) : List Int :=
  (a.drop l).take (r + 1 - l)

/-- The directed edge relation of a graph. -/
def edgeOf (g : GraphV) (u v : Nat) : Prop := (u, v) ∈ g.edges

/-- A directed acyclic graph: no non-trivial directed cycle (in
particular no self-loop). -/
def isDag (g : GraphV) : Prop := ∀ x, ¬ Relation.TransGen (edgeOf g) x x

/-- The ordering invariant of `topologicalSort`'s `result` list: every
successor of any member occurs strictly later in the list. -/
def resOrd (g : GraphV) (result : List Nat) : Prop :=
  ∀ (j u v : Nat), result[j]? = some u → edgeOf g u v →
    ∃ (k : Nat), j < k ∧ result[k]? = some v

/-- `u` occurs strictly before `v` somewhere in `l`. -/
def appearsBefore (u v : Nat) (l : List Nat) : Prop :=
  ∃ (i j : Nat), i < j ∧ l[i]? = some u ∧ l[j]? = some v

/-- The number of nodes of `0 .. n-1` not yet in `visited`; the measure
showing `topologicalSort`'s fuel never runs out. -/
def unvisCount (n : Nat) (visited : List Nat) : Nat :=
  ((Finset.range n).filter (fun x => x ∉ visited)).card

/-- How one `dfsHelper` call of `topologicalSort` extends the
`(visited, result)` state: both only grow, the new `result` entries were
unvisited on entry, every newly visited node is finished (so the set of
grey nodes — visited but unfinished — is unchanged), and `result` stays
inside `visited`. -/
def topoExt (visited result v' res' : List Nat) : Prop :=
  (∀ x ∈ visited, x ∈ v')
    ∧ (∃ newR, res' = newR ++ result ∧ ∀ x ∈ newR, x ∉ visited)
    ∧ (∀ x ∈ v', x ∈ visited ∨ x ∈ res')
    ∧ (∀ x ∈ res', x ∈ v')

/-- The number of grid cells not yet in `visited`; the measure showing
`bfs`'s fuel never runs out. -/
def cellsUnvis (n m : Nat) (visited : List Pos) : Nat :=
  ((cellList n m).toFinset.filter (fun p => p ∉ visited)).card

/-- The loop invariant of `bfs` relative to a ghost depth assignment
`D`: queued cells are visited; the start is visited at depth `0` with no
parent; every other visited cell has a recorded parent one step closer
to the start; dequeued cells have all their valid neighbours visited;
the queue's depths are non-decreasing and all visited depths are within
one of every queued depth; depths are bounded by the parent map's size;
and every valid path from the start either ends in a visited cell of
certified depth or passes through a queued cell of certified depth after
which it leaves the visited set. -/
def bfsInv (grid : Grid) (rows cols : Int) (s : Pos)
    (queue visited : List Pos) (parent : List (Pos × Pos)) (D : Pos → Nat) : Prop :=
  (∀ v ∈ queue, v ∈ visited)
    ∧ s ∈ visited ∧ D s = 0 ∧ lookupParent parent s = none
    ∧ (∀ v ∈ visited, v ≠ s → ∃ u, lookupParent parent v = some u ∧ u ∈ visited
        ∧ stepOk directions4 grid rows cols u v ∧ D v = D u + 1)
    ∧ (∀ u ∈ visited, u ∉ queue →
        ∀ nb, stepOk directions4 grid rows cols u nb → nb ∈ visited)
    ∧ queue.Pairwise (fun a b => D a ≤ D b)
    ∧ (∀ a ∈ visited, ∀ b ∈ queue, D a ≤ D b + 1)
    ∧ (∀ v ∈ visited, D v ≤ parent.length)
    ∧ ∀ w (p : List Pos), validPathG directions4 grid rows cols s w p →
        (w ∈ visited ∧ D w + 1 ≤ p.length)
          ∨ ∃ (j : Nat) (x : Pos), p[j]? = some x ∧ x ∈ queue ∧ D x + 1 ≤ j + 1
              ∧ ∀ (k : Nat) (y : Pos), j < k → p[k]? = some y → y ∉ visited

/-! ## Theorems -/

@[simp] theorem isCompare_compare (idx : List Nat) (a : List Int) :
    (SortStep.compare idx a).isCompare = true := rfl

@[simp] theorem isCompare_swap (idx : List Nat) (a : List Int) :
    (SortStep.swap idx a).isCompare = false := rfl

@[simp] theorem isCompare_sorted (idx : List Nat) (a : List Int) :
    (SortStep.sorted idx a).isCompare = false := rfl

@[simp] theorem isSorted_compare (idx : List Nat) (a : List Int) :
    (SortStep.compare idx a).isSorted = false := rfl

@[simp] theorem isSorted_swap (idx : List Nat) (a : List Int) :
    (SortStep.swap idx a).isSorted = false := rfl

@[simp] theorem isSorted_sorted (idx : List Nat) (a : List Int) :
    (SortStep.sorted idx a).isSorted = true := rfl

@[simp] theorem sortedIndices_compare (idx : List Nat) (a : List Int) :
    (SortStep.compare idx a).sortedIndices = none := rfl

@[simp] theorem sortedIndices_swap (idx : List Nat) (a : List Int) :
    (SortStep.swap idx a).sortedIndices = none := rfl

@[simp] theorem sortedIndices_sorted (idx : List Nat) (a : List Int) :
    (SortStep.sorted idx a).sortedIndices = some idx := rfl

/-! ### C8: bubble sort comparison count -/

theorem bubbleInner_countP (a : List Int) (j c : Nat) :
    ((bubbleInner a j c).2.countP (fun s => s.isCompare)) = c := by
  induction c generalizing a j with
  | zero => simp [bubbleInner]
  | succ c ih =>
    simp only [bubbleInner]
    split
    · simp [List.countP_cons, ih]
    · simp [List.countP_cons, ih]

theorem bubbleOuter_countP (n : Nat) (a : List Int) (i c : Nat) :
    ((bubbleOuter n a i c).2.countP (fun s => s.isCompare))
      = ∑ t ∈ Finset.range c, (n - (i + t) - 1) := by
  induction c generalizing a i with
  | zero => simp [bubbleOuter]
  | succ c ih =>
    simp only [bubbleOuter]
    rw [List.countP_append, List.countP_cons]
    simp only [bubbleInner_countP, ih, isCompare_sorted]
    rw [Finset.sum_range_succ']
    have : ∀ t ∈ Finset.range c, n - (i + 1 + t) - 1 = n - (i + (t + 1)) - 1 := by
      intro t _
      omega
    rw [Finset.sum_congr rfl this]
    simp only [Bool.false_eq_true, if_false]
    omega

/-- C8: on an array of length `n`, `bubbleSort` emits exactly
`n * (n - 1) / 2` `compare` steps, independent of the values, and that
count equals the sum over passes `i` of `n - i - 1`. -/
theorem c8_bubbleSort_compare_count (arr : List Int) :
    (bubbleSort arr).countP (fun s => s.isCompare)
        = arr.length * (arr.length - 1) / 2
      ∧ (bubbleSort arr).countP (fun s => s.isCompare)
        = ∑ i ∈ Finset.range arr.length, (arr.length - i - 1) := by
  have hsum : (bubbleSort arr).countP (fun s => s.isCompare)
      = ∑ i ∈ Finset.range arr.length, (arr.length - i - 1) := by
    rw [bubbleSort, bubbleOuter_countP]
    exact Finset.sum_congr rfl fun t _ => by omega
  refine ⟨?_, hsum⟩
  rw [hsum]
  set n := arr.length with hn
  have h1 : ∑ i ∈ Finset.range n, (n - i - 1) = ∑ i ∈ Finset.range n, (n - 1 - i) :=
    Finset.sum_congr rfl fun t _ => by omega
  have h2 : ∑ i ∈ Finset.range n, (n - 1 - i) = ∑ i ∈ Finset.range n, i :=
    Finset.sum_range_reflect (fun i => i) n
  have h3 := Finset.sum_range_id_mul_two n
  omega

/-! ### C3: the `sorted` step at the end of each bubble pass

The source marks `Array.from({length: n - i}, (_, idx) => n - 1 - idx)`,
i.e. the last `n - i` positions in descending order — not the last
`i + 1` positions the claim states. -/

theorem bubbleInner_sortedIndices (a : List Int) (j c : Nat) :
    (bubbleInner a j c).2.filterMap SortStep.sortedIndices = [] := by
  induction c generalizing a j with
  | zero => simp [bubbleInner]
  | succ c ih =>
    simp only [bubbleInner]
    split
    · simp [ih]
    · simp [ih]

theorem bubbleOuter_sortedIndices (n : Nat) (a : List Int) (i c : Nat) :
    (bubbleOuter n a i c).2.filterMap SortStep.sortedIndices
      = (List.range c).map fun t => (List.range (n - (i + t))).map fun idx => n - 1 - idx := by
  induction c generalizing a i with
  | zero => simp [bubbleOuter]
  | succ c ih =>
    simp only [bubbleOuter]
    rw [List.filterMap_append, List.filterMap_cons, bubbleInner_sortedIndices]
    simp only [sortedIndices_sorted, ih, List.nil_append]
    rw [List.range_succ_eq_map]
    simp only [List.map_cons, List.map_map]
    refine congrArg₂ _ (by simp) ?_
    refine List.map_congr_left fun t _ => ?_
    have : n - (i + 1 + t) = n - (i + (t + 1)) := by omega
    simp [Function.comp, this]

/-- C3 as stated is false: on the array `[0, 1]` (length 2), the
`sorted` step at the end of pass `0` carries the indices `[1, 0]`, whose
index set `{0, 1}` is not the last `0 + 1 = 1` positions `{1}`. -/
theorem c3_counterexample :
    ((bubbleSort [0, 1]).filterMap SortStep.sortedIndices)[0]? = some [1, 0]
      ∧ ¬ (([1, 0] : List Nat).toFinset = ({1} : Finset Nat)) := by
  constructor
  · rfl
  · decide

/-- C3, amended: for every input array of length `n` and every outer
pass `i` (`0 ≤ i < n`), the `sorted` step emitted at the end of pass `i`
carries exactly the indices of the last `n - i` positions, in descending
order (`[n-1, n-2, ..., i]`). -/
theorem c3_bubbleSort_sorted_step (arr : List Int) (i : Nat) (h : i < arr.length) :
    ((bubbleSort arr).filterMap SortStep.sortedIndices)[i]?
      = some ((List.range (arr.length - i)).map fun idx => arr.length - 1 - idx) := by
  rw [bubbleSort, bubbleOuter_sortedIndices]
  rw [List.getElem?_map, List.getElem?_range h]
  simp

/-- Witness for `c3_bubbleSort_sorted_step` at `arr = [0, 1]`, `i = 0`. -/
theorem c3_bubbleSort_sorted_step_witness :
    0 < ([0, 1] : List Int).length
      ∧ ((bubbleSort [0, 1]).filterMap SortStep.sortedIndices)[0]?
        = some ((List.range (([0, 1] : List Int).length - 0)).map
            fun idx => ([0, 1] : List Int).length - 1 - idx) :=
  ⟨by decide, c3_bubbleSort_sorted_step [0, 1] 0 (by decide)⟩

/-! ### C6: `detectCycle`'s `finish` steps carry the flag at completion time -/

@[simp] theorem runFlag_nil (b : Bool) : runFlag b [] = b := rfl

@[simp] theorem runFlag_visit (b : Bool) (n : Nat) (v o : List Nat) (l : List GraphStep) :
    runFlag b (.visit n v o :: l) = runFlag b l := rfl

@[simp] theorem runFlag_topoVisit (b : Bool) (n : Nat) (v r : List Nat) (l : List GraphStep) :
    runFlag b (.topoVisit n v r :: l) = runFlag b l := rfl

@[simp] theorem runFlag_topoFinish (b : Bool) (n : Nat) (v r : List Nat) (l : List GraphStep) :
    runFlag b (.topoFinish n v r :: l) = runFlag b l := rfl

@[simp] theorem runFlag_cycVisit (b : Bool) (n : Nat) (c : Bool) (l : List GraphStep) :
    runFlag b (.cycVisit n c :: l) = runFlag b l := rfl

@[simp] theorem runFlag_cycCycle (b : Bool) (n : Nat) (c : Bool) (l : List GraphStep) :
    runFlag b (.cycCycle n c :: l) = runFlag true l := rfl

@[simp] theorem runFlag_cycFinish (b : Bool) (n : Nat) (c : Bool) (l : List GraphStep) :
    runFlag b (.cycFinish n c :: l) = runFlag b l := rfl

@[simp] theorem traceOk_nil (b : Bool) : traceOk b [] = true := rfl

@[simp] theorem traceOk_visit (b : Bool) (n : Nat) (v o : List Nat) (l : List GraphStep) :
    traceOk b (.visit n v o :: l) = traceOk b l := rfl

@[simp] theorem traceOk_topoVisit (b : Bool) (n : Nat) (v r : List Nat) (l : List GraphStep) :
    traceOk b (.topoVisit n v r :: l) = traceOk b l := rfl

@[simp] theorem traceOk_topoFinish (b : Bool) (n : Nat) (v r : List Nat) (l : List GraphStep) :
    traceOk b (.topoFinish n v r :: l) = traceOk b l := rfl

@[simp] theorem traceOk_cycVisit (b : Bool) (n : Nat) (c : Bool) (l : List GraphStep) :
    traceOk b (.cycVisit n c :: l) = traceOk b l := rfl

@[simp] theorem traceOk_cycCycle (b : Bool) (n : Nat) (c : Bool) (l : List GraphStep) :
    traceOk b (.cycCycle n c :: l) = (c && traceOk true l) := rfl

@[simp] theorem traceOk_cycFinish (b : Bool) (n : Nat) (c : Bool) (l : List GraphStep) :
    traceOk b (.cycFinish n c :: l) = ((c == b) && traceOk b l) := rfl

theorem runFlag_append (b : Bool) (s t : List GraphStep) :
    runFlag b (s ++ t) = runFlag (runFlag b s) t := by
  induction s generalizing b with
  | nil => rfl
  | cons x rest ih => cases x <;> simp [ih]

theorem traceOk_append (b : Bool) (s t : List GraphStep) :
    traceOk b (s ++ t) = (traceOk b s && traceOk (runFlag b s) t) := by
  induction s generalizing b with
  | nil => rfl
  | cons x rest ih => cases x <;> simp [ih, Bool.and_assoc]

theorem cycDfsList_ok (rec : Nat → (Nat → Nat) → Bool → (Nat → Nat) × Bool × List GraphStep)
    (hrec : ∀ node states flag,
      (rec node states flag).2.1 = runFlag flag (rec node states flag).2.2
        ∧ traceOk flag (rec node states flag).2.2 = true) :
    ∀ (nbs : List Nat) states flag,
      (cycDfsList rec nbs states flag).2.1
          = runFlag flag (cycDfsList rec nbs states flag).2.2
        ∧ traceOk flag (cycDfsList rec nbs states flag).2.2 = true := by
  intro nbs
  induction nbs with
  | nil => intro states flag; simp [cycDfsList]
  | cons nb rest ih =>
    intro states flag
    simp only [cycDfsList]
    split
    · obtain ⟨h1, h2⟩ := ih states true
      exact ⟨by simp [h1], by simp [h2]⟩
    · split
      · obtain ⟨hd1, hd2⟩ := hrec nb states flag
        obtain ⟨hl1, hl2⟩ :=
          ih (rec nb states flag).1 (rec nb states flag).2.1
        constructor
        · rw [runFlag_append, ← hd1]
          exact hl1
        · rw [traceOk_append, ← hd1]
          simp [hd2, hl2]
      · exact ih states flag

theorem cycDfs_ok (adj : Nat → List Nat) (fuel : Nat) :
    ∀ node states flag,
      (cycDfs adj fuel node states flag).2.1
          = runFlag flag (cycDfs adj fuel node states flag).2.2
        ∧ traceOk flag (cycDfs adj fuel node states flag).2.2 = true := by
  induction fuel with
  | zero => intro node states flag; simp [cycDfs]
  | succ f ih =>
    intro node states flag
    obtain ⟨hl1, hl2⟩ :=
      cycDfsList_ok (cycDfs adj f) ih (adj node) (fun m => if m = node then 1 else states m) flag
    simp only [cycDfs]
    constructor
    · simp only [runFlag_append, runFlag_cycVisit, runFlag_cycFinish, runFlag_nil]
      exact hl1
    · simp only [traceOk_append, traceOk_cycVisit, traceOk_cycFinish, traceOk_nil,
        runFlag_cycVisit, ← hl1]
      simp [hl2]

theorem cycOuter_ok (adj : Nat → List Nat) (n : Nat) :
    ∀ (roots : List Nat) states flag,
      (cycOuter adj n roots states flag).2.1
          = runFlag flag (cycOuter adj n roots states flag).2.2
        ∧ traceOk flag (cycOuter adj n roots states flag).2.2 = true := by
  intro roots
  induction roots with
  | nil => intro states flag; simp [cycOuter]
  | cons i rest ih =>
    intro states flag
    simp only [cycOuter]
    split
    · obtain ⟨hd1, hd2⟩ := cycDfs_ok adj (n + 1) i states flag
      obtain ⟨hl1, hl2⟩ :=
        ih (cycDfs adj (n + 1) i states flag).1 (cycDfs adj (n + 1) i states flag).2.1
      constructor
      · rw [runFlag_append, ← hd1]
        exact hl1
      · rw [traceOk_append, ← hd1]
        simp [hd2, hl2]
    · exact ih states flag

theorem detectCycle_traceOk (g : GraphV) : traceOk false (detectCycle g) = true :=
  (cycOuter_ok (buildDirectedAdj g.edges) g.nodes (List.range g.nodes) (fun _ => 0) false).2

theorem exists_cycle_shift (s : GraphStep) (rest : List GraphStep) (i : Nat)
    (hs : ∀ m c, s ≠ .cycCycle m c) :
    (∃ j, j < i ∧ ∃ m c, rest[j]? = some (.cycCycle m c))
      ↔ (∃ j, j < i + 1 ∧ ∃ m c, (s :: rest)[j]? = some (.cycCycle m c)) := by
  constructor
  · rintro ⟨j, hj, m, c, hjc⟩
    exact ⟨j + 1, by omega, m, c, by simpa using hjc⟩
  · rintro ⟨j, hj, m, c, hjc⟩
    cases j with
    | zero =>
      simp only [List.getElem?_cons_zero, Option.some_inj] at hjc
      exact absurd hjc (hs m c)
    | succ j' => exact ⟨j', by omega, m, c, by simpa using hjc⟩

theorem traceOk_finish (l : List GraphStep) :
    ∀ (b0 : Bool) (i node : Nat) (b : Bool),
      traceOk b0 l = true → l[i]? = some (.cycFinish node b) →
      (b = true
        ↔ (b0 = true ∨ ∃ j, j < i ∧ ∃ m c, l[j]? = some (.cycCycle m c))) := by
  induction l with
  | nil =>
    intro b0 i node b _ h
    simp at h
  | cons s rest ih =>
    intro b0 i node b ht h
    cases i with
    | zero =>
      simp only [List.getElem?_cons_zero, Option.some_inj] at h
      subst h
      simp only [traceOk_cycFinish, Bool.and_eq_true, beq_iff_eq] at ht
      simp [ht.1]
    | succ i =>
      simp only [List.getElem?_cons_succ] at h
      cases s with
      | cycCycle m c =>
        simp only [traceOk_cycCycle, Bool.and_eq_true] at ht
        have hiff := ih true i node b ht.2 h
        simp only [true_or] at hiff
        constructor
        · intro _
          exact Or.inr ⟨0, Nat.succ_pos i, m, c, by simp⟩
        · intro _
          exact hiff.mpr trivial
      | cycFinish m c =>
        simp only [traceOk_cycFinish, Bool.and_eq_true, beq_iff_eq] at ht
        rw [ih b0 i node b ht.2 h]
        exact or_congr_right (exists_cycle_shift _ rest i (by intro a d; simp))
      | visit m v o =>
        rw [traceOk_visit] at ht
        rw [ih b0 i node b ht h]
        exact or_congr_right (exists_cycle_shift _ rest i (by intro a d; simp))
      | topoVisit m v r =>
        rw [traceOk_topoVisit] at ht
        rw [ih b0 i node b ht h]
        exact or_congr_right (exists_cycle_shift _ rest i (by intro a d; simp))
      | topoFinish m v r =>
        rw [traceOk_topoFinish] at ht
        rw [ih b0 i node b ht h]
        exact or_congr_right (exists_cycle_shift _ rest i (by intro a d; simp))
      | cycVisit m c =>
        rw [traceOk_cycVisit] at ht
        rw [ih b0 i node b ht h]
        exact or_congr_right (exists_cycle_shift _ rest i (by intro a d; simp))

/-- C6: every `finish` step of `detectCycle` carries `hasCycle` equal to
the flag value at that node's completion time: it is `true` iff a
`cycle` step occurs strictly earlier in the returned sequence (so on a
cyclic graph, a node finished before the first back edge is found
carries `hasCycle: false`). -/
theorem c6_detectCycle_finish_flag (g : GraphV) (i node : Nat) (b : Bool)
    (h : (detectCycle g)[i]? = some (.cycFinish node b)) :
    b = true ↔ ∃ j, j < i ∧ ∃ m c, (detectCycle g)[j]? = some (.cycCycle m c) := by
  have := traceOk_finish (detectCycle g) false i node b (detectCycle_traceOk g) h
  simpa using this

/-- Witness for `c6_detectCycle_finish_flag` on the 3-cycle
`0 → 1 → 2 → 0`: step 4 is `finish 2` with `hasCycle: true` and the
`cycle` step sits at index 3. -/
theorem c6_detectCycle_finish_flag_witness :
    (detectCycle ⟨3, [(0, 1), (1, 2), (2, 0)]⟩)[4]? = some (.cycFinish 2 true)
      ∧ (true = true
        ↔ ∃ j, j < 4 ∧ ∃ m c,
            (detectCycle ⟨3, [(0, 1), (1, 2), (2, 0)]⟩)[j]? = some (.cycCycle m c)) := by
  have h : (detectCycle ⟨3, [(0, 1), (1, 2), (2, 0)]⟩)[4]? = some (.cycFinish 2 true) := by
    decide
  exact ⟨h, c6_detectCycle_finish_flag ⟨3, [(0, 1), (1, 2), (2, 0)]⟩ 4 2 true h⟩

/-! ### C10: what surrounds a `path` step -/

theorem bfsLoop_path_prev (grid : Grid) (rows cols : Int) (s e : Pos) :
    ∀ (fuel : Nat) (queue visited : List Pos) (parent : List (Pos × Pos)) (i : Nat) (p : List Pos),
      (bfsLoop grid rows cols s e fuel queue visited parent)[i]? = some (.path p) →
      0 < i ∧ ∃ vis, (bfsLoop grid rows cols s e fuel queue visited parent)[i - 1]?
        = some (.explore e vis) := by
  intro fuel
  induction fuel with
  | zero => intro queue visited parent i p hp; simp [bfsLoop] at hp
  | succ f ih =>
    intro queue visited parent i p hp
    cases queue with
    | nil => simp [bfsLoop] at hp
    | cons cur rest =>
      by_cases hc : cur = e
      · subst hc
        simp only [bfsLoop, if_pos rfl] at hp ⊢
        match i, hp with
        | 1, _ => exact ⟨Nat.one_pos, visited, rfl⟩
      · simp only [bfsLoop, if_neg hc] at hp ⊢
        cases i with
        | zero => simp at hp
        | succ i' =>
          rw [List.getElem?_cons_succ] at hp
          obtain ⟨hi, vis, hprev⟩ := ih _ _ _ i' p hp
          refine ⟨Nat.succ_pos _, vis, ?_⟩
          cases i' with
          | zero => omega
          | succ k =>
            rw [Nat.succ_sub_one, List.getElem?_cons_succ]
            simpa using hprev

theorem dijkstraLoop_path_prev (grid : Grid) (s e : Pos) (rows cols : Nat) :
    ∀ (fuel : Nat) (dist : Pos → Option ℚ) (visited : List Pos) (parent : List (Pos × Pos))
      (i : Nat) (p : List Pos),
      (dijkstraLoop grid s e rows cols fuel dist visited parent)[i]? = some (.path p) →
      0 < i ∧ ∃ vis, (dijkstraLoop grid s e rows cols fuel dist visited parent)[i - 1]?
        = some (.explore e vis) := by
  intro fuel
  induction fuel with
  | zero => intro dist visited parent i p hp; simp [dijkstraLoop] at hp
  | succ f ih =>
    intro dist visited parent i p hp
    by_cases hlt : visited.length < rows * cols
    · rw [dijkstraLoop] at hp ⊢
      rw [if_pos hlt] at hp ⊢
      cases hscan : (dijkstraScan dist visited rows cols).1 with
      | none => rw [hscan] at hp; simp at hp
      | some cur =>
        rw [hscan] at hp
        dsimp only at hp ⊢
        by_cases hc : cur = e
        · subst hc
          rw [if_pos rfl] at hp ⊢
          match i, hp with
          | 1, _ => exact ⟨Nat.one_pos, cur :: visited, rfl⟩
        · rw [if_neg hc] at hp ⊢
          cases i with
          | zero => simp at hp
          | succ i' =>
            rw [List.getElem?_cons_succ] at hp
            obtain ⟨hi, vis, hprev⟩ := ih _ _ _ i' p hp
            refine ⟨Nat.succ_pos _, vis, ?_⟩
            cases i' with
            | zero => omega
            | succ k =>
              rw [Nat.succ_sub_one, List.getElem?_cons_succ]
              simpa using hprev
    · rw [dijkstraLoop, if_neg hlt] at hp
      simp at hp

theorem aStarLoop_no_explore_at_end (grid : Grid) (s e : Pos) (rows cols : Int) :
    ∀ (fuel : Nat) (gScore fScore : Pos → Option ℚ) (parent : List (Pos × Pos))
      (openSet visited : List Pos) (i : Nat) (pos : Pos) (vis : List Pos),
      (aStarLoop grid s e rows cols fuel gScore fScore parent openSet visited)[i]?
          = some (.explore pos vis) →
      pos ≠ e := by
  intro fuel
  induction fuel with
  | zero => intro gScore fScore parent openSet visited i pos vis hp; simp [aStarLoop] at hp
  | succ f ih =>
    intro gScore fScore parent openSet visited i pos vis hp
    cases openSet with
    | nil => simp [aStarLoop] at hp
    | cons o0 restOpen =>
      by_cases hc : (aStarScan fScore o0 restOpen).1 = e
      · rw [aStarLoop, if_pos hc] at hp
        match i, hp with
        | 0, hp => exact absurd hp (by simp)
      · rw [aStarLoop, if_neg hc] at hp
        cases i with
        | zero =>
          rw [List.getElem?_cons_zero, Option.some_inj] at hp
          cases hp
          exact hc
        | succ i' =>
          rw [List.getElem?_cons_succ] at hp
          exact ih _ _ _ _ _ i' pos vis hp

/-- C10: whenever the returned sequence contains a `path` step, for
`bfs` and `dijkstra` the step immediately preceding it is an `explore`
step at the end position, whereas `aStar`'s sequence contains no
`explore` step at the end position at all (the goal test fires before
the goal pop is recorded). -/
theorem c10_path_step_context (grid : Grid) (s e : Pos) :
    (∀ i p, (bfs grid s e)[i]? = some (PathStep.path p) →
      0 < i ∧ ∃ vis, (bfs grid s e)[i - 1]? = some (PathStep.explore e vis))
    ∧ (∀ i p, (dijkstra grid s e)[i]? = some (PathStep.path p) →
      0 < i ∧ ∃ vis, (dijkstra grid s e)[i - 1]? = some (PathStep.explore e vis))
    ∧ ((∃ (i : Nat) (p : List Pos), (aStar grid s e)[i]? = some (PathStep.path p)) →
      ∀ (i : Nat) pos vis, (aStar grid s e)[i]? = some (PathStep.explore pos vis) → pos ≠ e) := by
  refine ⟨?_, ?_, ?_⟩
  · intro i p hp
    simp only [bfs] at hp ⊢
    exact bfsLoop_path_prev _ _ _ _ _ _ _ _ _ i p hp
  · intro i p hp
    simp only [dijkstra] at hp ⊢
    exact dijkstraLoop_path_prev _ _ _ _ _ _ _ _ _ i p hp
  · intro _ i pos vis hp
    simp only [aStar] at hp
    exact aStarLoop_no_explore_at_end _ _ _ _ _ _ _ _ _ _ _ i pos vis hp

/-- Witness for `c10_path_step_context` on the open 3×3 grid: `bfs`
ends with a `path` step at index 9, preceded by an `explore` step at the
end cell `(2,2)`. -/
theorem c10_path_step_context_witness :
    0 < 9 ∧ ∃ vis, (bfs [[0, 0, 0], [0, 0, 0], [0, 0, 0]] (0, 0) (2, 2))[9 - 1]?
      = some (.explore (2, 2) vis) :=
  (c10_path_step_context [[0, 0, 0], [0, 0, 0], [0, 0, 0]] (0, 0) (2, 2)).1 9
    [(0, 0), (1, 0), (2, 0), (2, 1), (2, 2)] (by decide)

/-! ### C9: visited-set snapshots grow monotonically -/

theorem foldl_invariant {α : Type _} {β : Type _} (P : α → Prop) (f : α → β → α) (l : List β)
    (init : α) (h0 : P init) (hstep : ∀ st x, P st → P (f st x)) : P (l.foldl f init) := by
  induction l generalizing init with
  | nil => exact h0
  | cons x rest ih => exact ih _ (hstep _ _ h0)

theorem bfsExpand_inv (grid : Grid) (rows cols : Int) (cur : Pos)
    (st : List Pos × List Pos × List (Pos × Pos)) (hq : ∀ q ∈ st.1, q ∈ st.2.1) :
    st.2.1 ⊆ (bfsExpand grid rows cols cur st).2.1
      ∧ ∀ q ∈ (bfsExpand grid rows cols cur st).1, q ∈ (bfsExpand grid rows cols cur st).2.1 := by
  unfold bfsExpand
  refine foldl_invariant
    (fun (st' : List Pos × List Pos × List (Pos × Pos)) =>
      st.2.1 ⊆ st'.2.1 ∧ ∀ q ∈ st'.1, q ∈ st'.2.1) _ _ _
    ⟨fun a ha => ha, hq⟩ ?_
  rintro st' d ⟨h1, h2⟩
  dsimp only
  split
  · refine ⟨fun a ha => List.mem_cons_of_mem _ (h1 ha), ?_⟩
    intro q hqm
    rcases List.mem_append.mp hqm with h | h
    · exact List.mem_cons_of_mem _ (h2 q h)
    · simp only [List.mem_singleton] at h
      subst h
      exact List.mem_cons_self _ _
  · exact ⟨h1, h2⟩

theorem bfsLoop_c9 (grid : Grid) (rows cols : Int) (s e : Pos) :
    ∀ (fuel : Nat) (queue visited : List Pos) (parent : List (Pos × Pos)),
      (∀ q ∈ queue, q ∈ visited) →
      (∀ st ∈ bfsLoop grid rows cols s e fuel queue visited parent, ∀ vs,
          st.visitedOf = some vs → visited ⊆ vs)
        ∧ (bfsLoop grid rows cols s e fuel queue visited parent).Pairwise
            (stepMono PathStep.visitedOf)
        ∧ ∀ st ∈ bfsLoop grid rows cols s e fuel queue visited parent, ∀ pos vs,
            st = PathStep.explore pos vs → pos ∈ vs := by
  intro fuel
  induction fuel with
  | zero => intro queue visited parent hq; simp [bfsLoop]
  | succ f ih =>
    intro queue visited parent hq
    cases queue with
    | nil => simp [bfsLoop]
    | cons cur rest =>
      by_cases hc : cur = e
      · subst hc
        rw [bfsLoop, if_pos rfl]
        refine ⟨?_, ?_, ?_⟩
        · intro st hst vs hvs
          rcases List.mem_cons.mp hst with rfl | hst
          · simp only [PathStep.visitedOf, Option.some_inj] at hvs
            subst hvs
            exact fun a ha => ha
          · simp only [List.mem_singleton] at hst
            subst hst
            simp [PathStep.visitedOf] at hvs
        · refine List.Pairwise.cons ?_ (by simp)
          intro t ht vs vt hvs hvt
          simp only [List.mem_singleton] at ht
          subst ht
          simp [PathStep.visitedOf] at hvt
        · intro st hst pos vs hstep
          rcases List.mem_cons.mp hst with rfl | hst
          · cases hstep
            exact hq _ (List.mem_cons_self _ _)
          · simp only [List.mem_singleton] at hst
            subst hst
            cases hstep
      · rw [bfsLoop, if_neg hc]
        dsimp only
        have hexp := bfsExpand_inv grid rows cols cur (rest, visited, parent)
          (fun q hq' => hq q (List.mem_cons_of_mem _ hq'))
        obtain ⟨ih1, ih2, ih3⟩ := ih _ _ _ hexp.2
        refine ⟨?_, ?_, ?_⟩
        · intro st hst vs hvs
          rcases List.mem_cons.mp hst with rfl | hst
          · simp only [PathStep.visitedOf, Option.some_inj] at hvs
            subst hvs
            exact fun a ha => ha
          · exact fun a ha => ih1 st hst vs hvs (hexp.1 ha)
        · refine List.Pairwise.cons ?_ ih2
          intro t ht vs vt hvs hvt
          simp only [PathStep.visitedOf, Option.some_inj] at hvs
          subst hvs
          exact fun a ha => ih1 t ht vt hvt (hexp.1 ha)
        · intro st hst pos vs hstep
          rcases List.mem_cons.mp hst with rfl | hst
          · cases hstep
            exact hq _ (List.mem_cons_self _ _)
          · exact ih3 st hst pos vs hstep

theorem dijkstraLoop_c9 (grid : Grid) (s e : Pos) (rows cols : Nat) :
    ∀ (fuel : Nat) (dist : Pos → Option ℚ) (visited : List Pos) (parent : List (Pos × Pos)),
      (∀ st ∈ dijkstraLoop grid s e rows cols fuel dist visited parent, ∀ vs,
          st.visitedOf = some vs → visited ⊆ vs)
        ∧ (dijkstraLoop grid s e rows cols fuel dist visited parent).Pairwise
            (stepMono PathStep.visitedOf)
        ∧ ∀ st ∈ dijkstraLoop grid s e rows cols fuel dist visited parent, ∀ pos vs,
            st = PathStep.explore pos vs → pos ∈ vs := by
  intro fuel
  induction fuel with
  | zero => intro dist visited parent; simp [dijkstraLoop]
  | succ f ih =>
    intro dist visited parent
    rw [dijkstraLoop]
    by_cases hlt : visited.length < rows * cols
    · rw [if_pos hlt]
      cases hscan : (dijkstraScan dist visited rows cols).1 with
      | none => simp
      | some cur =>
        dsimp only
        by_cases hc : cur = e
        · subst hc
          rw [if_pos rfl]
          refine ⟨?_, ?_, ?_⟩
          · intro st hst vs hvs
            rcases List.mem_cons.mp hst with rfl | hst
            · simp only [PathStep.visitedOf, Option.some_inj] at hvs
              subst hvs
              exact fun a ha => List.mem_cons_of_mem _ ha
            · simp only [List.mem_singleton] at hst
              subst hst
              simp [PathStep.visitedOf] at hvs
          · refine List.Pairwise.cons ?_ (by simp)
            intro t ht vs vt hvs hvt
            simp only [List.mem_singleton] at ht
            subst ht
            simp [PathStep.visitedOf] at hvt
          · intro st hst pos vs hstep
            rcases List.mem_cons.mp hst with rfl | hst
            · cases hstep
              exact List.mem_cons_self _ _
            · simp only [List.mem_singleton] at hst
              subst hst
              cases hstep
        · rw [if_neg hc]
          obtain ⟨ih1, ih2, ih3⟩ := ih (dijkstraRelax grid rows cols cur (dist, parent)).1
            (cur :: visited) (dijkstraRelax grid rows cols cur (dist, parent)).2
          refine ⟨?_, ?_, ?_⟩
          · intro st hst vs hvs
            rcases List.mem_cons.mp hst with rfl | hst
            · simp only [PathStep.visitedOf, Option.some_inj] at hvs
              subst hvs
              exact fun a ha => List.mem_cons_of_mem _ ha
            · exact fun a ha => ih1 st hst vs hvs (List.mem_cons_of_mem _ ha)
          · refine List.Pairwise.cons ?_ ih2
            intro t ht vs vt hvs hvt
            simp only [PathStep.visitedOf, Option.some_inj] at hvs
            subst hvs
            exact ih1 t ht vt hvt
          · intro st hst pos vs hstep
            rcases List.mem_cons.mp hst with rfl | hst
            · cases hstep
              exact List.mem_cons_self _ _
            · exact ih3 st hst pos vs hstep
    · rw [if_neg hlt]
      simp

theorem aStarLoop_c9 (grid : Grid) (s e : Pos) (rows cols : Int) :
    ∀ (fuel : Nat) (gScore fScore : Pos → Option ℚ) (parent : List (Pos × Pos))
      (openSet visited : List Pos),
      (∀ st ∈ aStarLoop grid s e rows cols fuel gScore fScore parent openSet visited, ∀ vs,
          st.visitedOf = some vs → visited ⊆ vs)
        ∧ (aStarLoop grid s e rows cols fuel gScore fScore parent openSet visited).Pairwise
            (stepMono PathStep.visitedOf)
        ∧ ∀ st ∈ aStarLoop grid s e rows cols fuel gScore fScore parent openSet visited,
            ∀ pos vs, st = PathStep.explore pos vs → pos ∈ vs := by
  intro fuel
  induction fuel with
  | zero => intro gScore fScore parent openSet visited; simp [aStarLoop]
  | succ f ih =>
    intro gScore fScore parent openSet visited
    cases openSet with
    | nil => simp [aStarLoop]
    | cons o0 restOpen =>
      rw [aStarLoop]
      by_cases hc : (aStarScan fScore o0 restOpen).1 = e
      · rw [if_pos hc]
        refine ⟨?_, by simp, ?_⟩
        · intro st hst vs hvs
          simp only [List.mem_singleton] at hst
          subst hst
          simp [PathStep.visitedOf] at hvs
        · intro st hst pos vs hstep
          simp only [List.mem_singleton] at hst
          subst hst
          cases hstep
      · rw [if_neg hc]
        dsimp only
        obtain ⟨ih1, ih2, ih3⟩ := ih
          (aStarRelax grid rows cols e (aStarScan fScore o0 restOpen).1
            ((aStarScan fScore o0 restOpen).1 :: visited)
            (gScore, fScore, parent, (o0 :: restOpen).eraseIdx (aStarScan fScore o0 restOpen).2)).1
          (aStarRelax grid rows cols e (aStarScan fScore o0 restOpen).1
            ((aStarScan fScore o0 restOpen).1 :: visited)
            (gScore, fScore, parent, (o0 :: restOpen).eraseIdx (aStarScan fScore o0 restOpen).2)).2.1
          (aStarRelax grid rows cols e (aStarScan fScore o0 restOpen).1
            ((aStarScan fScore o0 restOpen).1 :: visited)
            (gScore, fScore, parent, (o0 :: restOpen).eraseIdx (aStarScan fScore o0 restOpen).2)).2.2.1
          (aStarRelax grid rows cols e (aStarScan fScore o0 restOpen).1
            ((aStarScan fScore o0 restOpen).1 :: visited)
            (gScore, fScore, parent, (o0 :: restOpen).eraseIdx (aStarScan fScore o0 restOpen).2)).2.2.2
          ((aStarScan fScore o0 restOpen).1 :: visited)
        refine ⟨?_, ?_, ?_⟩
        · intro st hst vs hvs
          rcases List.mem_cons.mp hst with rfl | hst
          · simp only [PathStep.visitedOf, Option.some_inj] at hvs
            subst hvs
            exact fun a ha => List.mem_cons_of_mem _ ha
          · exact fun a ha => ih1 st hst vs hvs (List.mem_cons_of_mem _ ha)
        · refine List.Pairwise.cons ?_ ih2
          intro t ht vs vt hvs hvt
          simp only [PathStep.visitedOf, Option.some_inj] at hvs
          subst hvs
          exact ih1 t ht vt hvt
        · intro st hst pos vs hstep
          rcases List.mem_cons.mp hst with rfl | hst
          · cases hstep
            exact List.mem_cons_self _ _
          · exact ih3 st hst pos vs hstep

theorem dfsLoop_c9 (g : GraphV) :
    ∀ (fuel : Nat) (stack visited visitOrder : List Nat),
      (∀ st ∈ dfsLoop g fuel stack visited visitOrder, ∀ vs,
          st.visitedOf = some vs → visited ⊆ vs)
        ∧ (dfsLoop g fuel stack visited visitOrder).Pairwise (stepMono GraphStep.visitedOf)
        ∧ ∀ st ∈ dfsLoop g fuel stack visited visitOrder, ∀ nd vs vo,
            st = GraphStep.visit nd vs vo → nd ∈ vs := by
  intro fuel
  induction fuel with
  | zero => intro stack visited visitOrder; simp [dfsLoop]
  | succ f ih =>
    intro stack visited visitOrder
    cases stack with
    | nil => simp [dfsLoop]
    | cons node rest =>
      rw [dfsLoop]
      by_cases hv : node ∉ visited
      · rw [if_pos hv]
        dsimp only
        obtain ⟨ih1, ih2, ih3⟩ := ih
          (((buildAdjacencyList g.nodes g.edges) node).reverse.foldl
            (fun st nb => if nb ∉ node :: visited then nb :: st else st) rest)
          (node :: visited) (visitOrder ++ [node])
        refine ⟨?_, ?_, ?_⟩
        · intro st hst vs hvs
          rcases List.mem_cons.mp hst with rfl | hst
          · simp only [GraphStep.visitedOf, Option.some_inj] at hvs
            subst hvs
            exact fun a ha => List.mem_cons_of_mem _ ha
          · exact fun a ha => ih1 st hst vs hvs (List.mem_cons_of_mem _ ha)
        · refine List.Pairwise.cons ?_ ih2
          intro t ht vs vt hvs hvt
          simp only [GraphStep.visitedOf, Option.some_inj] at hvs
          subst hvs
          exact ih1 t ht vt hvt
        · intro st hst nd vs vo hstep
          rcases List.mem_cons.mp hst with rfl | hst
          · cases hstep
            exact List.mem_cons_self _ _
          · exact ih3 st hst nd vs vo hstep
      · rw [if_neg hv]
        exact ih rest visited visitOrder

theorem graphBFSLoop_c9 (adj : Nat → List Nat) :
    ∀ (fuel : Nat) (queue visited visitOrder : List Nat),
      (∀ q ∈ queue, q ∈ visited) →
      (∀ st ∈ graphBFSLoop adj fuel queue visited visitOrder, ∀ vs,
          st.visitedOf = some vs → visited ⊆ vs)
        ∧ (graphBFSLoop adj fuel queue visited visitOrder).Pairwise
            (stepMono GraphStep.visitedOf)
        ∧ ∀ st ∈ graphBFSLoop adj fuel queue visited visitOrder, ∀ nd vs vo,
            st = GraphStep.visit nd vs vo → nd ∈ vs := by
  intro fuel
  induction fuel with
  | zero => intro queue visited visitOrder hq; simp [graphBFSLoop]
  | succ f ih =>
    intro queue visited visitOrder hq
    cases queue with
    | nil => simp [graphBFSLoop]
    | cons node rest =>
      rw [graphBFSLoop]
      have hexp := foldl_invariant
        (fun (st' : List Nat × List Nat) => visited ⊆ st'.2 ∧ ∀ q ∈ st'.1, q ∈ st'.2)
        (fun st nb => if nb ∉ st.2 then (st.1 ++ [nb], nb :: st.2) else st)
        (adj node) (rest, visited)
        ⟨fun a ha => ha, fun q hq' => hq q (List.mem_cons_of_mem _ hq')⟩
        (by
          rintro st' nb ⟨h1, h2⟩
          dsimp only
          split
          · refine ⟨fun a ha => List.mem_cons_of_mem _ (h1 ha), ?_⟩
            intro q hqm
            rcases List.mem_append.mp hqm with h | h
            · exact List.mem_cons_of_mem _ (h2 q h)
            · simp only [List.mem_singleton] at h
              subst h
              exact List.mem_cons_self _ _
          · exact ⟨h1, h2⟩)
      obtain ⟨ih1, ih2, ih3⟩ := ih
        ((adj node).foldl (fun st nb => if nb ∉ st.2 then (st.1 ++ [nb], nb :: st.2) else st)
          (rest, visited)).1
        ((adj node).foldl (fun st nb => if nb ∉ st.2 then (st.1 ++ [nb], nb :: st.2) else st)
          (rest, visited)).2
        (visitOrder ++ [node]) hexp.2
      refine ⟨?_, ?_, ?_⟩
      · intro st hst vs hvs
        rcases List.mem_cons.mp hst with rfl | hst
        · simp only [GraphStep.visitedOf, Option.some_inj] at hvs
          subst hvs
          exact fun a ha => ha
        · exact fun a ha => ih1 st hst vs hvs (hexp.1 ha)
      · refine List.Pairwise.cons ?_ ih2
        intro t ht vs vt hvs hvt
        simp only [GraphStep.visitedOf, Option.some_inj] at hvs
        subst hvs
        exact fun a ha => ih1 t ht vt hvt (hexp.1 ha)
      · intro st hst nd vs vo hstep
        rcases List.mem_cons.mp hst with rfl | hst
        · cases hstep
          exact hq _ (List.mem_cons_self _ _)
        · exact ih3 st hst nd vs vo hstep

theorem topoSpec_nil (v : List Nat) : topoSpec v v [] :=
  ⟨fun a ha => ha, by simp, by simp, by simp⟩

theorem topoSpec_append {v1 v2 v3 : List Nat} {s1 s2 : List GraphStep}
    (h1 : topoSpec v1 v2 s1) (h2 : topoSpec v2 v3 s2) : topoSpec v1 v3 (s1 ++ s2) := by
  obtain ⟨h1a, h1b, h1c, h1d⟩ := h1
  obtain ⟨h2a, h2b, h2c, h2d⟩ := h2
  refine ⟨h1a.trans h2a, ?_, ?_, ?_⟩
  · intro st hst vs hvs
    rcases List.mem_append.mp hst with h | h
    · exact ⟨(h1b st h vs hvs).1, ((h1b st h vs hvs).2).trans h2a⟩
    · exact ⟨h1a.trans (h2b st h vs hvs).1, (h2b st h vs hvs).2⟩
  · rw [List.pairwise_append]
    refine ⟨h1c, h2c, ?_⟩
    intro a ha b hb vs vt hvs hvt
    exact ((h1b a ha vs hvs).2).trans (h2b b hb vt hvt).1
  · intro st hst nd vs res hstep
    rcases List.mem_append.mp hst with h | h
    · exact h1d st h nd vs res hstep
    · exact h2d st h nd vs res hstep

theorem topoDfsList_spec
    (rec : Nat → List Nat → List Nat → List Nat × List Nat × List GraphStep)
    (hrec : ∀ nd visited result,
      topoSpec visited (rec nd visited result).1 (rec nd visited result).2.2) :
    ∀ (nbs visited result : List Nat),
      topoSpec visited (topoDfsList rec nbs visited result).1
        (topoDfsList rec nbs visited result).2.2 := by
  intro nbs
  induction nbs with
  | nil => intro visited result; simpa [topoDfsList] using topoSpec_nil visited
  | cons nb rest ih =>
    intro visited result
    rw [topoDfsList]
    by_cases hv : nb ∉ visited
    · rw [if_pos hv]
      dsimp only
      exact topoSpec_append (hrec nb visited result) (ih _ _)
    · rw [if_neg hv]
      exact ih visited result

theorem topoDfs_spec (adj : Nat → List Nat) :
    ∀ (fuel : Nat) (node : Nat) (visited result : List Nat),
      topoSpec visited (topoDfs adj fuel node visited result).1
        (topoDfs adj fuel node visited result).2.2 := by
  intro fuel
  induction fuel with
  | zero => intro node visited result; simpa [topoDfs] using topoSpec_nil visited
  | succ f ih =>
    intro node visited result
    rw [topoDfs]
    dsimp only
    have hlist := topoDfsList_spec (topoDfs adj f) (fun nd v r => ih nd v r)
      (adj node) (node :: visited) result
    obtain ⟨la, lb, lc, ld⟩ := hlist
    have hsub : visited ⊆ node :: visited := fun a ha => List.mem_cons_of_mem _ ha
    have hhead : topoSpec visited
        (topoDfsList (topoDfs adj f) (adj node) (node :: visited) result).1
        (GraphStep.topoVisit node (node :: visited) result
          :: (topoDfsList (topoDfs adj f) (adj node) (node :: visited) result).2.2) := by
      refine ⟨hsub.trans la, ?_, ?_, ?_⟩
      · intro st hst vs hvs
        rcases List.mem_cons.mp hst with rfl | hst
        · simp only [GraphStep.visitedOf, Option.some_inj] at hvs
          subst hvs
          exact ⟨hsub, la⟩
        · exact ⟨hsub.trans (lb st hst vs hvs).1, (lb st hst vs hvs).2⟩
      · refine List.Pairwise.cons ?_ lc
        intro t ht vs vt hvs hvt
        simp only [GraphStep.visitedOf, Option.some_inj] at hvs
        subst hvs
        exact (lb t ht vt hvt).1
      · intro st hst nd vs res hstep
        rcases List.mem_cons.mp hst with rfl | hst
        · cases hstep
          exact List.mem_cons_self _ _
        · exact ld st hst nd vs res hstep
    have htail : topoSpec
        (topoDfsList (topoDfs adj f) (adj node) (node :: visited) result).1
        (topoDfsList (topoDfs adj f) (adj node) (node :: visited) result).1
        [GraphStep.topoFinish node
          (topoDfsList (topoDfs adj f) (adj node) (node :: visited) result).1
          (node :: (topoDfsList (topoDfs adj f) (adj node) (node :: visited) result).2.1)] := by
      refine ⟨fun a ha => ha, ?_, ?_, ?_⟩
      · intro st hst vs hvs
        simp only [List.mem_singleton] at hst
        subst hst
        simp only [GraphStep.visitedOf, Option.some_inj] at hvs
        subst hvs
        exact ⟨fun a ha => ha, fun a ha => ha⟩
      · simp
      · intro st hst nd vs res hstep
        simp only [List.mem_singleton] at hst
        subst hst
        cases hstep
    exact topoSpec_append hhead htail

theorem topoOuter_spec (adj : Nat → List Nat) (n : Nat) :
    ∀ (roots visited result : List Nat),
      topoSpec visited (topoOuter adj n roots visited result).1
        (topoOuter adj n roots visited result).2.2 := by
  intro roots
  induction roots with
  | nil => intro visited result; simpa [topoOuter] using topoSpec_nil visited
  | cons i rest ih =>
    intro visited result
    rw [topoOuter]
    by_cases hv : i ∉ visited
    · rw [if_pos hv]
      dsimp only
      exact topoSpec_append (topoDfs_spec adj (n + 1) i visited result) (ih _ _)
    · rw [if_neg hv]
      exact ih visited result

theorem pairwise_mono_getElem {σ α : Type} (visOf : σ → Option (List α)) (l : List σ)
    (hp : l.Pairwise (stepMono visOf)) :
    ∀ (i j : Nat) (vi vj : List α), i ≤ j → l[i]?.bind visOf = some vi →
      l[j]?.bind visOf = some vj → vi ⊆ vj := by
  intro i j vi vj hij hi hj
  rcases Nat.lt_or_ge i j with hlt | hge
  · cases hsi : l[i]? with
    | none => rw [hsi] at hi; simp at hi
    | some si =>
      cases hsj : l[j]? with
      | none => rw [hsj] at hj; simp at hj
      | some sj =>
        rw [hsi] at hi
        rw [hsj] at hj
        simp only [Option.some_bind] at hi hj
        have hibound := List.getElem?_eq_some_iff.mp hsi
        have hjbound := List.getElem?_eq_some_iff.mp hsj
        obtain ⟨hib, hie⟩ := hibound
        obtain ⟨hjb, hje⟩ := hjbound
        have := List.pairwise_iff_getElem.mp hp i j hib hjb hlt
        rw [hie, hje] at this
        exact this vi vj hi hj
  · have : i = j := by omega
    subst this
    rw [hi] at hj
    injection hj with hj
    subst hj
    exact fun a ha => ha

/-- C9: in the step sequences returned by `bfs`, `dijkstra`, `aStar`,
`dfs`, `graphBFS` and `topologicalSort`, visited-set snapshots are
monotonically non-decreasing along the sequence (every later snapshot
contains every earlier one), and every `explore`/`visit` step's snapshot
contains that step's own position or node. -/
theorem c9_visited_monotone (grid : Grid) (s e : Pos) (g : GraphV) (start : Nat) :
    ((∀ (i j : Nat) vi vj, i ≤ j → ((bfs grid s e)[i]?.bind PathStep.visitedOf) = some vi →
        ((bfs grid s e)[j]?.bind PathStep.visitedOf) = some vj → vi ⊆ vj)
      ∧ ∀ st ∈ bfs grid s e, ∀ pos vs, st = PathStep.explore pos vs → pos ∈ vs)
    ∧ ((∀ (i j : Nat) vi vj, i ≤ j →
        ((dijkstra grid s e)[i]?.bind PathStep.visitedOf) = some vi →
        ((dijkstra grid s e)[j]?.bind PathStep.visitedOf) = some vj → vi ⊆ vj)
      ∧ ∀ st ∈ dijkstra grid s e, ∀ pos vs, st = PathStep.explore pos vs → pos ∈ vs)
    ∧ ((∀ (i j : Nat) vi vj, i ≤ j → ((aStar grid s e)[i]?.bind PathStep.visitedOf) = some vi →
        ((aStar grid s e)[j]?.bind PathStep.visitedOf) = some vj → vi ⊆ vj)
      ∧ ∀ st ∈ aStar grid s e, ∀ pos vs, st = PathStep.explore pos vs → pos ∈ vs)
    ∧ ((∀ (i j : Nat) vi vj, i ≤ j → ((dfs g start)[i]?.bind GraphStep.visitedOf) = some vi →
        ((dfs g start)[j]?.bind GraphStep.visitedOf) = some vj → vi ⊆ vj)
      ∧ ∀ st ∈ dfs g start, ∀ nd vs vo, st = GraphStep.visit nd vs vo → nd ∈ vs)
    ∧ ((∀ (i j : Nat) vi vj, i ≤ j →
        ((graphBFS g start)[i]?.bind GraphStep.visitedOf) = some vi →
        ((graphBFS g start)[j]?.bind GraphStep.visitedOf) = some vj → vi ⊆ vj)
      ∧ ∀ st ∈ graphBFS g start, ∀ nd vs vo, st = GraphStep.visit nd vs vo → nd ∈ vs)
    ∧ ((∀ (i j : Nat) vi vj, i ≤ j →
        ((topologicalSort g)[i]?.bind GraphStep.visitedOf) = some vi →
        ((topologicalSort g)[j]?.bind GraphStep.visitedOf) = some vj → vi ⊆ vj)
      ∧ ∀ st ∈ topologicalSort g, ∀ nd vs res, st = GraphStep.topoVisit nd vs res → nd ∈ vs) := by
  obtain ⟨b1, b2, b3⟩ := bfsLoop_c9 grid grid.length (grid.getD 0 []).length s e
    (grid.length * (grid.getD 0 []).length + 1) [s] [s] []
    (by intro q hq; simpa using hq)
  obtain ⟨d1, d2, d3⟩ := dijkstraLoop_c9 grid s e grid.length (grid.getD 0 []).length
    (grid.length * (grid.getD 0 []).length + 1)
    (fun p => if p = s then some 0 else none) [] []
  obtain ⟨a1, a2, a3⟩ := aStarLoop_c9 grid s e grid.length (grid.getD 0 []).length
    (grid.length * (grid.getD 0 []).length + 2)
    (fun p => if p = s then some 0 else none)
    (fun p => if p = s then some (heuristic e s) else none) [] [s] []
  obtain ⟨f1, f2, f3⟩ := dfsLoop_c9 g (1 + g.nodes * (1 + 2 * g.edges.length) + 1) [start] [] []
  obtain ⟨g1, g2, g3⟩ := graphBFSLoop_c9 (buildAdjacencyList g.nodes g.edges) (g.nodes + 2)
    [start] [start] [] (by intro q hq; simpa using hq)
  obtain ⟨-, t2, t3, t4⟩ := topoOuter_spec (buildDirectedAdj g.edges) g.nodes
    (List.range g.nodes) [] []
  refine ⟨⟨?_, ?_⟩, ⟨?_, ?_⟩, ⟨?_, ?_⟩, ⟨?_, ?_⟩, ⟨?_, ?_⟩, ⟨?_, ?_⟩⟩
  · intro i j vi vj hij hi hj
    simp only [bfs] at hi hj
    exact pairwise_mono_getElem _ _ b2 i j vi vj hij hi hj
  · intro st hst pos vs hstep
    simp only [bfs] at hst
    exact b3 st hst pos vs hstep
  · intro i j vi vj hij hi hj
    simp only [dijkstra] at hi hj
    exact pairwise_mono_getElem _ _ d2 i j vi vj hij hi hj
  · intro st hst pos vs hstep
    simp only [dijkstra] at hst
    exact d3 st hst pos vs hstep
  · intro i j vi vj hij hi hj
    simp only [aStar] at hi hj
    exact pairwise_mono_getElem _ _ a2 i j vi vj hij hi hj
  · intro st hst pos vs hstep
    simp only [aStar] at hst
    exact a3 st hst pos vs hstep
  · intro i j vi vj hij hi hj
    simp only [dfs] at hi hj
    exact pairwise_mono_getElem _ _ f2 i j vi vj hij hi hj
  · intro st hst nd vs vo hstep
    simp only [dfs] at hst
    exact f3 st hst nd vs vo hstep
  · intro i j vi vj hij hi hj
    simp only [graphBFS] at hi hj
    exact pairwise_mono_getElem _ _ g2 i j vi vj hij hi hj
  · intro st hst nd vs vo hstep
    simp only [graphBFS] at hst
    exact g3 st hst nd vs vo hstep
  · intro i j vi vj hij hi hj
    simp only [topologicalSort] at hi hj
    exact pairwise_mono_getElem _ _ t3 i j vi vj hij hi hj
  · intro st hst nd vs res hstep
    simp only [topologicalSort] at hst
    exact t4 st hst nd vs res hstep

/-- Witness for `c9_visited_monotone` on the open 3×3 grid: `bfs`'s
first and third snapshots satisfy the inclusion. -/
theorem c9_visited_monotone_witness :
    (0 : Nat) ≤ 2
      ∧ ((bfs [[0, 0, 0], [0, 0, 0], [0, 0, 0]] (0, 0) (2, 2))[0]?.bind
          PathStep.visitedOf) = some [(0, 0)]
      ∧ ((bfs [[0, 0, 0], [0, 0, 0], [0, 0, 0]] (0, 0) (2, 2))[2]?.bind
          PathStep.visitedOf) = some [(1, 1), (2, 0), (0, 1), (1, 0), (0, 0)]
      ∧ ([(0, 0)] : List Pos) ⊆ [(1, 1), (2, 0), (0, 1), (1, 0), (0, 0)] :=
  ⟨by omega, by decide, by decide,
    (c9_visited_monotone [[0, 0, 0], [0, 0, 0], [0, 0, 0]] (0, 0) (2, 2) ⟨0, []⟩ 0).1.1
      0 2 [(0, 0)] [(1, 1), (2, 0), (0, 1), (1, 0), (0, 0)] (by omega) (by decide) (by decide)⟩

/-! ### C4: no `path` step when the end is unreachable -/

theorem foldl_invariant_mem {α : Type _} {β : Type _} (P : α → Prop) (f : α → β → α)
    (l : List β) (init : α) (h0 : P init)
    (hstep : ∀ st x, x ∈ l → P st → P (f st x)) : P (l.foldl f init) := by
  have general : ∀ (l' : List β), l' ⊆ l → ∀ init, P init → P (l'.foldl f init) := by
    intro l'
    induction l' with
    | nil => intro _ init h; exact h
    | cons x rest ih =>
      intro hsub init h
      exact ih (fun y hy => hsub (List.mem_cons_of_mem _ hy)) _
        (hstep init x (hsub (List.mem_cons_self _ _)) h)
  exact general l (fun y hy => hy) init h0

theorem validPathG_single (dirs : List Pos) (grid : Grid) (rows cols : Int) (s : Pos) :
    validPathG dirs grid rows cols s s [s] :=
  ⟨rfl, rfl⟩

theorem validPathG_snoc (dirs : List Pos) (grid : Grid) (rows cols : Int) {a b : Pos}
    (hab : stepOk dirs grid rows cols a b) :
    ∀ (p : List Pos) (s : Pos), validPathG dirs grid rows cols s a p →
      validPathG dirs grid rows cols s b (p ++ [b]) := by
  intro p
  induction p with
  | nil => intro s hp; exact absurd hp (by simp [validPathG])
  | cons p0 tail ih =>
    intro s hp
    cases tail with
    | nil =>
      obtain ⟨h1, h2⟩ := hp
      subst h1
      subst h2
      exact ⟨rfl, hab, rfl, rfl⟩
    | cons q rest =>
      obtain ⟨h1, h2, h3⟩ := hp
      subst h1
      exact ⟨rfl, h2, ih q h3⟩

theorem validPathG_mono {dirs dirs' : List Pos} (grid : Grid) (rows cols : Int)
    (hsub : dirs ⊆ dirs') :
    ∀ (p : List Pos) (s e : Pos), validPathG dirs grid rows cols s e p →
      validPathG dirs' grid rows cols s e p := by
  intro p
  induction p with
  | nil => intro s e hp; exact absurd hp (by simp [validPathG])
  | cons p0 tail ih =>
    intro s e hp
    cases tail with
    | nil => exact hp
    | cons q rest =>
      obtain ⟨h1, ⟨hd, ho⟩, h3⟩ := hp
      exact ⟨h1, ⟨hsub hd, ho⟩, ih q e h3⟩

theorem bfsExpand_reach (grid : Grid) (rows cols : Int) (s cur : Pos)
    (st : List Pos × List Pos × List (Pos × Pos))
    (hq : ∀ q ∈ st.1, q ∈ st.2.1)
    (hvis : ∀ v ∈ st.2.1, ∃ p, validPathG directions4 grid rows cols s v p)
    (hcur : ∃ p, validPathG directions4 grid rows cols s cur p) :
    (∀ v ∈ (bfsExpand grid rows cols cur st).2.1,
        ∃ p, validPathG directions4 grid rows cols s v p)
      ∧ ∀ q ∈ (bfsExpand grid rows cols cur st).1, q ∈ (bfsExpand grid rows cols cur st).2.1 := by
  unfold bfsExpand
  refine foldl_invariant_mem
    (fun (st' : List Pos × List Pos × List (Pos × Pos)) =>
      (∀ v ∈ st'.2.1, ∃ p, validPathG directions4 grid rows cols s v p)
        ∧ ∀ q ∈ st'.1, q ∈ st'.2.1) _ _ _ ⟨hvis, hq⟩ ?_
  rintro st' d hd ⟨h1, h2⟩
  dsimp only
  split
  · next hcond =>
    constructor
    · intro v hv
      rcases List.mem_cons.mp hv with rfl | hv
      · obtain ⟨p, hp⟩ := hcur
        refine ⟨p ++ [(cur.1 + d.1, cur.2 + d.2)],
          validPathG_snoc _ _ _ _ ⟨?_, hcond.1⟩ p s hp⟩
        have : (cur.1 + d.1 - cur.1, cur.2 + d.2 - cur.2) = d := by
          obtain ⟨d1, d2⟩ := d
          simp only [Prod.mk.injEq]
          omega
        rw [this]
        exact hd
      · exact h1 v hv
    · intro q hqm
      rcases List.mem_append.mp hqm with h | h
      · exact List.mem_cons_of_mem _ (h2 q h)
      · simp only [List.mem_singleton] at h
        subst h
        exact List.mem_cons_self _ _
  · exact ⟨h1, h2⟩

theorem bfsLoop_no_path (grid : Grid) (rows cols : Int) (s e : Pos)
    (hne : ¬ ∃ p, validPathG directions4 grid rows cols s e p) :
    ∀ (fuel : Nat) (queue visited : List Pos) (parent : List (Pos × Pos)),
      (∀ q ∈ queue, q ∈ visited) →
      (∀ v ∈ visited, ∃ p, validPathG directions4 grid rows cols s v p) →
      ∀ st ∈ bfsLoop grid rows cols s e fuel queue visited parent,
        ∃ pos vis, st = PathStep.explore pos vis := by
  intro fuel
  induction fuel with
  | zero => intro queue visited parent hq hvis; simp [bfsLoop]
  | succ f ih =>
    intro queue visited parent hq hvis
    cases queue with
    | nil => simp [bfsLoop]
    | cons cur rest =>
      by_cases hc : cur = e
      · subst hc
        exact absurd (hvis cur (hq cur (List.mem_cons_self _ _))) hne
      · rw [bfsLoop, if_neg hc]
        dsimp only
        have hexp := bfsExpand_reach grid rows cols s cur (rest, visited, parent)
          (fun q hq' => hq q (List.mem_cons_of_mem _ hq')) hvis
          (hvis cur (hq cur (List.mem_cons_self _ _)))
        intro st hst
        rcases List.mem_cons.mp hst with rfl | hst
        · exact ⟨cur, visited, rfl⟩
        · exact ih _ _ _ hexp.2 hexp.1 st hst

theorem ltInf_some {a b : Option ℚ} (h : ltInf a b = true) : ∃ x, a = some x := by
  cases a with
  | none => simp [ltInf] at h
  | some x => exact ⟨x, rfl⟩

theorem dijkstraScan_some (dist : Pos → Option ℚ) (visited : List Pos) (rows cols : Nat)
    (cur : Pos) (h : (dijkstraScan dist visited rows cols).1 = some cur) :
    ∃ d, dist cur = some d := by
  unfold dijkstraScan at h
  refine foldl_invariant
    (fun (acc : Option Pos × Option ℚ) => ∀ p, acc.1 = some p → ∃ d, dist p = some d)
    (fun acc p => if p ∉ visited ∧ ltInf (dist p) acc.2 = true then (some p, dist p) else acc)
    (cellList rows cols) (none, none) (by simp) ?_ cur h
  rintro acc p hacc
  dsimp only
  split
  · next hcond =>
    intro q hqe
    injection hqe with hqe
    subst hqe
    exact ltInf_some hcond.2
  · exact hacc

theorem dijkstraRelax_reach (grid : Grid) (rows cols : Int) (s cur : Pos)
    (st : (Pos → Option ℚ) × List (Pos × Pos))
    (hd : ∀ v d, st.1 v = some d → ∃ p, validPathG dirs8 grid rows cols s v p) :
    ∀ v d, (dijkstraRelax grid rows cols cur st).1 v = some d →
      ∃ p, validPathG dirs8 grid rows cols s v p := by
  unfold dijkstraRelax
  refine foldl_invariant_mem
    (fun (st' : (Pos → Option ℚ) × List (Pos × Pos)) =>
      ∀ v d, st'.1 v = some d → ∃ p, validPathG dirs8 grid rows cols s v p)
    _ _ _ hd ?_
  rintro st' dc hdc h1
  dsimp only
  split
  · next hopen =>
    split
    · next hlt =>
      intro v d hv
      simp only [setMap] at hv
      by_cases hveq : v = (cur.1 + dc.1.1, cur.2 + dc.1.2)
      · obtain ⟨dcur, hdcur⟩ := ltInf_some hlt
        simp only [addInf, Option.map_eq_some'] at hdcur
        obtain ⟨gc, hgc, -⟩ := hdcur
        obtain ⟨p, hp⟩ := h1 cur gc hgc
        subst hveq
        refine ⟨p ++ [(cur.1 + dc.1.1, cur.2 + dc.1.2)],
          validPathG_snoc _ _ _ _ ⟨?_, hopen⟩ p s hp⟩
        have : (cur.1 + dc.1.1 - cur.1, cur.2 + dc.1.2 - cur.2) = dc.1 := by
          obtain ⟨⟨d1, d2⟩, c⟩ := dc
          simp only [Prod.mk.injEq]
          omega
        rw [this]
        exact List.mem_map_of_mem Prod.fst hdc
      · rw [if_neg hveq] at hv
        exact h1 v d hv
    · exact h1
  · exact h1

theorem dijkstraLoop_no_path (grid : Grid) (s e : Pos) (rows cols : Nat)
    (hne : ¬ ∃ p, validPathG dirs8 grid rows cols s e p) :
    ∀ (fuel : Nat) (dist : Pos → Option ℚ) (visited : List Pos) (parent : List (Pos × Pos)),
      (∀ v d, dist v = some d → ∃ p, validPathG dirs8 grid rows cols s v p) →
      ∀ st ∈ dijkstraLoop grid s e rows cols fuel dist visited parent,
        ∃ pos vis, st = PathStep.explore pos vis := by
  intro fuel
  induction fuel with
  | zero => intro dist visited parent hd; simp [dijkstraLoop]
  | succ f ih =>
    intro dist visited parent hd
    rw [dijkstraLoop]
    by_cases hlt : visited.length < rows * cols
    · rw [if_pos hlt]
      cases hscan : (dijkstraScan dist visited rows cols).1 with
      | none => simp
      | some cur =>
        dsimp only
        by_cases hc : cur = e
        · subst hc
          obtain ⟨d, hdist⟩ := dijkstraScan_some dist visited rows cols cur hscan
          exact absurd (hd cur d hdist) hne
        · rw [if_neg hc]
          intro st hst
          rcases List.mem_cons.mp hst with rfl | hst
          · exact ⟨cur, cur :: visited, rfl⟩
          · exact ih _ _ _ (dijkstraRelax_reach grid rows cols s cur (dist, parent) hd) st hst
    · rw [if_neg hlt]
      simp

theorem aStarScan_mem (fScore : Pos → Option ℚ) (o0 : Pos) (restOpen : List Pos) :
    (aStarScan fScore o0 restOpen).1 ∈ o0 :: restOpen := by
  unfold aStarScan
  refine foldl_invariant_mem
    (fun (acc : (Pos × Nat) × Option ℚ × Nat) => acc.1.1 ∈ o0 :: restOpen)
    _ restOpen ((o0, 0), fScore o0, 1) (List.mem_cons_self _ _) ?_
  intro acc p hp hacc
  dsimp only
  split
  · exact List.mem_cons_of_mem _ hp
  · exact hacc

theorem aStarRelax_inv (grid : Grid) (rows cols : Int) (e s cur : Pos) (visited : List Pos)
    (st : (Pos → Option ℚ) × (Pos → Option ℚ) × List (Pos × Pos) × List Pos)
    (hg : ∀ v d, st.1 v = some d → ∃ p, validPathG dirs8 grid rows cols s v p)
    (ho : ∀ q ∈ st.2.2.2, ∃ d, st.1 q = some d) :
    (∀ v d, (aStarRelax grid rows cols e cur visited st).1 v = some d →
        ∃ p, validPathG dirs8 grid rows cols s v p)
      ∧ ∀ q ∈ (aStarRelax grid rows cols e cur visited st).2.2.2,
          ∃ d, (aStarRelax grid rows cols e cur visited st).1 q = some d := by
  unfold aStarRelax
  refine foldl_invariant_mem
    (fun (st' : (Pos → Option ℚ) × (Pos → Option ℚ) × List (Pos × Pos) × List Pos) =>
      (∀ v d, st'.1 v = some d → ∃ p, validPathG dirs8 grid rows cols s v p)
        ∧ ∀ q ∈ st'.2.2.2, ∃ d, st'.1 q = some d) _ _ _ ⟨hg, ho⟩ ?_
  rintro st' dc hdc ⟨h1, h2⟩
  dsimp only
  split
  · next hcond =>
    split
    · next hlt =>
      constructor
      · intro v d hv
        simp only [setMap] at hv
        by_cases hveq : v = (cur.1 + dc.1.1, cur.2 + dc.1.2)
        · obtain ⟨tg, htg⟩ := ltInf_some hlt
          simp only [addInf, Option.map_eq_some'] at htg
          obtain ⟨gc, hgc, -⟩ := htg
          obtain ⟨p, hp⟩ := h1 cur gc hgc
          subst hveq
          refine ⟨p ++ [(cur.1 + dc.1.1, cur.2 + dc.1.2)],
            validPathG_snoc _ _ _ _ ⟨?_, hcond.1⟩ p s hp⟩
          have : (cur.1 + dc.1.1 - cur.1, cur.2 + dc.1.2 - cur.2) = dc.1 := by
            obtain ⟨⟨d1, d2⟩, c⟩ := dc
            simp only [Prod.mk.injEq]
            omega
          rw [this]
          exact List.mem_map_of_mem Prod.fst hdc
        · rw [if_neg hveq] at hv
          exact h1 v d hv
      · intro q hqm
        simp only [setMap]
        by_cases hqe : q = (cur.1 + dc.1.1, cur.2 + dc.1.2)
        · subst hqe
          obtain ⟨tg, htg⟩ := ltInf_some hlt
          exact ⟨tg, by rw [if_pos rfl]; exact htg⟩
        · rw [if_neg hqe]
          refine h2 q ?_
          by_cases hmem : (cur.1 + dc.1.1, cur.2 + dc.1.2) ∈ st'.2.2.2
          · rwa [if_pos hmem] at hqm
          · rw [if_neg hmem] at hqm
            rcases List.mem_append.mp hqm with h | h
            · exact h
            · simp only [List.mem_singleton] at h
              exact absurd h hqe
    · exact ⟨h1, h2⟩
  · exact ⟨h1, h2⟩

theorem aStarLoop_no_path (grid : Grid) (s e : Pos) (rows cols : Int)
    (hne : ¬ ∃ p, validPathG dirs8 grid rows cols s e p) :
    ∀ (fuel : Nat) (gScore fScore : Pos → Option ℚ) (parent : List (Pos × Pos))
      (openSet visited : List Pos),
      (∀ v d, gScore v = some d → ∃ p, validPathG dirs8 grid rows cols s v p) →
      (∀ q ∈ openSet, ∃ d, gScore q = some d) →
      ∀ st ∈ aStarLoop grid s e rows cols fuel gScore fScore parent openSet visited,
        ∃ pos vis, st = PathStep.explore pos vis := by
  intro fuel
  induction fuel with
  | zero => intro gScore fScore parent openSet visited hg ho; simp [aStarLoop]
  | succ f ih =>
    intro gScore fScore parent openSet visited hg ho
    cases openSet with
    | nil => simp [aStarLoop]
    | cons o0 restOpen =>
      rw [aStarLoop]
      by_cases hc : (aStarScan fScore o0 restOpen).1 = e
      · obtain ⟨d, hde⟩ := ho _ (aStarScan_mem fScore o0 restOpen)
        rw [hc] at hde
        exact absurd (hg e d hde) hne
      · rw [if_neg hc]
        dsimp only
        intro st hst
        rcases List.mem_cons.mp hst with rfl | hst
        · exact ⟨_, _, rfl⟩
        · have hrelax := aStarRelax_inv grid rows cols e s (aStarScan fScore o0 restOpen).1
            ((aStarScan fScore o0 restOpen).1 :: visited)
            (gScore, fScore, parent, (o0 :: restOpen).eraseIdx (aStarScan fScore o0 restOpen).2)
            hg ?ho2
          case ho2 =>
            intro q hqm
            exact ho q (List.eraseIdx_subset _ _ hqm)
          exact ih _ _ _ _ _ hrelax.1 hrelax.2 st hst

/-- C4: on a grid where the end is not reachable from the start (no
valid 8-directional path, which also rules out any 4-directional path),
the sequences returned by `bfs`, `dijkstra` and `aStar` consist of
`explore` steps only — in particular they contain no `path` step. -/
theorem c4_unreachable_no_path (grid : Grid) (s e : Pos)
    (hne : ¬ ∃ p, validPath8 grid s e p) :
    (∀ st ∈ bfs grid s e, ∃ pos vis, st = PathStep.explore pos vis)
      ∧ (∀ st ∈ dijkstra grid s e, ∃ pos vis, st = PathStep.explore pos vis)
      ∧ (∀ st ∈ aStar grid s e, ∃ pos vis, st = PathStep.explore pos vis) := by
  have hne4 : ¬ ∃ p, validPath4 grid s e p := by
    rintro ⟨p, hp⟩
    refine hne ⟨p, validPathG_mono grid _ _ ?_ p s e hp⟩
    intro d hd
    fin_cases hd <;> simp [dirs8, directions8]
  refine ⟨?_, ?_, ?_⟩
  · intro st hst
    simp only [bfs] at hst
    refine bfsLoop_no_path grid grid.length (grid.getD 0 []).length s e hne4 _ _ _ _
      (by intro q hq; simpa using hq) ?_ st hst
    intro v hv
    simp only [List.mem_singleton] at hv
    subst hv
    exact ⟨[v], validPathG_single _ _ _ _ _⟩
  · intro st hst
    simp only [dijkstra] at hst
    refine dijkstraLoop_no_path grid s e grid.length (grid.getD 0 []).length hne _ _ _ _ ?_ st hst
    intro v d hv
    by_cases hvs : v = s
    · subst hvs
      exact ⟨[v], validPathG_single _ _ _ _ _⟩
    · simp [if_neg hvs] at hv
  · intro st hst
    simp only [aStar] at hst
    refine aStarLoop_no_path grid s e grid.length (grid.getD 0 []).length hne _ _ _ _ _ _
      ?_ ?_ st hst
    · intro v d hv
      by_cases hvs : v = s
      · subst hvs
        exact ⟨[v], validPathG_single _ _ _ _ _⟩
      · simp [if_neg hvs] at hv
    · intro q hq
      simp only [List.mem_singleton] at hq
      subst hq
      exact ⟨0, if_pos rfl⟩

/-- On the 1×3 grid `[[0,1,0]]` the end `(0,2)` is cut off from the
start `(0,0)` by the obstacle at `(0,1)`: the first move of any valid
path would have to be a direction vector landing on an open cell, and
none qualifies. -/
theorem no_path8_in_wall_grid : ¬ ∃ p, validPath8 [[0, 1, 0]] (0, 0) (0, 2) p := by
  rintro ⟨path, hp⟩
  cases path with
  | nil => exact hp
  | cons p0 tail =>
    cases tail with
    | nil =>
      obtain ⟨h1, h2⟩ := hp
      subst h1
      exact absurd h2 (by decide)
    | cons q rest =>
      obtain ⟨h1, ⟨hd, ho⟩, h3⟩ := hp
      subst h1
      obtain ⟨q1, q2⟩ := q
      simp only [sub_zero] at hd
      fin_cases hd <;> exact absurd ho (by decide)

/-- Witness for `c4_unreachable_no_path` on the grid `[[0,1,0]]`. -/
theorem c4_unreachable_no_path_witness :
    (¬ ∃ p, validPath8 [[0, 1, 0]] (0, 0) (0, 2) p)
      ∧ ∀ st ∈ bfs [[0, 1, 0]] (0, 0) (0, 2), ∃ pos vis, st = PathStep.explore pos vis :=
  ⟨no_path8_in_wall_grid,
    (c4_unreachable_no_path [[0, 1, 0]] (0, 0) (0, 2) no_path8_in_wall_grid).1⟩

/-! ### C1: sorting correctness.

Bubble sort first: the indexed inner loop is bridged to the structural
pass `passC`, whose behaviour (permutation, maximum bubbled to the end,
prefix-only modification) gives the classic outer-loop invariant. -/

theorem passC_perm : ∀ (c : Nat) (l : List Int), List.Perm (passC c l) l := by
  intro c
  induction c with
  | zero => intro l; exact List.Perm.refl _
  | succ c ih =>
    intro l
    match l with
    | [] => exact List.Perm.refl _
    | [x] => exact List.Perm.refl _
    | x :: y :: t =>
      rw [passC]
      split
      · exact ((ih (x :: t)).cons y).trans (List.Perm.swap x y t)
      · exact (ih (y :: t)).cons x

theorem passC_append : ∀ (c : Nat) (p s : List Int), c < p.length →
    passC c (p ++ s) = passC c p ++ s := by
  intro c
  induction c with
  | zero => intro p s _; rfl
  | succ c ih =>
    intro p s hc
    match p with
    | [] => simp at hc
    | [x] => simp at hc
    | x :: y :: t =>
      rw [List.cons_append, List.cons_append, passC, passC]
      split
      · rw [← List.cons_append, ih (x :: t) s (by simp only [List.length_cons] at hc ⊢; omega),
          List.cons_append]
      · rw [← List.cons_append, ih (y :: t) s (by simp only [List.length_cons] at hc ⊢; omega),
          List.cons_append]

theorem passC_max : ∀ (c : Nat) (p : List Int), p ≠ [] → p.length ≤ c + 1 →
    ∃ q m, passC c p = q ++ [m] ∧ ∀ x ∈ passC c p, x ≤ m := by
  intro c
  induction c with
  | zero =>
    intro p hne hlen
    match p with
    | [x] => exact ⟨[], x, rfl, by simp [passC]⟩
    | x :: y :: t => simp at hlen
  | succ c ih =>
    intro p hne hlen
    match p with
    | [x] => exact ⟨[], x, rfl, by simp [passC]⟩
    | x :: y :: t =>
      rw [passC]
      split
      · next hgt =>
        obtain ⟨q, m, he, hall⟩ := ih (x :: t) (by simp)
          (by simp only [List.length_cons] at hlen ⊢; omega)
        refine ⟨y :: q, m, by rw [he]; rfl, ?_⟩
        intro v hv
        rcases List.mem_cons.mp hv with rfl | hv
        · exact le_of_lt (lt_of_lt_of_le hgt
            (hall x ((passC_perm c (x :: t)).mem_iff.mpr (List.mem_cons_self _ _))))
        · exact hall v hv
      · next hle =>
        obtain ⟨q, m, he, hall⟩ := ih (y :: t) (by simp)
          (by simp only [List.length_cons] at hlen ⊢; omega)
        refine ⟨x :: q, m, by rw [he]; rfl, ?_⟩
        intro v hv
        rcases List.mem_cons.mp hv with rfl | hv
        · exact le_trans (not_lt.mp hle)
            (hall y ((passC_perm c (y :: t)).mem_iff.mpr (List.mem_cons_self _ _)))
        · exact hall v hv

/-- Decomposition of an array around two adjacent in-range positions. -/
theorem adjacent_decomp (arr : List Int) (j : Nat) (h : j + 1 < arr.length) :
    arr = arr.take j ++ arr.getD j 0 :: arr.getD (j + 1) 0 :: arr.drop (j + 2) := by
  have hj : j < arr.length := by omega
  rw [List.getD_eq_getElem _ _ hj, List.getD_eq_getElem _ _ h]
  conv_lhs => rw [← List.take_append_drop j arr]
  rw [List.drop_eq_getElem_cons hj, List.drop_eq_getElem_cons h]

/-- The adjacent swap of the bubble inner loop, written as an explicit
list decomposition. -/
theorem swap_decomp (arr : List Int) (j : Nat) (h : j + 1 < arr.length) :
    (arr.set j (arr.getD (j + 1) 0)).set (j + 1) (arr.getD j 0)
      = arr.take j ++ arr.getD (j + 1) 0 :: arr.getD j 0 :: arr.drop (j + 2) := by
  have hj : j < arr.length := by omega
  have htl : (arr.take j).length = j := List.length_take_of_le (by omega)
  have harr := adjacent_decomp arr j h
  calc (arr.set j (arr.getD (j + 1) 0)).set (j + 1) (arr.getD j 0)
      = ((arr.take j ++ arr.getD j 0 :: arr.getD (j + 1) 0 :: arr.drop (j + 2)).set j
          (arr.getD (j + 1) 0)).set (j + 1) (arr.getD j 0) := by rw [← harr]
    _ = arr.take j ++ arr.getD (j + 1) 0 :: arr.getD j 0 :: arr.drop (j + 2) := by
        rw [List.set_append_right _ _ (by omega)]
        rw [htl]
        have h0 : j - j = 0 := by omega
        rw [h0, List.set_cons_zero]
        rw [List.set_append_right _ _ (by omega)]
        rw [htl]
        have h1 : j + 1 - j = 1 := by omega
        rw [h1, List.set_cons_succ, List.set_cons_zero]

theorem bubbleInner_bridge (c : Nat) : ∀ (j : Nat) (arr : List Int), j + c < arr.length →
    (bubbleInner arr j c).1 = arr.take j ++ passC c (arr.drop j)
      ∧ ∀ st ∈ (bubbleInner arr j c).2, List.Perm st.snapshot arr := by
  induction c with
  | zero =>
    intro j arr hj
    exact ⟨by simp [bubbleInner, passC], by simp [bubbleInner]⟩
  | succ c ih =>
    intro j arr hj
    have hj1 : j + 1 < arr.length := by omega
    have hjl : j < arr.length := by omega
    have htl : (arr.take j).length = j := List.length_take_of_le (by omega)
    have hdropj : arr.drop j = arr.getD j 0 :: arr.getD (j + 1) 0 :: arr.drop (j + 2) := by
      rw [List.getD_eq_getElem _ _ hjl, List.getD_eq_getElem _ _ hj1,
        List.drop_eq_getElem_cons hjl, List.drop_eq_getElem_cons hj1]
    rw [bubbleInner]
    split
    · next hgt =>
      dsimp only
      have hsw := swap_decomp arr j hj1
      have harr := adjacent_decomp arr j hj1
      have hperm : List.Perm ((arr.set j (arr.getD (j + 1) 0)).set (j + 1) (arr.getD j 0))
          arr := by
        have h2 : List.Perm
            (arr.take j ++ arr.getD (j + 1) 0 :: arr.getD j 0 :: arr.drop (j + 2))
            (arr.take j ++ arr.getD j 0 :: arr.getD (j + 1) 0 :: arr.drop (j + 2)) :=
          List.Perm.append_left _ (List.Perm.swap _ _ _)
        rw [hsw]
        exact h2.trans (by rw [← harr])
      have hlen : ((arr.set j (arr.getD (j + 1) 0)).set (j + 1) (arr.getD j 0)).length
          = arr.length := by simp
      obtain ⟨ihb, ihs⟩ := ih (j + 1)
        ((arr.set j (arr.getD (j + 1) 0)).set (j + 1) (arr.getD j 0)) (by omega)
      have htake : ((arr.set j (arr.getD (j + 1) 0)).set (j + 1) (arr.getD j 0)).take (j + 1)
          = arr.take j ++ [arr.getD (j + 1) 0] := by
        rw [hsw, List.take_append_eq_append_take,
          List.take_of_length_le (le_trans (le_of_eq htl) (by omega)), htl]
        have h1 : j + 1 - j = 1 := by omega
        rw [h1]
        rfl
      have hdrop : ((arr.set j (arr.getD (j + 1) 0)).set (j + 1) (arr.getD j 0)).drop (j + 1)
          = arr.getD j 0 :: arr.drop (j + 2) := by
        rw [hsw, List.drop_append_eq_append_drop,
          List.drop_of_length_le (le_trans (le_of_eq htl) (by omega)), htl]
        have h1 : j + 1 - j = 1 := by omega
        rw [h1]
        rfl
      constructor
      · rw [ihb, htake, hdrop, hdropj, passC, if_pos hgt]
        simp
      · intro st hst
        rcases List.mem_cons.mp hst with rfl | hst
        · exact List.Perm.refl _
        · rcases List.mem_cons.mp hst with rfl | hst
          · exact hperm
          · exact (ihs st hst).trans hperm
    · next hle =>
      dsimp only
      obtain ⟨ihb, ihs⟩ := ih (j + 1) arr (by omega)
      have htake : arr.take (j + 1) = arr.take j ++ [arr.getD j 0] := by
        rw [List.getD_eq_getElem _ _ hjl, ← List.take_concat_get arr j hjl]
        simp
      have hdropj1 : List.drop (j + 1) arr = arr.getD (j + 1) 0 :: List.drop (j + 2) arr := by
        rw [List.getD_eq_getElem _ _ hj1, List.drop_eq_getElem_cons hj1]
      constructor
      · rw [ihb, htake, hdropj, passC, if_neg hle, hdropj1]
        simp
      · intro st hst
        rcases List.mem_cons.mp hst with rfl | hst
        · exact List.Perm.refl _
        · exact ihs st hst

theorem bubbleOuter_main (n : Nat) : ∀ (count i : Nat) (a : List Int),
    i + count = n → a.length = n →
    (a.drop (n - i)).Sorted (· ≤ ·) →
    (∀ x ∈ a.take (n - i), ∀ y ∈ a.drop (n - i), x ≤ y) →
    ((bubbleOuter n a i count).1.Sorted (· ≤ ·)
      ∧ List.Perm (bubbleOuter n a i count).1 a
      ∧ ∀ st ∈ (bubbleOuter n a i count).2, List.Perm st.snapshot a) := by
  intro count
  induction count with
  | zero =>
    intro i a hin hlen hsorted hdom
    have : n - i = 0 := by omega
    rw [this] at hsorted
    exact ⟨by simpa [bubbleOuter] using hsorted, by simp [bubbleOuter], by simp [bubbleOuter]⟩
  | succ count ih =>
    intro i a hin hlen hsorted hdom
    have hi : i < n := by omega
    have hn1 : 1 ≤ n - i := by omega
    have hc : 0 + (n - i - 1) < a.length := by omega
    obtain ⟨hbridge, hsnap⟩ := bubbleInner_bridge (n - i - 1) 0 a hc
    rw [List.take_zero, List.drop_zero, List.nil_append] at hbridge
    have hps : a = a.take (n - i) ++ a.drop (n - i) := (List.take_append_drop _ _).symm
    have hpl : (a.take (n - i)).length = n - i := List.length_take_of_le (by omega)
    have hpass : passC (n - i - 1) a = passC (n - i - 1) (a.take (n - i)) ++ a.drop (n - i) := by
      conv_lhs => rw [hps]
      exact passC_append _ _ _ (by omega)
    obtain ⟨q, m, hqm, hmax⟩ := passC_max (n - i - 1) (a.take (n - i))
      (by intro h; rw [h] at hpl; simp at hpl; omega) (by omega)
    have hqlen : q.length = n - i - 1 := by
      have := (passC_perm (n - i - 1) (a.take (n - i))).length_eq
      rw [hqm] at this
      simp at this
      omega
    have ha1 : (bubbleInner a 0 (n - i - 1)).1 = q ++ m :: a.drop (n - i) := by
      rw [hbridge, hpass, hqm]
      simp
    have ha1perm : List.Perm (bubbleInner a 0 (n - i - 1)).1 a := by
      rw [hbridge]
      exact passC_perm _ _
    have ha1len : (bubbleInner a 0 (n - i - 1)).1.length = n := by
      rw [ha1perm.length_eq, hlen]
    have hmem_p : m ∈ a.take (n - i) := by
      refine (passC_perm (n - i - 1) (a.take (n - i))).mem_iff.mp ?_
      rw [hqm]
      simp
    have hdrop1 : (bubbleInner a 0 (n - i - 1)).1.drop (n - (i + 1)) = m :: a.drop (n - i) := by
      rw [ha1, List.drop_append_eq_append_drop, List.drop_of_length_le (by omega),
        hqlen]
      have : n - (i + 1) - (n - i - 1) = 0 := by omega
      rw [this]
      simp

    have htake1 : (bubbleInner a 0 (n - i - 1)).1.take (n - (i + 1)) = q := by
      rw [ha1, List.take_append_eq_append_take, List.take_of_length_le (by omega), hqlen]
      have : n - (i + 1) - (n - i - 1) = 0 := by omega
      rw [this]
      simp
    have hsorted1 : ((bubbleInner a 0 (n - i - 1)).1.drop (n - (i + 1))).Sorted (· ≤ ·) := by
      rw [hdrop1, List.sorted_cons]
      exact ⟨fun y hy => hdom m hmem_p y hy, hsorted⟩
    have hdom1 : ∀ x ∈ (bubbleInner a 0 (n - i - 1)).1.take (n - (i + 1)),
        ∀ y ∈ (bubbleInner a 0 (n - i - 1)).1.drop (n - (i + 1)), x ≤ y := by
      rw [htake1, hdrop1]
      intro x hx y hy
      have hxp : x ∈ a.take (n - i) := by
        refine (passC_perm (n - i - 1) (a.take (n - i))).mem_iff.mp ?_
        rw [hqm]
        exact List.mem_append_left _ hx
      rcases List.mem_cons.mp hy with rfl | hy
      · exact hmax x (by rw [hqm]; exact List.mem_append_left _ hx)
      · exact hdom x hxp y hy
    obtain ⟨ihsort, ihperm, ihsnap⟩ := ih (i + 1) (bubbleInner a 0 (n - i - 1)).1
      (by omega) ha1len hsorted1 hdom1
    rw [bubbleOuter]
    dsimp only
    refine ⟨ihsort, ihperm.trans ha1perm, ?_⟩
    intro st hst
    rcases List.mem_append.mp hst with hst | hst
    · exact hsnap st hst
    · rcases List.mem_cons.mp hst with rfl | hst
      · exact ha1perm
      · exact (ihsnap st hst).trans ha1perm

theorem bubbleInner_last (c : Nat) : ∀ (j : Nat) (a : List Int),
    ((bubbleInner a j c).2 = [] → (bubbleInner a j c).1 = a)
      ∧ ∀ st, (bubbleInner a j c).2.getLast? = some st →
          st.snapshot = (bubbleInner a j c).1 := by
  induction c with
  | zero => intro j a; exact ⟨fun _ => rfl, by simp [bubbleInner]⟩
  | succ c ih =>
    intro j a
    rw [bubbleInner]
    split
    · next hgt =>
      dsimp only
      constructor
      · intro h
        simp at h
      · intro st hst
        obtain ⟨ihe, ihl⟩ := ih (j + 1)
          ((a.set j (a.getD (j + 1) 0)).set (j + 1) (a.getD j 0))
        cases hrest : (bubbleInner ((a.set j (a.getD (j + 1) 0)).set (j + 1) (a.getD j 0))
            (j + 1) c).2 with
        | nil =>
          rw [hrest] at hst
          simp only [List.getLast?_cons_cons, List.getLast?_cons, List.getLast?_nil] at hst
          cases hst
          rw [ihe hrest]
          rfl
        | cons s0 srest =>
          rw [hrest] at hst
          rw [List.getLast?_cons_cons, List.getLast?_cons_cons] at hst
          apply ihl
          rw [hrest]
          exact hst
    · next hle =>
      dsimp only
      constructor
      · intro h
        simp at h
      · intro st hst
        obtain ⟨ihe, ihl⟩ := ih (j + 1) a
        cases hrest : (bubbleInner a (j + 1) c).2 with
        | nil =>
          rw [hrest] at hst
          simp only [List.getLast?_cons, List.getLast?_nil] at hst
          cases hst
          rw [ihe hrest]
          rfl
        | cons s0 srest =>
          rw [hrest] at hst
          rw [List.getLast?_cons_cons] at hst
          apply ihl
          rw [hrest]
          exact hst

theorem bubbleOuter_last (n : Nat) : ∀ (count i : Nat) (a : List Int),
    ((bubbleOuter n a i count).2 = [] → (bubbleOuter n a i count).1 = a)
      ∧ ∀ st, (bubbleOuter n a i count).2.getLast? = some st →
          st.snapshot = (bubbleOuter n a i count).1 := by
  intro count
  induction count with
  | zero => intro i a; exact ⟨fun _ => rfl, by simp [bubbleOuter]⟩
  | succ count ih =>
    intro i a
    rw [bubbleOuter]
    dsimp only
    obtain ⟨ihe, ihl⟩ := ih (i + 1) (bubbleInner a 0 (n - i - 1)).1
    constructor
    · intro h
      simp at h
    · intro st hst
      rw [List.getLast?_append] at hst
      cases hrest : (bubbleOuter n (bubbleInner a 0 (n - i - 1)).1 (i + 1) count).2 with
      | nil =>
        rw [hrest] at hst
        simp at hst
        subst hst
        rw [ihe hrest]
        rfl
      | cons s0 srest =>
        rw [hrest, List.getLast?_cons_cons] at hst
        cases hx : (s0 :: srest).getLast? with
        | none =>
          rw [List.getLast?_eq_none_iff] at hx
          cases hx
        | some y =>
          rw [hx, Option.or_some, Option.some_inj] at hst
          subst hst
          apply ihl
          rw [hrest]
          exact hx

/-! Quick sort: Lomuto partition invariants, stated index-wise. -/

theorem bubbleSort_c1 (arr : List Int) :
    (∀ st ∈ bubbleSort arr, List.Perm st.snapshot arr)
      ∧ ∀ st, (bubbleSort arr).getLast? = some st →
          List.Perm st.snapshot arr ∧ st.snapshot.Sorted (· ≤ ·) := by
  obtain ⟨hsort, hperm, hsnap⟩ := bubbleOuter_main arr.length arr.length 0 arr (by omega) rfl
    (by simp) (by simp)
  obtain ⟨-, hlast⟩ := bubbleOuter_last arr.length arr.length 0 arr
  constructor
  · intro st hst
    exact hsnap st hst
  · intro st hst
    rw [bubbleSort] at hst
    rw [hlast st hst]
    exact ⟨hperm, hsort⟩

theorem head_set_perm (x : Int) : ∀ (t : List Int) (m : Nat), m < t.length →
    List.Perm (t.getD m 0 :: t.set m x) (x :: t) := by
  intro t
  induction t with
  | nil => intro m hm; simp at hm
  | cons y t' ih =>
    intro m hm
    cases m with
    | zero => simpa using List.Perm.swap x y t'
    | succ m =>
      have := (ih m (by simpa using hm)).cons y
      simp only [List.getD_cons_succ, List.set_cons_succ]
      exact (List.Perm.swap _ _ _).symm.trans (this.trans (List.Perm.swap _ _ _)) |>.symm
      |>.symm

theorem set_set_perm : ∀ (a : List Int) (i j : Nat), i ≤ j → j < a.length →
    List.Perm ((a.set i (a.getD j 0)).set j (a.getD i 0)) a := by
  intro a
  induction a with
  | nil => intro i j _ hj; simp at hj
  | cons x t ih =>
    intro i j hij hj
    cases i with
    | zero =>
      cases j with
      | zero => simp
      | succ m =>
        simp only [List.getD_cons_succ, List.getD_cons_zero, List.set_cons_zero,
          List.set_cons_succ]
        exact (head_set_perm x t m (by simpa using hj)).symm.symm
    | succ i' =>
      cases j with
      | zero => omega
      | succ m =>
        simp only [List.getD_cons_succ, List.set_cons_succ]
        exact (ih i' m (by omega) (by simpa using hj)).cons x

theorem swapAt_facts (a : List Int) (i j : Nat) (hij : i ≤ j) (hj : j < a.length) :
    ((a.set i (a.getD j 0)).set j (a.getD i 0)).length = a.length
      ∧ ((a.set i (a.getD j 0)).set j (a.getD i 0)).getD i 0 = a.getD j 0
      ∧ ((a.set i (a.getD j 0)).set j (a.getD i 0)).getD j 0 = a.getD i 0
      ∧ ∀ k, k ≠ i → k ≠ j →
          ((a.set i (a.getD j 0)).set j (a.getD i 0)).getD k 0 = a.getD k 0 := by
  have hi : i < a.length := by omega
  have hlen : ((a.set i (a.getD j 0)).set j (a.getD i 0)).length = a.length := by simp
  refine ⟨hlen, ?_, ?_, ?_⟩
  · by_cases hije : i = j
    · subst hije
      rw [List.getD_eq_getElem _ _ (by rw [hlen]; omega)]
      rw [List.getElem_set_self (by simp; omega)]
    · rw [List.getD_eq_getElem _ _ (by rw [hlen]; omega)]
      rw [List.getElem_set_ne (by omega) (by simp; omega)]
      rw [List.getElem_set_self (by simp; omega)]
  · rw [List.getD_eq_getElem _ _ (by rw [hlen]; omega)]
    rw [List.getElem_set_self (by simp; omega)]
  · intro k hki hkj
    by_cases hk : k < a.length
    · rw [List.getD_eq_getElem _ _ (by rw [hlen]; omega), List.getD_eq_getElem _ _ hk]
      rw [List.getElem_set_ne (by omega) (by simp; omega)]
      rw [List.getElem_set_ne (by omega) (by simp; omega)]
    · rw [List.getD_eq_default _ _ (by rw [hlen]; omega), List.getD_eq_default _ _ (by omega)]

theorem partitionLoop_main (pivot : Int) (high low : Nat) :
    ∀ (count : Nat) (array : List Int) (i1 j : Nat),
      low ≤ i1 → i1 ≤ j → j + count = high → high < array.length →
      (∀ k, low ≤ k → k < i1 → array.getD k 0 < pivot) →
      (∀ k, i1 ≤ k → k < j → pivot ≤ array.getD k 0) →
      ((partitionLoop pivot high array i1 j count).1.1.length = array.length
        ∧ List.Perm (partitionLoop pivot high array i1 j count).1.1 array
        ∧ i1 ≤ (partitionLoop pivot high array i1 j count).1.2
        ∧ (partitionLoop pivot high array i1 j count).1.2 ≤ high
        ∧ (∀ k, (k < i1 ∨ high ≤ k) →
            (partitionLoop pivot high array i1 j count).1.1.getD k 0 = array.getD k 0)
        ∧ (∀ k, low ≤ k → k < (partitionLoop pivot high array i1 j count).1.2 →
            (partitionLoop pivot high array i1 j count).1.1.getD k 0 < pivot)
        ∧ (∀ k, (partitionLoop pivot high array i1 j count).1.2 ≤ k → k < high →
            pivot ≤ (partitionLoop pivot high array i1 j count).1.1.getD k 0)
        ∧ (∀ k, low ≤ k → k ≤ high → ∃ k', low ≤ k' ∧ k' ≤ high ∧
            (partitionLoop pivot high array i1 j count).1.1.getD k 0 = array.getD k' 0)
        ∧ ∀ st ∈ (partitionLoop pivot high array i1 j count).2,
            List.Perm st.snapshot array) := by
  intro count
  induction count with
  | zero =>
    intro array i1 j hlowi hij hjc hhigh ha hb
    rw [partitionLoop]
    have hj : j = high := by omega
    subst hj
    exact ⟨rfl, List.Perm.refl _, le_refl _, hij, fun k _ => rfl,
      fun k hk1 hk2 => ha k hk1 hk2, fun k hk1 hk2 => hb k hk1 hk2,
      fun k hk1 hk2 => ⟨k, hk1, hk2, rfl⟩, by simp⟩
  | succ count ih =>
    intro array i1 j hlowi hij hjc hhigh ha hb
    have hjh : j < high := by omega
    rw [partitionLoop]
    split
    · next hlt =>
      dsimp only
      obtain ⟨sl, s1, s2, s3⟩ := swapAt_facts array i1 j hij (by omega)
      have hperm := set_set_perm array i1 j hij (by omega)
      obtain ⟨r1, r2, r3, r4, r5, r6, r7, r8, r9⟩ :=
        ih ((array.set i1 (array.getD j 0)).set j (array.getD i1 0)) (i1 + 1) (j + 1)
          (by omega) (by omega) (by omega) (by rw [sl]; omega)
          (by
            intro k hk1 hk2
            by_cases hke : k = i1
            · subst hke
              rw [s1]
              exact hlt
            · rw [s3 k hke (by omega)]
              exact ha k hk1 (by omega))
          (by
            intro k hk1 hk2
            by_cases hke : k = j
            · subst hke
              rw [s2]
              exact hb i1 (le_refl _) (by omega)
            · rw [s3 k (by omega) hke]
              exact hb k (by omega) (by omega))
      refine ⟨by rw [r1, sl], r2.trans hperm, by omega, r4, ?_, r6, r7, ?_, ?_⟩
      · intro k hk
        rw [r5 k (by omega)]
        exact s3 k (by omega) (by omega)
      · intro k hk1 hk2
        obtain ⟨k', hk'1, hk'2, hk'3⟩ := r8 k hk1 hk2
        by_cases hk'i : k' = i1
        · subst hk'i
          exact ⟨j, by omega, by omega, by rw [hk'3, s1]⟩
        · by_cases hk'j : k' = j
          · subst hk'j
            exact ⟨i1, by omega, by omega, by rw [hk'3, s2]⟩
          · exact ⟨k', hk'1, hk'2, by rw [hk'3, s3 k' hk'i hk'j]⟩
      · intro st hst
        rcases List.mem_cons.mp hst with rfl | hst
        · exact List.Perm.refl _
        · rcases List.mem_cons.mp hst with rfl | hst
          · exact hperm
          · exact (r9 st hst).trans hperm
    · next hge =>
      dsimp only
      obtain ⟨r1, r2, r3, r4, r5, r6, r7, r8, r9⟩ :=
        ih array i1 (j + 1) hlowi (by omega) (by omega) hhigh ha
          (by
            intro k hk1 hk2
            by_cases hke : k = j
            · subst hke
              omega
            · exact hb k hk1 (by omega))
      refine ⟨r1, r2, by omega, r4, ?_, r6, r7, r8, ?_⟩
      · intro k hk
        exact r5 k (by omega)
      · intro st hst
        rcases List.mem_cons.mp hst with rfl | hst
        · exact List.Perm.refl _
        · exact r9 st hst

theorem partition_main (array : List Int) (low high : Nat)
    (hlow : low ≤ high) (hhigh : high < array.length) :
    ((partition array low high).1.1.length = array.length
      ∧ List.Perm (partition array low high).1.1 array
      ∧ low ≤ (partition array low high).1.2 ∧ (partition array low high).1.2 ≤ high
      ∧ (∀ k, (k < low ∨ high < k) →
          (partition array low high).1.1.getD k 0 = array.getD k 0)
      ∧ (∀ k, low ≤ k → k < (partition array low high).1.2 →
          (partition array low high).1.1.getD k 0
            < (partition array low high).1.1.getD (partition array low high).1.2 0)
      ∧ (∀ k, (partition array low high).1.2 < k → k ≤ high →
          (partition array low high).1.1.getD (partition array low high).1.2 0
            ≤ (partition array low high).1.1.getD k 0)
      ∧ (∀ k, low ≤ k → k ≤ high → ∃ k', low ≤ k' ∧ k' ≤ high ∧
          (partition array low high).1.1.getD k 0 = array.getD k' 0)
      ∧ ∀ st ∈ (partition array low high).2, List.Perm st.snapshot array) := by
  obtain ⟨r1, r2, r3, r4, r5, r6, r7, r8, r9⟩ :=
    partitionLoop_main (array.getD high 0) high low (high - low) array low low
      (le_refl _) (le_refl _) (by omega) hhigh (by omega) (by omega)
  rw [partition]
  dsimp only
  set B := (partitionLoop (array.getD high 0) high array low low (high - low)).1.1 with hB
  set p := (partitionLoop (array.getD high 0) high array low low (high - low)).1.2 with hp
  have hpB : p ≤ high := r4
  have hhB : high < B.length := by rw [r1]; omega
  obtain ⟨sl, s1, s2, s3⟩ := swapAt_facts B p high hpB (by rw [r1]; omega)
  have hBhigh : B.getD high 0 = array.getD high 0 := r5 high (Or.inr (le_refl _))
  have hswp := set_set_perm B p high hpB (by rw [r1]; omega)
  refine ⟨by rw [sl, r1], hswp.trans r2, r3, r4, ?_, ?_, ?_, ?_, ?_⟩
  · intro k hk
    rw [s3 k (by omega) (by omega)]
    exact r5 k (by omega)
  · intro k hk1 hk2
    rw [s3 k (by omega) (by omega), s1, hBhigh]
    exact r6 k hk1 hk2
  · intro k hk1 hk2
    by_cases hke : k = high
    · subst hke
      rw [s1, s2, hBhigh]
      exact r7 p (le_refl _) (by omega)
    · rw [s1, s3 k (by omega) hke, hBhigh]
      exact r7 k (by omega) (by omega)
  · intro k hk1 hk2
    by_cases hkp : k = p
    · subst hkp
      exact ⟨high, by omega, le_refl _, by rw [s1, hBhigh]⟩
    · by_cases hkh : k = high
      · subst hkh
        obtain ⟨k', hk'1, hk'2, hk'3⟩ := r8 p (by omega) (by omega)
        exact ⟨k', hk'1, hk'2, by rw [s2, hk'3]⟩
      · obtain ⟨k', hk'1, hk'2, hk'3⟩ := r8 k hk1 hk2
        exact ⟨k', hk'1, hk'2, by rw [s3 k hkp hkh, hk'3]⟩
  · intro st hst
    rcases List.mem_append.mp hst with hst | hst
    · exact r9 st hst
    · rcases List.mem_singleton.mp hst with rfl
      exact hswp.trans r2

theorem partition_last (array : List Int) (low high : Nat) :
    (partition array low high).2 ≠ []
      ∧ ∀ st, (partition array low high).2.getLast? = some st →
          st.snapshot = (partition array low high).1.1 := by
  rw [partition]
  dsimp only
  constructor
  · simp
  · intro st hst
    rw [List.getLast?_concat] at hst
    cases hst
    rfl

theorem sorted_of_range (l : List Int)
    (h : ∀ k1 k2, k1 ≤ k2 → k2 < l.length → l.getD k1 0 ≤ l.getD k2 0) :
    l.Sorted (· ≤ ·) := by
  refine List.pairwise_iff_getElem.mpr ?_
  intro i j hi hj hij
  rw [← List.getD_eq_getElem l 0 hi, ← List.getD_eq_getElem l 0 hj]
  exact h i j (le_of_lt hij) hj

theorem quickSortHelper_main : ∀ (fuel : Nat) (array : List Int) (low high : Nat),
    high < array.length → high + 1 - low ≤ fuel →
    ((quickSortHelper array low high fuel).1.length = array.length
      ∧ List.Perm (quickSortHelper array low high fuel).1 array
      ∧ (¬ low < high → (quickSortHelper array low high fuel).1 = array)
      ∧ (∀ k, (k < low ∨ high < k) →
          (quickSortHelper array low high fuel).1.getD k 0 = array.getD k 0)
      ∧ (∀ k1 k2, low ≤ k1 → k1 ≤ k2 → k2 ≤ high →
          (quickSortHelper array low high fuel).1.getD k1 0
            ≤ (quickSortHelper array low high fuel).1.getD k2 0)
      ∧ (∀ k, low ≤ k → k ≤ high → ∃ k', low ≤ k' ∧ k' ≤ high ∧
          (quickSortHelper array low high fuel).1.getD k 0 = array.getD k' 0)
      ∧ ∀ st ∈ (quickSortHelper array low high fuel).2, List.Perm st.snapshot array) := by
  intro fuel
  induction fuel with
  | zero =>
    intro array low high hhigh hfuel
    rw [quickSortHelper]
    have hnl : ¬ low < high := by omega
    refine ⟨rfl, List.Perm.refl _, fun _ => rfl, fun k _ => rfl, ?_, ?_, by simp⟩
    · intro k1 k2 h1 h12 h2
      have : k1 = k2 := by omega
      subst this
      exact le_refl _
    · intro k hk1 hk2
      exact ⟨k, hk1, hk2, rfl⟩
  | succ fuel ih =>
    intro array low high hhigh hfuel
    rw [quickSortHelper]
    by_cases hlt : low < high
    · rw [if_pos hlt]
      dsimp only
      obtain ⟨p1, p2, p3, p4, p5, p6, p7, p8, p9⟩ :=
        partition_main array low high (by omega) hhigh
      set B := (partition array low high).1.1 with hBdef
      set p := (partition array low high).1.2 with hpdef
      obtain ⟨q1, q2, q3, q4, q5, q6, q7⟩ := ih B low (p - 1)
        (by rw [p1]; omega) (by omega)
      set C := (quickSortHelper B low (p - 1) fuel).1 with hCdef
      obtain ⟨w1, w2, w3, w4, w5, w6, w7⟩ := ih C (p + 1) high
        (by rw [q1, p1]; omega) (by omega)
      set D := (quickSortHelper C (p + 1) high fuel).1 with hDdef
      have pv := B.getD p 0
      -- C agrees with B at p and on [p, high]
      have hCout : ∀ k, p ≤ k → C.getD k 0 = B.getD k 0 := by
        intro k hk
        by_cases hp0 : 1 ≤ p
        · exact q4 k (Or.inr (by omega))
        · have : p = 0 := by omega
          rw [q3 (by omega)]
      have hDlow : ∀ k, k ≤ p → D.getD k 0 = C.getD k 0 := by
        intro k hk
        exact w4 k (Or.inl (by omega))
      have hDp : D.getD p 0 = B.getD p 0 := by
        rw [hDlow p (le_refl _), hCout p (le_refl _)]
      -- value bounds in D
      have hDsmall : ∀ k, low ≤ k → k < p → D.getD k 0 < B.getD p 0 := by
        intro k hk1 hk2
        rw [hDlow k (by omega)]
        obtain ⟨k', h1, h2, h3⟩ := q6 k hk1 (by omega)
        rw [h3]
        exact p6 k' h1 (by omega)
      have hDbig : ∀ k, p < k → k ≤ high → B.getD p 0 ≤ D.getD k 0 := by
        intro k hk1 hk2
        obtain ⟨k', h1, h2, h3⟩ := w6 k (by omega) hk2
        rw [h3, hCout k' (by omega)]
        exact p7 k' (by omega) h2
      refine ⟨?_, ?_, fun h => absurd hlt h, ?_, ?_, ?_, ?_⟩
      · rw [w1, q1, p1]
      · exact w2.trans (q2.trans p2)
      · intro k hk
        rw [w4 k (by omega)]
        have hq : C.getD k 0 = B.getD k 0 := by
          rcases hk with hk | hk
          · by_cases hp0 : 1 ≤ p
            · exact q4 k (Or.inl hk)
            · have : p = 0 := by omega
              rw [q3 (by omega)]
          · exact hCout k (by omega)
        rw [hq]
        exact p5 k hk
      · intro k1 k2 h1 h12 h2
        by_cases hc2 : k2 < p
        · rw [hDlow k1 (by omega), hDlow k2 (by omega)]
          exact q5 k1 k2 h1 h12 (by omega)
        · by_cases hc1 : k1 < p
          · by_cases hc2e : k2 = p
            · subst hc2e
              rw [hDp]
              exact le_of_lt (hDsmall k1 h1 hc1)
            · exact le_of_lt (lt_of_lt_of_le (hDsmall k1 h1 hc1)
                (hDbig k2 (by omega) h2))
          · by_cases hc1e : k1 = p
            · by_cases hc2e : k2 = k1
              · rw [hc2e]
              · rw [hc1e, hDp]
                exact hDbig k2 (by omega) h2
            · exact w5 k1 k2 (by omega) h12 h2
      · intro k hk1 hk2
        by_cases hkp : k < p
        · rw [hDlow k (by omega)]
          obtain ⟨k', h1, h2, h3⟩ := q6 k hk1 (by omega)
          obtain ⟨k'', h4, h5, h6⟩ := p8 k' h1 (by omega)
          exact ⟨k'', h4, h5, by rw [h3, h6]⟩
        · by_cases hkpe : k = p
          · obtain ⟨k'', h4, h5, h6⟩ := p8 k hk1 hk2
            refine ⟨k'', h4, h5, ?_⟩
            rw [hkpe, hDp]
            rw [hkpe] at h6
            exact h6
          · obtain ⟨k', h1, h2, h3⟩ := w6 k (by omega) hk2
            obtain ⟨k'', h4, h5, h6⟩ := p8 k' (by omega) h2
            refine ⟨k'', h4, h5, ?_⟩
            rw [h3, hCout k' (by omega), h6]
      · intro st hst
        rcases List.mem_append.mp hst with hst | hst
        · rcases List.mem_append.mp hst with hst | hst
          · exact p9 st hst
          · exact (q7 st hst).trans p2
        · exact (w7 st hst).trans (q2.trans p2)
    · rw [if_neg hlt]
      refine ⟨rfl, List.Perm.refl _, fun _ => rfl, fun k _ => rfl, ?_, ?_, by simp⟩
      · intro k1 k2 h1 h12 h2
        have : k1 = k2 := by omega
        subst this
        exact le_refl _
      · intro k hk1 hk2
        exact ⟨k, hk1, hk2, rfl⟩

theorem quickSortHelper_last : ∀ (fuel : Nat) (array : List Int) (low high : Nat),
    ((quickSortHelper array low high fuel).2 = []
        → (quickSortHelper array low high fuel).1 = array)
      ∧ ∀ st, (quickSortHelper array low high fuel).2.getLast? = some st →
          st.snapshot = (quickSortHelper array low high fuel).1 := by
  intro fuel
  induction fuel with
  | zero => intro array low high; exact ⟨fun _ => rfl, by simp [quickSortHelper]⟩
  | succ fuel ih =>
    intro array low high
    rw [quickSortHelper]
    by_cases hlt : low < high
    · rw [if_pos hlt]
      dsimp only
      obtain ⟨pne, plast⟩ := partition_last array low high
      obtain ⟨qe, qlast⟩ := ih (partition array low high).1.1 low
        ((partition array low high).1.2 - 1)
      obtain ⟨we, wlast⟩ := ih (quickSortHelper (partition array low high).1.1 low
        ((partition array low high).1.2 - 1) fuel).1 ((partition array low high).1.2 + 1) high
      constructor
      · intro h
        rcases List.append_eq_nil.mp h with ⟨h1, -⟩
        rcases List.append_eq_nil.mp h1 with ⟨h2, -⟩
        exact absurd h2 pne
      · intro st hst
        rw [List.getLast?_append] at hst
        cases hw : (quickSortHelper (quickSortHelper (partition array low high).1.1 low
            ((partition array low high).1.2 - 1) fuel).1
            ((partition array low high).1.2 + 1) high fuel).2 with
        | nil =>
          rw [hw] at hst
          simp only [List.getLast?_nil, Option.none_or] at hst
          rw [List.getLast?_append] at hst
          rw [we hw]
          cases hq : (quickSortHelper (partition array low high).1.1 low
              ((partition array low high).1.2 - 1) fuel).2 with
          | nil =>
            rw [hq] at hst
            simp only [List.getLast?_nil, Option.none_or] at hst
            rw [qe hq]
            exact plast st hst
          | cons s0 srest =>
            rw [hq] at hst
            cases hx : (s0 :: srest).getLast? with
            | none =>
              rw [List.getLast?_eq_none_iff] at hx
              cases hx
            | some y =>
              rw [hx, Option.or_some, Option.some_inj] at hst
              subst hst
              apply qlast
              rw [hq]
              exact hx
        | cons s0 srest =>
          rw [hw] at hst
          cases hx : (s0 :: srest).getLast? with
          | none =>
            rw [List.getLast?_eq_none_iff] at hx
            cases hx
          | some y =>
            rw [hx, Option.or_some, Option.some_inj] at hst
            subst hst
            apply wlast
            rw [hw]
            exact hx
    · rw [if_neg hlt]
      exact ⟨fun _ => rfl, by simp⟩

/-- Quick sort: every snapshot is a permutation of the input and the
final snapshot is sorted. -/
theorem quickSort_c1 (arr : List Int) :
    (∀ st ∈ quickSort arr, List.Perm st.snapshot arr)
      ∧ ∀ st, (quickSort arr).getLast? = some st →
          List.Perm st.snapshot arr ∧ st.snapshot.Sorted (· ≤ ·) := by
  cases harr : arr with
  | nil =>
    constructor
    · intro st hst
      simp [quickSort, quickSortHelper] at hst
    · intro st hst
      simp [quickSort, quickSortHelper] at hst
  | cons a0 atail =>
    rw [← harr]
    have hne : arr.length ≠ 0 := by rw [harr]; simp
    obtain ⟨m1, m2, m3, m4, m5, m6, m7⟩ := quickSortHelper_main arr.length arr 0
      (arr.length - 1) (by omega) (by omega)
    obtain ⟨le1, le2⟩ := quickSortHelper_last arr.length arr 0 (arr.length - 1)
    constructor
    · intro st hst
      rw [quickSort] at hst
      exact m7 st hst
    · intro st hst
      rw [quickSort] at hst
      rw [le2 st hst]
      refine ⟨m2, sorted_of_range _ ?_⟩
      intro k1 k2 h12 h2
      exact m5 k1 k2 (by omega) h12 (by rw [m1] at h2; omega)

/-! Merge sort: the in-place loops are bridged to `List.merge`. -/

theorem mergeCopy_result (src : List Int) : ∀ (fuel : Nat) (array : List Int) (i k : Nat),
    src.length - i ≤ fuel → k + (src.length - i) ≤ array.length →
    (mergeCopy src fuel array i k).1
      = array.take k ++ src.drop i ++ array.drop (k + (src.length - i)) := by
  intro fuel
  induction fuel with
  | zero =>
    intro array i k hfuel hbound
    have hi : src.length ≤ i := by omega
    rw [mergeCopy, List.drop_of_length_le hi]
    have : src.length - i = 0 := by omega
    rw [this]
    simp
  | succ fuel ih =>
    intro array i k hfuel hbound
    rw [mergeCopy]
    by_cases hi : i < src.length
    · rw [if_pos hi]
      dsimp only
      have hk : k < array.length := by omega
      rw [ih (array.set k (src.getD i 0)) (i + 1) (k + 1) (by omega) (by simp; omega)]
      have htake : (array.set k (src.getD i 0)).take (k + 1) = array.take k ++ [src.getD i 0] := by
        rw [List.set_eq_take_cons_drop _ hk, List.take_append_eq_append_take,
          List.take_of_length_le (by rw [List.length_take_of_le (by omega)]; omega),
          List.length_take_of_le (by omega)]
        have h1 : k + 1 - k = 1 := by omega
        rw [h1]
        rfl
      have hdrop : (array.set k (src.getD i 0)).drop (k + 1 + (src.length - (i + 1)))
          = array.drop (k + (src.length - i)) := by
        rw [List.drop_set]
        rw [if_pos (by omega)]
        congr 1
        omega
      rw [htake, hdrop, List.drop_eq_getElem_cons hi, List.getD_eq_getElem _ _ hi]
      simp
    · rw [if_neg hi]
      rw [List.drop_of_length_le (by omega)]
      have : src.length - i = 0 := by omega
      rw [this]
      simp

theorem mergeLoop_chain (leftArr rightArr : List Int) (left mid : Nat) :
    ∀ (fuel : Nat) (array : List Int) (i j k : Nat),
      (leftArr.length - i) + (rightArr.length - j) ≤ fuel →
      k + ((leftArr.length - i) + (rightArr.length - j)) ≤ array.length →
      (mergeCopy rightArr rightArr.length
          (mergeCopy leftArr leftArr.length
            (mergeLoop leftArr rightArr left mid fuel array i j k).1.1
            (mergeLoop leftArr rightArr left mid fuel array i j k).1.2.1
            (mergeLoop leftArr rightArr left mid fuel array i j k).1.2.2.2).1
          (mergeLoop leftArr rightArr left mid fuel array i j k).1.2.2.1
          ((mergeLoop leftArr rightArr left mid fuel array i j k).1.2.2.2
            + (leftArr.length
              - (mergeLoop leftArr rightArr left mid fuel array i j k).1.2.1))).1
        = array.take k
            ++ List.merge (leftArr.drop i) (rightArr.drop j) (fun a b => a ≤ b)
            ++ array.drop (k + ((leftArr.length - i) + (rightArr.length - j))) := by
  intro fuel
  induction fuel with
  | zero =>
    intro array i j k hfuel hbound
    have hi : leftArr.length ≤ i := by omega
    have hj : rightArr.length ≤ j := by omega
    rw [mergeLoop]
    dsimp only
    rw [mergeCopy_result leftArr leftArr.length array i k (by omega) (by omega)]
    rw [List.drop_of_length_le hi, List.drop_of_length_le hj]
    have h1 : leftArr.length - i = 0 := by omega
    have h2 : rightArr.length - j = 0 := by omega
    rw [h1, h2]
    simp only [List.append_nil, Nat.add_zero, List.nil_append]
    rw [List.take_append_drop]
    rw [mergeCopy_result rightArr rightArr.length array j k (by omega) (by omega)]
    rw [List.drop_of_length_le hj, h2]
    simp [List.take_append_drop]
  | succ fuel ih =>
    intro array i j k hfuel hbound
    rw [mergeLoop]
    by_cases hij : i < leftArr.length ∧ j < rightArr.length
    · rw [if_pos hij]
      dsimp only
      have hk : k < array.length := by omega
      have hdl : leftArr.drop i = leftArr.getD i 0 :: leftArr.drop (i + 1) := by
        rw [List.getD_eq_getElem _ _ hij.1, List.drop_eq_getElem_cons hij.1]
      have hdr : rightArr.drop j = rightArr.getD j 0 :: rightArr.drop (j + 1) := by
        rw [List.getD_eq_getElem _ _ hij.2, List.drop_eq_getElem_cons hij.2]
      by_cases hle : leftArr.getD i 0 ≤ rightArr.getD j 0
      · rw [if_pos hle]
        dsimp only
        rw [ih (array.set k (leftArr.getD i 0)) (i + 1) j (k + 1) (by omega) (by simp; omega)]
        have htake : (array.set k (leftArr.getD i 0)).take (k + 1)
            = array.take k ++ [leftArr.getD i 0] := by
          rw [List.set_eq_take_cons_drop _ hk, List.take_append_eq_append_take,
            List.take_of_length_le (by rw [List.length_take_of_le (by omega)]; omega),
            List.length_take_of_le (by omega)]
          have h1 : k + 1 - k = 1 := by omega
          rw [h1]
          rfl
        have hdrop : (array.set k (leftArr.getD i 0)).drop
            (k + 1 + ((leftArr.length - (i + 1)) + (rightArr.length - j)))
            = array.drop (k + ((leftArr.length - i) + (rightArr.length - j))) := by
          rw [List.drop_set, if_pos (by omega)]
          congr 1
          omega
        rw [htake, hdrop, hdl, hdr]
        rw [List.cons_merge_cons_pos _ _ _ (by simpa using hle)]
        rw [← hdr]
        simp
      · rw [if_neg hle]
        dsimp only
        rw [ih (array.set k (rightArr.getD j 0)) i (j + 1) (k + 1) (by omega) (by simp; omega)]
        have htake : (array.set k (rightArr.getD j 0)).take (k + 1)
            = array.take k ++ [rightArr.getD j 0] := by
          rw [List.set_eq_take_cons_drop _ hk, List.take_append_eq_append_take,
            List.take_of_length_le (by rw [List.length_take_of_le (by omega)]; omega),
            List.length_take_of_le (by omega)]
          have h1 : k + 1 - k = 1 := by omega
          rw [h1]
          rfl
        have hdrop : (array.set k (rightArr.getD j 0)).drop
            (k + 1 + ((leftArr.length - i) + (rightArr.length - (j + 1))))
            = array.drop (k + ((leftArr.length - i) + (rightArr.length - j))) := by
          rw [List.drop_set, if_pos (by omega)]
          congr 1
          omega
        rw [htake, hdrop, hdl, hdr]
        rw [List.cons_merge_cons_neg _ _ _ (by simpa using hle)]
        rw [← hdl]
        simp
    · rw [if_neg hij]
      dsimp only
      rw [mergeCopy_result leftArr leftArr.length array i k (by omega) (by omega)]
      by_cases hi : i < leftArr.length
      · have hj : rightArr.length ≤ j := by
          rcases not_and_or.mp hij with h | h
          · omega
          · omega
        have h2 : rightArr.length - j = 0 := by omega
        rw [mergeCopy_result rightArr rightArr.length _ j (k + (leftArr.length - i))
          (by omega)
          (by simp only [h2, Nat.add_zero, List.length_append, List.length_take,
                List.length_drop]; omega)]
        rw [List.drop_of_length_le hj, h2]
        simp only [Nat.add_zero, List.append_nil]
        rw [List.take_append_drop, List.merge_right]
      · have hile : leftArr.length ≤ i := by omega
        rw [List.drop_of_length_le hile]
        have h1 : leftArr.length - i = 0 := by omega
        rw [h1]
        simp only [Nat.add_zero, List.append_nil, List.nil_append]
        rw [List.take_append_drop]
        rw [mergeCopy_result rightArr rightArr.length array j k (by omega) (by omega)]
        simp

theorem merge_result (array : List Int) (left mid right : Nat)
    (h1 : left ≤ mid) (h2 : mid < right) (h3 : right < array.length) :
    (merge array left mid right).1
      = array.take left
          ++ List.merge ((array.drop left).take (mid + 1 - left))
              ((array.drop (mid + 1)).take (right - mid)) (fun a b => a ≤ b)
          ++ array.drop (right + 1) := by
  have hla : ((array.drop left).take (mid + 1 - left)).length = mid + 1 - left := by
    rw [List.length_take, List.length_drop]; omega
  have hlb : ((array.drop (mid + 1)).take (right - mid)).length = right - mid := by
    rw [List.length_take, List.length_drop]; omega
  simp only [merge]
  rw [mergeLoop_chain ((array.drop left).take (mid + 1 - left))
    ((array.drop (mid + 1)).take (right - mid)) left mid _ array 0 0 left
    (by omega)
    (by simp only [Nat.sub_zero]; rw [hla, hlb]; omega)]
  simp only [Nat.sub_zero, List.drop_zero]
  rw [hla, hlb]
  have hx : left + (mid + 1 - left + (right - mid)) = right + 1 := by omega
  rw [hx]

theorem subarr_take (a : List Int) (l r : Nat) :
    subarr a l r = (a.take (r + 1)).drop l := by
  rw [subarr, List.drop_take]

theorem subarr_split (a : List Int) (l m r : Nat) (h1 : l ≤ m) (h2 : m ≤ r) :
    subarr a l m ++ subarr a (m + 1) r = subarr a l r := by
  simp only [subarr]
  have hx : r + 1 - l = (m + 1 - l) + (r + 1 - (m + 1)) := by omega
  rw [hx, List.take_add, List.drop_drop]
  have hy : l + (m + 1 - l) = m + 1 := by omega
  rw [hy]

theorem sorted_of_short (l : List Int) (h : l.length ≤ 1) :
    List.Sorted (fun a b : Int => a ≤ b) l := by
  match l with
  | [] => exact List.sorted_nil
  | [x] => exact List.sorted_singleton x
  | a :: b :: t => simp at h

theorem mergeSortHelper_main : ∀ (fuel : Nat) (array : List Int) (left right : Nat),
    right < array.length → right + 1 - left ≤ fuel →
    (mergeSortHelper fuel array left right).1.length = array.length
    ∧ (mergeSortHelper fuel array left right).1.take left = array.take left
    ∧ (mergeSortHelper fuel array left right).1.drop (right + 1) = array.drop (right + 1)
    ∧ (¬ left < right → (mergeSortHelper fuel array left right).1 = array)
    ∧ List.Perm (subarr (mergeSortHelper fuel array left right).1 left right)
        (subarr array left right)
    ∧ List.Sorted (fun a b : Int => a ≤ b)
        (subarr (mergeSortHelper fuel array left right).1 left right) := by
  intro fuel
  induction fuel with
  | zero =>
    intro array left right hlen hfuel
    refine ⟨rfl, rfl, rfl, fun _ => rfl, List.Perm.refl _, ?_⟩
    apply sorted_of_short
    rw [mergeSortHelper]
    rw [subarr, List.length_take]
    omega
  | succ fuel ih =>
    intro array left right hlen hfuel
    rw [mergeSortHelper]
    by_cases hlr : left < right
    · rw [if_pos hlr]
      dsimp only
      have hmid1 : left ≤ (left + right) / 2 := by omega
      have hmid2 : (left + right) / 2 < right := by omega
      obtain ⟨l1, t1, d1, _, p1, s1⟩ :=
        ih array left ((left + right) / 2) (by omega) (by omega)
      obtain ⟨l2, t2, d2, _, p2, s2⟩ :=
        ih (mergeSortHelper fuel array left ((left + right) / 2)).1
          ((left + right) / 2 + 1) right (by omega) (by omega)
      set mid := (left + right) / 2 with hmiddef
      set R1 := (mergeSortHelper fuel array left mid).1 with hR1
      set R2 := (mergeSortHelper fuel R1 ((left + right) / 2 + 1) right).1 with hR2
      have hR2len : R2.length = array.length := by omega
      -- the two sorted halves, as they appear in `merge_result` applied to R2
      have eL : (R2.drop left).take (mid + 1 - left) = subarr R1 left mid := by
        have h1 : (R2.drop left).take (mid + 1 - left) = subarr R2 left mid := by
          rw [subarr]
        rw [h1, subarr_take, subarr_take, t2]
      have hconv : right + 1 - (mid + 1) = right - mid := by omega
      have eR : (R2.drop (mid + 1)).take (right - mid) = subarr R2 (mid + 1) right := by
        rw [subarr, hconv]
      have eR2 : subarr R1 (mid + 1) right = subarr array (mid + 1) right := by
        rw [subarr, subarr, d1]
      have hres := merge_result R2 left mid right hmid1 hmid2 (by omega)
      -- abbreviations for the three segments of the merged result
      have hTlen : (R2.take left).length = left := by
        rw [List.length_take]; omega
      have hLlen : ((R2.drop left).take (mid + 1 - left)).length = mid + 1 - left := by
        rw [List.length_take, List.length_drop]; omega
      have hRlen : ((R2.drop (mid + 1)).take (right - mid)).length = right - mid := by
        rw [List.length_take, List.length_drop]; omega
      have hMperm := List.perm_merge (fun a b : Int => a ≤ b)
        ((R2.drop left).take (mid + 1 - left)) ((R2.drop (mid + 1)).take (right - mid))
      have hMlen : (List.merge ((R2.drop left).take (mid + 1 - left))
          ((R2.drop (mid + 1)).take (right - mid)) (fun a b : Int => a ≤ b)).length
          = right + 1 - left := by
        rw [hMperm.length_eq, List.length_append, hLlen, hRlen]
        omega
      have hTMlen : ((R2.take left) ++ List.merge ((R2.drop left).take (mid + 1 - left))
          ((R2.drop (mid + 1)).take (right - mid)) (fun a b : Int => a ≤ b)).length
          = right + 1 := by
        rw [List.length_append, hTlen, hMlen]
        omega
      refine ⟨?_, ?_, ?_, fun hcontra => absurd hlr hcontra, ?_, ?_⟩
      · rw [hres, List.length_append, List.length_append, hTlen, hMlen, List.length_drop]
        omega
      · rw [hres, List.append_assoc, List.take_append_eq_append_take, hTlen,
          List.take_take]
        have hx : min left left = left := by omega
        have hy : left - left = 0 := by omega
        rw [hx, hy, List.take_zero, List.append_nil]
        have ht2' : R2.take left = R1.take left := by
          have := congrArg (List.take left) t2
          rwa [List.take_take, List.take_take, Nat.min_def, if_pos (by omega)] at this
        rw [ht2', t1]
      · rw [hres, List.drop_left' hTMlen]
        have hd1' : R1.drop (right + 1) = array.drop (right + 1) := by
          have := congrArg (List.drop (right - mid)) d1
          rw [List.drop_drop, List.drop_drop] at this
          have hz : mid + 1 + (right - mid) = right + 1 := by omega
          rwa [hz] at this
        rw [d2, hd1']
      · rw [hres, List.append_assoc, subarr, List.drop_append_eq_append_drop, hTlen]
        have hx : left - left = 0 := by omega
        rw [List.drop_of_length_le (le_of_eq hTlen), hx, List.drop_zero, List.nil_append,
          List.take_append_eq_append_take, List.take_of_length_le (le_of_eq hMlen), hMlen]
        have hy : right + 1 - left - (right + 1 - left) = 0 := by omega
        rw [hy, List.take_zero, List.append_nil]
        have pL : List.Perm ((R2.drop left).take (mid + 1 - left)) (subarr array left mid) := by
          rw [eL]; exact p1
        have pR : List.Perm ((R2.drop (mid + 1)).take (right - mid))
            (subarr array (mid + 1) right) := by
          rw [eR]; exact p2.trans (by rw [eR2])
        have psplit : List.Perm (subarr array left mid ++ subarr array (mid + 1) right)
            (subarr array left right) := by
          rw [subarr_split array left mid right hmid1 (by omega)]
        exact hMperm.trans ((pL.append pR).trans psplit)
      · rw [hres, List.append_assoc, subarr, List.drop_append_eq_append_drop, hTlen]
        have hx : left - left = 0 := by omega
        rw [List.drop_of_length_le (le_of_eq hTlen), hx, List.drop_zero, List.nil_append,
          List.take_append_eq_append_take, List.take_of_length_le (le_of_eq hMlen), hMlen]
        have hy : right + 1 - left - (right + 1 - left) = 0 := by omega
        rw [hy, List.take_zero, List.append_nil]
        have hsL : List.Sorted (fun a b : Int => a ≤ b)
            ((R2.drop left).take (mid + 1 - left)) := by
          rw [eL]; exact s1
        have hsR : List.Sorted (fun a b : Int => a ≤ b)
            ((R2.drop (mid + 1)).take (right - mid)) := by
          rw [eR]; exact s2
        exact hsL.merge hsR
    · rw [if_neg hlr]
      refine ⟨rfl, rfl, rfl, fun _ => rfl, List.Perm.refl _, ?_⟩
      apply sorted_of_short
      rw [subarr, List.length_take]
      omega

theorem mergeLoop_last (leftArr rightArr : List Int) (left mid : Nat) :
    ∀ (fuel : Nat) (array : List Int) (i j k : Nat),
    ((mergeLoop leftArr rightArr left mid fuel array i j k).2 = []
        → (mergeLoop leftArr rightArr left mid fuel array i j k).1.1 = array)
      ∧ ∀ st, (mergeLoop leftArr rightArr left mid fuel array i j k).2.getLast? = some st →
          st.snapshot = (mergeLoop leftArr rightArr left mid fuel array i j k).1.1 := by
  intro fuel
  induction fuel with
  | zero => intro array i j k; exact ⟨fun _ => rfl, by simp [mergeLoop]⟩
  | succ fuel ih =>
    intro array i j k
    rw [mergeLoop]
    by_cases hc : i < leftArr.length ∧ j < rightArr.length
    · rw [if_pos hc]
      by_cases hle : leftArr.getD i 0 ≤ rightArr.getD j 0
      · rw [if_pos hle]
        dsimp only
        constructor
        · intro h
          simp at h
        · intro st hst
          obtain ⟨ihe, ihl⟩ := ih (array.set k (leftArr.getD i 0)) (i + 1) j (k + 1)
          cases hrest : (mergeLoop leftArr rightArr left mid fuel
              (array.set k (leftArr.getD i 0)) (i + 1) j (k + 1)).2 with
          | nil =>
            rw [hrest] at hst
            simp only [List.getLast?_cons_cons, List.getLast?_cons, List.getLast?_nil] at hst
            cases hst
            rw [ihe hrest]
            rfl
          | cons s0 srest =>
            rw [hrest] at hst
            rw [List.getLast?_cons_cons, List.getLast?_cons_cons] at hst
            apply ihl
            rw [hrest]
            exact hst
      · rw [if_neg hle]
        dsimp only
        constructor
        · intro h
          simp at h
        · intro st hst
          obtain ⟨ihe, ihl⟩ := ih (array.set k (rightArr.getD j 0)) i (j + 1) (k + 1)
          cases hrest : (mergeLoop leftArr rightArr left mid fuel
              (array.set k (rightArr.getD j 0)) i (j + 1) (k + 1)).2 with
          | nil =>
            rw [hrest] at hst
            simp only [List.getLast?_cons_cons, List.getLast?_cons, List.getLast?_nil] at hst
            cases hst
            rw [ihe hrest]
            rfl
          | cons s0 srest =>
            rw [hrest] at hst
            rw [List.getLast?_cons_cons, List.getLast?_cons_cons] at hst
            apply ihl
            rw [hrest]
            exact hst
    · rw [if_neg hc]
      exact ⟨fun _ => rfl, by simp⟩

theorem mergeCopy_last (src : List Int) : ∀ (fuel : Nat) (array : List Int) (i k : Nat),
    ((mergeCopy src fuel array i k).2 = [] → (mergeCopy src fuel array i k).1 = array)
      ∧ ∀ st, (mergeCopy src fuel array i k).2.getLast? = some st →
          st.snapshot = (mergeCopy src fuel array i k).1 := by
  intro fuel
  induction fuel with
  | zero => intro array i k; exact ⟨fun _ => rfl, by simp [mergeCopy]⟩
  | succ fuel ih =>
    intro array i k
    rw [mergeCopy]
    by_cases hc : i < src.length
    · rw [if_pos hc]
      dsimp only
      constructor
      · intro h
        simp at h
      · intro st hst
        obtain ⟨ihe, ihl⟩ := ih (array.set k (src.getD i 0)) (i + 1) (k + 1)
        cases hrest : (mergeCopy src fuel (array.set k (src.getD i 0)) (i + 1) (k + 1)).2 with
        | nil =>
          rw [hrest] at hst
          simp only [List.getLast?_cons, List.getLast?_nil] at hst
          cases hst
          rw [ihe hrest]
          rfl
        | cons s0 srest =>
          rw [hrest] at hst
          rw [List.getLast?_cons_cons] at hst
          apply ihl
          rw [hrest]
          exact hst
    · rw [if_neg hc]
      exact ⟨fun _ => rfl, by simp⟩

theorem merge_last (array : List Int) (left mid right : Nat) :
    ((merge array left mid right).2 = [] → (merge array left mid right).1 = array)
      ∧ ∀ st, (merge array left mid right).2.getLast? = some st →
          st.snapshot = (merge array left mid right).1 := by
  rw [merge]
  dsimp only
  set la := ((array.drop left).take (mid + 1 - left)) with hla
  set ra := ((array.drop (mid + 1)).take (right - mid)) with hra
  set w := mergeLoop la ra left mid (la.length + ra.length) array 0 0 left with hw
  set c1 := mergeCopy la la.length w.1.1 w.1.2.1 w.1.2.2.2 with hc1
  set c2 := mergeCopy ra ra.length c1.1 w.1.2.2.1 (w.1.2.2.2 + (la.length - w.1.2.1)) with hc2
  obtain ⟨we, wl⟩ := mergeLoop_last la ra left mid (la.length + ra.length) array 0 0 left
  obtain ⟨c1e, c1l⟩ := mergeCopy_last la la.length w.1.1 w.1.2.1 w.1.2.2.2
  obtain ⟨c2e, c2l⟩ := mergeCopy_last ra ra.length c1.1 w.1.2.2.1
    (w.1.2.2.2 + (la.length - w.1.2.1))
  constructor
  · intro h
    rcases List.append_eq_nil.mp h with ⟨h1, h3⟩
    rcases List.append_eq_nil.mp h1 with ⟨h1, h2⟩
    rw [c2e h3, c1e h2, we h1]
  · intro st hst
    rw [List.getLast?_append] at hst
    cases h3 : c2.2 with
    | nil =>
      rw [h3] at hst
      simp only [List.getLast?_nil, Option.none_or] at hst
      rw [List.getLast?_append] at hst
      rw [c2e h3]
      cases h2 : c1.2 with
      | nil =>
        rw [h2] at hst
        simp only [List.getLast?_nil, Option.none_or] at hst
        rw [c1e h2]
        exact wl st hst
      | cons s0 srest =>
        rw [h2] at hst
        cases hx : (s0 :: srest).getLast? with
        | none =>
          rw [List.getLast?_eq_none_iff] at hx
          cases hx
        | some y =>
          rw [hx, Option.or_some, Option.some_inj] at hst
          subst hst
          apply c1l
          rw [h2]
          exact hx
    | cons s0 srest =>
      rw [h3] at hst
      cases hx : (s0 :: srest).getLast? with
      | none =>
        rw [List.getLast?_eq_none_iff] at hx
        cases hx
      | some y =>
        rw [hx, Option.or_some, Option.some_inj] at hst
        subst hst
        apply c2l
        rw [h3]
        exact hx

theorem mergeSortHelper_last : ∀ (fuel : Nat) (array : List Int) (left right : Nat),
    ((mergeSortHelper fuel array left right).2 = []
        → (mergeSortHelper fuel array left right).1 = array)
      ∧ ∀ st, (mergeSortHelper fuel array left right).2.getLast? = some st →
          st.snapshot = (mergeSortHelper fuel array left right).1 := by
  intro fuel
  induction fuel with
  | zero => intro array left right; exact ⟨fun _ => rfl, by simp [mergeSortHelper]⟩
  | succ fuel ih =>
    intro array left right
    rw [mergeSortHelper]
    by_cases hlr : left < right
    · rw [if_pos hlr]
      dsimp only
      set mid := (left + right) / 2 with hmid
      set r1 := mergeSortHelper fuel array left mid with hr1
      set r2 := mergeSortHelper fuel r1.1 (mid + 1) right with hr2
      set r3 := merge r2.1 left mid right with hr3
      obtain ⟨e1, l1⟩ := ih array left mid
      obtain ⟨e2, l2⟩ := ih r1.1 (mid + 1) right
      obtain ⟨e3, l3⟩ := merge_last r2.1 left mid right
      constructor
      · intro h
        rcases List.append_eq_nil.mp h with ⟨h1, h3⟩
        rcases List.append_eq_nil.mp h1 with ⟨h1, h2⟩
        rw [e3 h3, e2 h2, e1 h1]
      · intro st hst
        rw [List.getLast?_append] at hst
        cases h3 : r3.2 with
        | nil =>
          rw [h3] at hst
          simp only [List.getLast?_nil, Option.none_or] at hst
          rw [List.getLast?_append] at hst
          rw [e3 h3]
          cases h2 : r2.2 with
          | nil =>
            rw [h2] at hst
            simp only [List.getLast?_nil, Option.none_or] at hst
            rw [e2 h2]
            exact l1 st hst
          | cons s0 srest =>
            rw [h2] at hst
            cases hx : (s0 :: srest).getLast? with
            | none =>
              rw [List.getLast?_eq_none_iff] at hx
              cases hx
            | some y =>
              rw [hx, Option.or_some, Option.some_inj] at hst
              subst hst
              apply l2
              rw [h2]
              exact hx
        | cons s0 srest =>
          rw [h3] at hst
          cases hx : (s0 :: srest).getLast? with
          | none =>
            rw [List.getLast?_eq_none_iff] at hx
            cases hx
          | some y =>
            rw [hx, Option.or_some, Option.some_inj] at hst
            subst hst
            apply l3
            rw [h3]
            exact hx
    · rw [if_neg hlr]
      exact ⟨fun _ => rfl, by simp⟩

/-- Merge sort: the final snapshot is a sorted permutation of the input. -/
theorem mergeSort_final (arr : List Int) :
    ∀ st, (mergeSort arr).getLast? = some st →
        List.Perm st.snapshot arr ∧ st.snapshot.Sorted (· ≤ ·) := by
  cases harr : arr with
  | nil =>
    intro st hst
    simp [mergeSort, mergeSortHelper] at hst
  | cons a0 atail =>
    rw [← harr]
    have hne : arr.length ≠ 0 := by rw [harr]; simp
    intro st hst
    obtain ⟨m1, -, -, -, m5, m6⟩ := mergeSortHelper_main arr.length arr 0
      (arr.length - 1) (by omega) (by omega)
    obtain ⟨-, le2⟩ := mergeSortHelper_last arr.length arr 0 (arr.length - 1)
    rw [mergeSort] at hst
    rw [le2 st hst]
    have hfull : ∀ (x : List Int), x.length = arr.length →
        subarr x 0 (arr.length - 1) = x := by
      intro x hx
      rw [subarr, List.drop_zero]
      have : arr.length - 1 + 1 - 0 = arr.length := by omega
      rw [this, ← hx, List.take_length]
    rw [hfull _ m1, hfull arr rfl] at m5
    rw [hfull _ m1] at m6
    exact ⟨m5, m6⟩

/-- C1 (counterexample to the every-step part): the second step of
`mergeSort [2, 1]` is `swap [0]` with snapshot `[1, 1]`, which is not a
permutation of the input `[2, 1]` — during the merge's write-back the
working array transiently duplicates values, so the multiset of values
is *not* preserved in the snapshot of every step. -/
theorem c1_counterexample :
    SortStep.swap [0] [1, 1] ∈ mergeSort [2, 1]
      ∧ ¬ List.Perm (SortStep.swap [0] [1, 1]).snapshot [2, 1] := by
  constructor
  · decide
  · intro h
    have := h.count_eq 2
    simp [SortStep.snapshot, List.count_cons] at this

/-- C1 (amended): for every input array, the final step of each of
`bubbleSort`, `quickSort` and `mergeSort` (when the trace is non-empty)
carries a snapshot that is a sorted permutation of the input; moreover
for `bubbleSort` and `quickSort` (but not `mergeSort`, see the
counterexample) every step's snapshot is a permutation of the input. -/
theorem c1_sorting_correctness (arr : List Int) :
    ((∀ st ∈ bubbleSort arr, List.Perm st.snapshot arr)
      ∧ ∀ st, (bubbleSort arr).getLast? = some st →
          List.Perm st.snapshot arr ∧ st.snapshot.Sorted (· ≤ ·))
    ∧ ((∀ st ∈ quickSort arr, List.Perm st.snapshot arr)
      ∧ ∀ st, (quickSort arr).getLast? = some st →
          List.Perm st.snapshot arr ∧ st.snapshot.Sorted (· ≤ ·))
    ∧ (∀ st, (mergeSort arr).getLast? = some st →
          List.Perm st.snapshot arr ∧ st.snapshot.Sorted (· ≤ ·)) :=
  ⟨bubbleSort_c1 arr, quickSort_c1 arr, mergeSort_final arr⟩

/-! ### C7: topological sort puts edge sources before edge targets -/

theorem mem_buildDirectedAdj (edges : List (Nat × Nat)) (u v : Nat) :
    v ∈ buildDirectedAdj edges u ↔ (u, v) ∈ edges := by
  simp only [buildDirectedAdj, List.mem_map, List.mem_filter]
  constructor
  · rintro ⟨⟨a, b⟩, ⟨he, hu⟩, hv⟩
    simp only [decide_eq_true_eq] at hu
    dsimp only at hu hv
    subst hu
    subst hv
    exact he
  · intro h
    exact ⟨(u, v), ⟨h, by simp⟩, rfl⟩

theorem unvisCount_le (n : Nat) (v : List Nat) : unvisCount n v ≤ n := by
  rw [unvisCount]
  calc ((Finset.range n).filter (fun x => x ∉ v)).card
      ≤ (Finset.range n).card := Finset.card_filter_le _ _
    _ = n := Finset.card_range n

theorem unvisCount_mono (n : Nat) (v v' : List Nat) (h : ∀ x ∈ v, x ∈ v') :
    unvisCount n v' ≤ unvisCount n v := by
  apply Finset.card_le_card
  intro x hx
  simp only [Finset.mem_filter] at hx ⊢
  exact ⟨hx.1, fun hxv => hx.2 (h x hxv)⟩

theorem unvisCount_cons (n : Nat) (node : Nat) (v : List Nat)
    (h1 : node < n) (h2 : node ∉ v) :
    unvisCount n (node :: v) < unvisCount n v := by
  have hmem : node ∈ (Finset.range n).filter (fun x => x ∉ v) := by
    simp [Finset.mem_filter, Finset.mem_range, h1, h2]
  have hstep : (Finset.range n).filter (fun x => x ∉ node :: v)
      = ((Finset.range n).filter (fun x => x ∉ v)).erase node := by
    ext x
    simp only [Finset.mem_filter, Finset.mem_erase, Finset.mem_range, List.mem_cons,
      not_or]
    tauto
  rw [unvisCount, unvisCount, hstep, Finset.card_erase_of_mem hmem]
  have hpos : 0 < ((Finset.range n).filter (fun x => x ∉ v)).card :=
    Finset.card_pos.mpr ⟨node, hmem⟩
  omega

theorem topoExt_refl (visited result : List Nat) (h : ∀ x ∈ result, x ∈ visited) :
    topoExt visited result visited result :=
  ⟨fun _ hx => hx, ⟨[], rfl, by simp⟩, fun _ hx => Or.inl hx, h⟩

theorem topoExt_res_mono {v0 r0 v1 r1 : List Nat} (h : topoExt v0 r0 v1 r1) :
    ∀ x ∈ r0, x ∈ r1 := by
  obtain ⟨-, ⟨n1, hn1, -⟩, -, -⟩ := h
  intro x hx
  rw [hn1]
  exact List.mem_append_right _ hx

theorem topoExt_trans {v0 r0 v1 r1 v2 r2 : List Nat}
    (h1 : topoExt v0 r0 v1 r1) (h2 : topoExt v1 r1 v2 r2) :
    topoExt v0 r0 v2 r2 := by
  have hr12 := topoExt_res_mono h2
  obtain ⟨a1, ⟨n1, hn1, hf1⟩, c1, d1⟩ := h1
  obtain ⟨a2, ⟨n2, hn2, hf2⟩, c2, d2⟩ := h2
  refine ⟨fun x hx => a2 x (a1 x hx),
    ⟨n2 ++ n1, by rw [hn2, hn1, List.append_assoc], ?_⟩, ?_, d2⟩
  · intro x hx
    rcases List.mem_append.mp hx with hx | hx
    · exact fun hxv => hf2 x hx (a1 x hxv)
    · exact hf1 x hx
  · intro x hx
    rcases c2 x hx with hx1 | hx1
    · rcases c1 x hx1 with hx2 | hx2
      · exact Or.inl hx2
      · exact Or.inr (hr12 x (hn1 ▸ hx2))
    · exact Or.inr hx1

theorem topoExt_grey {v0 r0 v1 r1 : List Nat} (h : topoExt v0 r0 v1 r1) :
    ∀ x, x ∈ v1 → x ∉ r1 → x ∈ v0 ∧ x ∉ r0 := by
  have hr01 := topoExt_res_mono h
  obtain ⟨a, ⟨n1, hn1, hf⟩, c, d⟩ := h
  intro x hx hnr
  rcases c x hx with h1 | h1
  · exact ⟨h1, fun hr0 => hnr (hr01 x hr0)⟩
  · exact absurd h1 hnr

theorem topoDfsList_c7
    (g : GraphV) (hwf : ∀ e ∈ g.edges, e.1 < g.nodes ∧ e.2 < g.nodes)
    (fuel : Nat)
    (rec : Nat → List Nat → List Nat → List Nat × List Nat × List GraphStep)
    (hrec : ∀ nd visited result,
      unvisCount g.nodes visited < fuel →
      nd ∉ visited → nd < g.nodes →
      (∀ x ∈ result, x ∈ visited) →
      resOrd g result →
      (∀ x ∈ visited, x ∉ result → Relation.ReflTransGen (edgeOf g) x nd) →
      topoExt visited result (rec nd visited result).1 (rec nd visited result).2.1
        ∧ nd ∈ (rec nd visited result).2.1
        ∧ resOrd g (rec nd visited result).2.1)
    (node : Nat) :
    ∀ (nbs visited result : List Nat),
      unvisCount g.nodes visited < fuel →
      node ∈ visited → node ∉ result →
      (∀ nb ∈ nbs, (node, nb) ∈ g.edges) →
      (∀ x ∈ result, x ∈ visited) →
      resOrd g result →
      (∀ x ∈ visited, x ∉ result → Relation.ReflTransGen (edgeOf g) x node) →
      topoExt visited result (topoDfsList rec nbs visited result).1
          (topoDfsList rec nbs visited result).2.1
        ∧ resOrd g (topoDfsList rec nbs visited result).2.1
        ∧ ∀ nb ∈ nbs, nb ∈ (topoDfsList rec nbs visited result).1 := by
  intro nbs
  induction nbs with
  | nil =>
    intro visited result hcnt hnv hnr hnbs hres hord hgrey
    rw [topoDfsList]
    exact ⟨topoExt_refl _ _ hres, hord, by simp⟩
  | cons nb rest ih =>
    intro visited result hcnt hnv hnr hnbs hres hord hgrey
    rw [topoDfsList]
    by_cases hv : nb ∉ visited
    · rw [if_pos hv]
      dsimp only
      obtain ⟨E1, hnbmem, O1⟩ := hrec nb visited result hcnt hv
        (hwf (node, nb) (hnbs nb (List.mem_cons_self _ _))).2
        hres hord
        (fun x hx hxr => Relation.ReflTransGen.tail (hgrey x hx hxr)
          (hnbs nb (List.mem_cons_self _ _)))
      have hnodev1 : node ∈ (rec nb visited result).1 := E1.1 node hnv
      have hnoder1 : node ∉ (rec nb visited result).2.1 := by
        obtain ⟨-, ⟨n1, hn1, hf1⟩, -, -⟩ := E1
        rw [hn1]
        intro hmem
        rcases List.mem_append.mp hmem with h | h
        · exact hf1 node h hnv
        · exact hnr h
      obtain ⟨E2, O2, M2⟩ := ih (rec nb visited result).1 (rec nb visited result).2.1
        (lt_of_le_of_lt (unvisCount_mono _ _ _ E1.1) hcnt)
        hnodev1 hnoder1
        (fun x hx => hnbs x (List.mem_cons_of_mem _ hx))
        E1.2.2.2
        O1
        (fun x hx hxr => by
          obtain ⟨hx0, hxr0⟩ := topoExt_grey E1 x hx hxr
          exact hgrey x hx0 hxr0)
      refine ⟨topoExt_trans E1 E2, O2, ?_⟩
      intro y hy
      rcases List.mem_cons.mp hy with rfl | hy
      · exact E2.1 y (E1.2.2.2 y hnbmem)
      · exact M2 y hy
    · rw [if_neg hv]
      obtain ⟨E, O, M⟩ := ih visited result hcnt hnv hnr
        (fun x hx => hnbs x (List.mem_cons_of_mem _ hx)) hres hord hgrey
      refine ⟨E, O, ?_⟩
      intro y hy
      rcases List.mem_cons.mp hy with rfl | hy
      · exact E.1 y (not_not.mp hv)
      · exact M y hy

theorem topoDfs_c7 (g : GraphV)
    (hwf : ∀ e ∈ g.edges, e.1 < g.nodes ∧ e.2 < g.nodes) (hdag : isDag g)
    (adj : Nat → List Nat) (hadj : ∀ u v, v ∈ adj u ↔ (u, v) ∈ g.edges) :
    ∀ (fuel : Nat) (nd : Nat) (visited result : List Nat),
      unvisCount g.nodes visited < fuel →
      nd ∉ visited → nd < g.nodes →
      (∀ x ∈ result, x ∈ visited) →
      resOrd g result →
      (∀ x ∈ visited, x ∉ result → Relation.ReflTransGen (edgeOf g) x nd) →
      topoExt visited result (topoDfs adj fuel nd visited result).1
          (topoDfs adj fuel nd visited result).2.1
        ∧ nd ∈ (topoDfs adj fuel nd visited result).2.1
        ∧ resOrd g (topoDfs adj fuel nd visited result).2.1 := by
  intro fuel
  induction fuel with
  | zero =>
    intro nd visited result hcnt
    exact absurd hcnt (Nat.not_lt_zero _)
  | succ fuel ih =>
    intro nd visited result hcnt hnv hndlt hres hord hgrey
    rw [topoDfs]
    dsimp only
    have hcnt' : unvisCount g.nodes (nd :: visited) < fuel := by
      have := unvisCount_cons g.nodes nd visited hndlt hnv
      omega
    obtain ⟨EL, OL, ML⟩ := topoDfsList_c7 g hwf fuel (topoDfs adj fuel) ih nd
      (adj nd) (nd :: visited) result
      hcnt'
      (List.mem_cons_self _ _)
      (fun h => hnv (hres nd h))
      (fun nb hnb => (hadj nd nb).mp hnb)
      (fun x hx => List.mem_cons_of_mem _ (hres x hx))
      hord
      (fun x hx hxr => by
        rcases List.mem_cons.mp hx with rfl | hx0
        · exact Relation.ReflTransGen.refl
        · exact hgrey x hx0 hxr)
    set L := topoDfsList (topoDfs adj fuel) (adj nd) (nd :: visited) result with hLdef
    have hresmonoL := topoExt_res_mono EL
    obtain ⟨ELa, ⟨nR, hnR, hfR⟩, ELc, ELd⟩ := EL
    refine ⟨⟨?_, ⟨nd :: nR, ?_, ?_⟩, ?_, ?_⟩, List.mem_cons_self _ _, ?_⟩
    · exact fun x hx => ELa x (List.mem_cons_of_mem _ hx)
    · rw [hnR]
      rfl
    · intro x hx
      rcases List.mem_cons.mp hx with rfl | hx
      · exact hnv
      · exact fun hxv => hfR x hx (List.mem_cons_of_mem _ hxv)
    · intro x hx
      rcases ELc x hx with h1 | h1
      · rcases List.mem_cons.mp h1 with rfl | h1
        · exact Or.inr (List.mem_cons_self _ _)
        · exact Or.inl h1
      · exact Or.inr (List.mem_cons_of_mem _ h1)
    · intro x hx
      rcases List.mem_cons.mp hx with rfl | hx
      · exact ELa x (List.mem_cons_self _ _)
      · exact ELd x hx
    · unfold resOrd
      intro j u v hval hedge
      cases j with
      | zero =>
        simp only [List.getElem?_cons_zero, Option.some_inj] at hval
        subst hval
        have hvadj : v ∈ adj nd := (hadj nd v).mpr hedge
        have hvvis : v ∈ L.1 := ML v hvadj
        have hvres : v ∈ L.2.1 := by
          rcases ELc v hvvis with h1 | h1
          · rcases List.mem_cons.mp h1 with rfl | h1
            · exact absurd (Relation.TransGen.single hedge) (hdag v)
            · by_cases hvr : v ∈ result
              · exact hresmonoL v hvr
              · exact absurd (Relation.TransGen.head' hedge (hgrey v h1 hvr)) (hdag nd)
          · exact h1
        obtain ⟨k, hk⟩ := List.mem_iff_getElem?.mp hvres
        exact ⟨k + 1, by omega, by simpa using hk⟩
      | succ j =>
        simp only [List.getElem?_cons_succ] at hval
        obtain ⟨k, hkj, hkv⟩ := OL j u v hval hedge
        exact ⟨k + 1, by omega, by simpa using hkv⟩

theorem topoOuter_c7 (g : GraphV)
    (hwf : ∀ e ∈ g.edges, e.1 < g.nodes ∧ e.2 < g.nodes) (hdag : isDag g)
    (adj : Nat → List Nat) (hadj : ∀ u v, v ∈ adj u ↔ (u, v) ∈ g.edges) :
    ∀ (roots visited result : List Nat),
      (∀ i ∈ roots, i < g.nodes) →
      (∀ x ∈ visited, x ∈ result) →
      (∀ x ∈ result, x ∈ visited) →
      resOrd g result →
      topoExt visited result (topoOuter adj g.nodes roots visited result).1
          (topoOuter adj g.nodes roots visited result).2.1
        ∧ resOrd g (topoOuter adj g.nodes roots visited result).2.1
        ∧ ∀ i ∈ roots, i ∈ (topoOuter adj g.nodes roots visited result).2.1 := by
  intro roots
  induction roots with
  | nil =>
    intro visited result hroots hnogrey hres hord
    rw [topoOuter]
    exact ⟨topoExt_refl _ _ hres, hord, by simp⟩
  | cons i rest ih =>
    intro visited result hroots hnogrey hres hord
    rw [topoOuter]
    by_cases hv : i ∉ visited
    · rw [if_pos hv]
      dsimp only
      obtain ⟨E1, hmem1, O1⟩ := topoDfs_c7 g hwf hdag adj hadj (g.nodes + 1) i
        visited result
        (by have := unvisCount_le g.nodes visited; omega)
        hv (hroots i (List.mem_cons_self _ _))
        hres hord
        (fun x hx hxr => absurd (hnogrey x hx) hxr)
      have hnogrey1 : ∀ x ∈ (topoDfs adj (g.nodes + 1) i visited result).1,
          x ∈ (topoDfs adj (g.nodes + 1) i visited result).2.1 := by
        intro x hx
        rcases E1.2.2.1 x hx with h1 | h1
        · exact topoExt_res_mono E1 x (hnogrey x h1)
        · exact h1
      obtain ⟨E2, O2, M2⟩ := ih _ _ (fun r hr => hroots r (List.mem_cons_of_mem _ hr))
        hnogrey1 E1.2.2.2 O1
      refine ⟨topoExt_trans E1 E2, O2, ?_⟩
      intro y hy
      rcases List.mem_cons.mp hy with rfl | hy
      · exact topoExt_res_mono E2 y hmem1
      · exact M2 y hy
    · rw [if_neg hv]
      obtain ⟨E, O, M⟩ := ih visited result (fun r hr => hroots r (List.mem_cons_of_mem _ hr))
        hnogrey hres hord
      refine ⟨E, O, ?_⟩
      intro y hy
      rcases List.mem_cons.mp hy with rfl | hy
      · exact topoExt_res_mono E y (hnogrey y (not_not.mp hv))
      · exact M y hy

theorem topoDfsList_pair
    (rec : Nat → List Nat → List Nat → List Nat × List Nat × List GraphStep)
    (hrec : ∀ nd v r,
      ((rec nd v r).2.2 = [] → (rec nd v r).1 = v ∧ (rec nd v r).2.1 = r)
        ∧ ∀ st, (rec nd v r).2.2.getLast? = some st →
            ∃ n2 v2, st = GraphStep.topoFinish n2 v2 (rec nd v r).2.1) :
    ∀ (nbs visited result : List Nat),
      ((topoDfsList rec nbs visited result).2.2 = []
          → (topoDfsList rec nbs visited result).1 = visited
            ∧ (topoDfsList rec nbs visited result).2.1 = result)
        ∧ ∀ st, (topoDfsList rec nbs visited result).2.2.getLast? = some st →
            ∃ n2 v2, st = GraphStep.topoFinish n2 v2
              (topoDfsList rec nbs visited result).2.1 := by
  intro nbs
  induction nbs with
  | nil =>
    intro visited result
    rw [topoDfsList]
    exact ⟨fun _ => ⟨rfl, rfl⟩, by simp⟩
  | cons nb rest ih =>
    intro visited result
    rw [topoDfsList]
    by_cases hv : nb ∉ visited
    · rw [if_pos hv]
      dsimp only
      obtain ⟨re, rl⟩ := hrec nb visited result
      obtain ⟨ie, il⟩ := ih (rec nb visited result).1 (rec nb visited result).2.1
      constructor
      · intro h
        rcases List.append_eq_nil.mp h with ⟨h1, h2⟩
        obtain ⟨hv1, hr1⟩ := re h1
        obtain ⟨hv2, hr2⟩ := ie h2
        exact ⟨hv2.trans hv1, hr2.trans hr1⟩
      · intro st hst
        rw [List.getLast?_append] at hst
        cases h2 : (topoDfsList rec rest (rec nb visited result).1
            (rec nb visited result).2.1).2.2 with
        | nil =>
          rw [h2] at hst
          simp only [List.getLast?_nil, Option.none_or] at hst
          obtain ⟨-, hr2⟩ := ie h2
          obtain ⟨n2, v2, hfin⟩ := rl st hst
          exact ⟨n2, v2, by rw [hfin, hr2]⟩
        | cons s0 srest =>
          rw [h2] at hst
          cases hx : (s0 :: srest).getLast? with
          | none =>
            rw [List.getLast?_eq_none_iff] at hx
            cases hx
          | some y =>
            rw [hx, Option.or_some, Option.some_inj] at hst
            subst hst
            apply il
            rw [h2]
            exact hx
    · rw [if_neg hv]
      exact ih visited result

theorem topoDfs_pair (adj : Nat → List Nat) :
    ∀ (fuel : Nat) (nd : Nat) (visited result : List Nat),
      ((topoDfs adj fuel nd visited result).2.2 = []
          → (topoDfs adj fuel nd visited result).1 = visited
            ∧ (topoDfs adj fuel nd visited result).2.1 = result)
        ∧ ∀ st, (topoDfs adj fuel nd visited result).2.2.getLast? = some st →
            ∃ n2 v2, st = GraphStep.topoFinish n2 v2
              (topoDfs adj fuel nd visited result).2.1 := by
  intro fuel
  induction fuel with
  | zero =>
    intro nd visited result
    rw [topoDfs]
    exact ⟨fun _ => ⟨rfl, rfl⟩, by simp⟩
  | succ fuel ih =>
    intro nd visited result
    rw [topoDfs]
    dsimp only
    constructor
    · intro h
      simp at h
    · intro st hst
      rw [List.getLast?_concat, Option.some_inj] at hst
      exact ⟨nd, _, hst.symm⟩

theorem topoOuter_pair (adj : Nat → List Nat) (n : Nat) :
    ∀ (roots visited result : List Nat),
      ((topoOuter adj n roots visited result).2.2 = []
          → (topoOuter adj n roots visited result).1 = visited
            ∧ (topoOuter adj n roots visited result).2.1 = result)
        ∧ ∀ st, (topoOuter adj n roots visited result).2.2.getLast? = some st →
            ∃ n2 v2, st = GraphStep.topoFinish n2 v2
              (topoOuter adj n roots visited result).2.1 := by
  intro roots
  induction roots with
  | nil =>
    intro visited result
    rw [topoOuter]
    exact ⟨fun _ => ⟨rfl, rfl⟩, by simp⟩
  | cons i rest ih =>
    intro visited result
    rw [topoOuter]
    by_cases hv : i ∉ visited
    · rw [if_pos hv]
      dsimp only
      obtain ⟨re, rl⟩ := topoDfs_pair adj (n + 1) i visited result
      obtain ⟨ie, il⟩ := ih (topoDfs adj (n + 1) i visited result).1
        (topoDfs adj (n + 1) i visited result).2.1
      constructor
      · intro h
        rcases List.append_eq_nil.mp h with ⟨h1, h2⟩
        obtain ⟨hv1, hr1⟩ := re h1
        obtain ⟨hv2, hr2⟩ := ie h2
        exact ⟨hv2.trans hv1, hr2.trans hr1⟩
      · intro st hst
        rw [List.getLast?_append] at hst
        cases h2 : (topoOuter adj n rest (topoDfs adj (n + 1) i visited result).1
            (topoDfs adj (n + 1) i visited result).2.1).2.2 with
        | nil =>
          rw [h2] at hst
          simp only [List.getLast?_nil, Option.none_or] at hst
          obtain ⟨-, hr2⟩ := ie h2
          obtain ⟨n2, v2, hfin⟩ := rl st hst
          exact ⟨n2, v2, by rw [hfin, hr2]⟩
        | cons s0 srest =>
          rw [h2] at hst
          cases hx : (s0 :: srest).getLast? with
          | none =>
            rw [List.getLast?_eq_none_iff] at hx
            cases hx
          | some y =>
            rw [hx, Option.or_some, Option.some_inj] at hst
            subst hst
            apply il
            rw [h2]
            exact hx
    · rw [if_neg hv]
      exact ih visited result

/-- C7: on every well-formed directed acyclic graph (edges between
existing nodes, no directed cycle), the last step of `topologicalSort`
is a `finish` step, and in the `result` ordering it carries, for every
directed edge `u → v` the node `u` appears strictly before `v`. -/
theorem c7_topological_sort_order (g : GraphV)
    (hwf : ∀ e ∈ g.edges, e.1 < g.nodes ∧ e.2 < g.nodes)
    (hdag : isDag g) :
    ∀ st, (topologicalSort g).getLast? = some st →
      ∃ nd vs res, st = GraphStep.topoFinish nd vs res
        ∧ ∀ u v, (u, v) ∈ g.edges → appearsBefore u v res := by
  intro st hst
  obtain ⟨E, O, M⟩ := topoOuter_c7 g hwf hdag (buildDirectedAdj g.edges)
    (fun u v => mem_buildDirectedAdj g.edges u v) (List.range g.nodes) [] []
    (fun i hi => List.mem_range.mp hi) (by simp) (by simp)
    (by unfold resOrd; intro j u v h; simp at h)
  obtain ⟨-, plast⟩ := topoOuter_pair (buildDirectedAdj g.edges) g.nodes
    (List.range g.nodes) [] []
  rw [topologicalSort] at hst
  obtain ⟨nd, vs, hstep⟩ := plast st hst
  refine ⟨nd, vs, _, hstep, ?_⟩
  intro u v huv
  have hu : u ∈ (topoOuter (buildDirectedAdj g.edges) g.nodes
      (List.range g.nodes) [] []).2.1 :=
    M u (List.mem_range.mpr (hwf (u, v) huv).1)
  obtain ⟨j, hj⟩ := List.mem_iff_getElem?.mp hu
  obtain ⟨k, hjk, hk⟩ := O j u v hj huv
  unfold appearsBefore
  exact ⟨j, k, hjk, hj, hk⟩

/-- C7 witness: on the DAG with nodes `0,1,2` and edges `0→1`, `1→2`,
`0→2` (acyclic because every edge increases the node id), the run's last
step is the `finish` step carrying `result = [0, 1, 2]`, in which every
edge's source precedes its target. -/
theorem c7_topological_sort_order_witness :
    ∃ nd vs res, GraphStep.topoFinish 0 [2, 1, 0] [0, 1, 2]
        = GraphStep.topoFinish nd vs res
      ∧ ∀ u v, (u, v) ∈ (GraphV.mk 3 [(0, 1), (1, 2), (0, 2)]).edges →
          appearsBefore u v res := by
  have hmono : ∀ u v : Nat, edgeOf (GraphV.mk 3 [(0, 1), (1, 2), (0, 2)]) u v → u < v := by
    intro u v h
    unfold edgeOf at h
    simp only [List.mem_cons, List.not_mem_nil, or_false, Prod.mk.injEq] at h
    rcases h with ⟨h1, h2⟩ | ⟨h1, h2⟩ | ⟨h1, h2⟩ <;> (subst h1; subst h2; omega)
  have hdag : isDag (GraphV.mk 3 [(0, 1), (1, 2), (0, 2)]) := by
    intro x hx
    have hlt : ∀ a b : Nat,
        Relation.TransGen (edgeOf (GraphV.mk 3 [(0, 1), (1, 2), (0, 2)])) a b → a < b := by
      intro a b h
      induction h with
      | single h1 => exact hmono _ _ h1
      | tail _ h2 ih => exact lt_trans ih (hmono _ _ h2)
    exact absurd (hlt x x hx) (lt_irrefl x)
  exact c7_topological_sort_order (GraphV.mk 3 [(0, 1), (1, 2), (0, 2)])
    (by decide) hdag (GraphStep.topoFinish 0 [2, 1, 0] [0, 1, 2]) (by decide)

/-! ### C5: BFS returns a shortest path (in cell count) -/

theorem mem_cellList (n m : Nat) (p : Pos) :
    p ∈ cellList n m ↔ 0 ≤ p.1 ∧ p.1 < (n : Int) ∧ 0 ≤ p.2 ∧ p.2 < (m : Int) := by
  constructor
  · intro h
    rw [cellList] at h
    rcases List.mem_flatMap.mp h with ⟨i, hi, hmem⟩
    rcases List.mem_map.mp hmem with ⟨j, hj, hp⟩
    rw [List.mem_range] at hi hj
    subst hp
    refine ⟨Int.ofNat_nonneg i, ?_, Int.ofNat_nonneg j, ?_⟩
    · show (Int.ofNat i : Int) < (n : Int)
      rw [Int.ofNat_eq_natCast]
      exact_mod_cast hi
    · show (Int.ofNat j : Int) < (m : Int)
      rw [Int.ofNat_eq_natCast]
      exact_mod_cast hj
  · rintro ⟨h1, h2, h3, h4⟩
    have hp : p = ((p.1.toNat : Int), (p.2.toNat : Int)) := by
      rw [Int.toNat_of_nonneg h1, Int.toNat_of_nonneg h3]
    rw [cellList, hp]
    apply List.mem_flatMap.mpr
    refine ⟨p.1.toNat, List.mem_range.mpr (by omega), ?_⟩
    apply List.mem_map.mpr
    exact ⟨p.2.toNat, List.mem_range.mpr (by omega), rfl⟩

theorem openCell_bounds (grid : Grid) (rows cols : Int) (p : Pos)
    (h : openCell grid rows cols p = true) :
    0 ≤ p.1 ∧ p.1 < rows ∧ 0 ≤ p.2 ∧ p.2 < cols := by
  simp only [openCell, Bool.and_eq_true, decide_eq_true_eq] at h
  exact ⟨h.1.1.1.1, h.1.1.1.2, h.1.1.2, h.1.2⟩

theorem cellsUnvis_insert (n m : Nat) (f : Pos) (visited : List Pos)
    (hin : f ∈ cellList n m) (hnot : f ∉ visited) :
    cellsUnvis n m (f :: visited) + 1 = cellsUnvis n m visited := by
  have hmem : f ∈ (cellList n m).toFinset.filter (fun p => p ∉ visited) := by
    simp [List.mem_toFinset, hin, hnot]
  have hstep : (cellList n m).toFinset.filter (fun p => p ∉ f :: visited)
      = ((cellList n m).toFinset.filter (fun p => p ∉ visited)).erase f := by
    ext x
    simp only [Finset.mem_filter, Finset.mem_erase, List.mem_cons, not_or]
    tauto
  rw [cellsUnvis, cellsUnvis, hstep, Finset.card_erase_add_one hmem]

theorem cellsUnvis_fresh (n m : Nat) :
    ∀ (fresh visited : List Pos), fresh.Nodup →
      (∀ x ∈ fresh, x ∉ visited ∧ x ∈ cellList n m) →
      cellsUnvis n m (fresh.reverse ++ visited) + fresh.length
        = cellsUnvis n m visited := by
  intro fresh
  induction fresh with
  | nil => intro visited _ _; simp
  | cons f fs ih =>
    intro visited hnd hfr
    have hcong : cellsUnvis n m ((f :: fs).reverse ++ visited)
        = cellsUnvis n m (fs.reverse ++ f :: visited) := by
      rw [cellsUnvis, cellsUnvis]
      congr 1
      apply Finset.filter_congr
      intro x _
      simp only [List.reverse_cons, List.mem_append, List.mem_cons, List.mem_reverse,
        List.mem_singleton, eq_iff_iff]
      tauto
    rw [hcong]
    have hfs : ∀ x ∈ fs, x ∉ f :: visited ∧ x ∈ cellList n m := by
      intro x hx
      refine ⟨?_, (hfr x (List.mem_cons_of_mem _ hx)).2⟩
      intro hmem
      rcases List.mem_cons.mp hmem with rfl | hmem
      · exact (List.nodup_cons.mp hnd).1 hx
      · exact (hfr x (List.mem_cons_of_mem _ hx)).1 hmem
    have h1 := ih (f :: visited) (List.nodup_cons.mp hnd).2 hfs
    have h2 := cellsUnvis_insert n m f visited (hfr f (List.mem_cons_self _ _)).2
      (hfr f (List.mem_cons_self _ _)).1
    simp only [List.length_cons]
    omega

theorem lookupParent_new (fresh : List Pos) (cur : Pos) (parent : List (Pos × Pos)) :
    ∀ v ∈ fresh,
      lookupParent ((fresh.map fun nb => (nb, cur)) ++ parent) v = some cur := by
  induction fresh with
  | nil => intro v hv; cases hv
  | cons f fs ih =>
    intro v hv
    rw [List.map_cons, List.cons_append, lookupParent]
    by_cases hf : f = v
    · rw [List.find?_cons_of_pos _ (by simp [hf])]
      rfl
    · rw [List.find?_cons_of_neg _ (by simp [hf])]
      rcases List.mem_cons.mp hv with rfl | hv
      · exact absurd rfl hf
      · exact ih v hv

theorem lookupParent_old (fresh : List Pos) (cur : Pos) (parent : List (Pos × Pos)) :
    ∀ v, v ∉ fresh →
      lookupParent ((fresh.map fun nb => (nb, cur)) ++ parent) v
        = lookupParent parent v := by
  induction fresh with
  | nil => intro v _; rfl
  | cons f fs ih =>
    intro v hv
    rw [List.map_cons, List.cons_append, lookupParent,
      List.find?_cons_of_neg _ (by
        simp only [decide_eq_true_eq]
        intro h
        apply hv
        rw [← h]
        exact List.mem_cons_self _ _)]
    exact ih v (fun h => hv (List.mem_cons_of_mem _ h))

theorem validPathG_head (dirs : List Pos) (grid : Grid) (rows cols : Int) (s w : Pos) :
    ∀ p, validPathG dirs grid rows cols s w p → p[0]? = some s := by
  intro p hp
  match p, hp with
  | [q], ⟨h1, _⟩ => rw [h1]; rfl
  | q :: r :: t, ⟨h1, _, _⟩ => rw [h1]; rfl

theorem validPathG_last (dirs : List Pos) (grid : Grid) (rows cols : Int) :
    ∀ (p : List Pos) (s w : Pos), validPathG dirs grid rows cols s w p →
      p[p.length - 1]? = some w := by
  intro p
  induction p with
  | nil => intro s w hp; cases hp
  | cons a rest ih =>
    intro s w hp
    match rest, hp with
    | [], ⟨_, h2⟩ => rw [h2]; rfl
    | b :: t, ⟨_, _, h3⟩ =>
      have := ih b w h3
      simpa using this

theorem validPathG_step (dirs : List Pos) (grid : Grid) (rows cols : Int) :
    ∀ (p : List Pos) (s w : Pos), validPathG dirs grid rows cols s w p →
      ∀ (k : Nat) (y z : Pos), p[k]? = some y → p[k + 1]? = some z →
        stepOk dirs grid rows cols y z := by
  intro p
  induction p with
  | nil => intro s w hp; cases hp
  | cons a rest ih =>
    intro s w hp k y z hy hz
    match rest, hp with
    | [], _ =>
      have : k + 1 < 1 := (List.getElem?_eq_some_iff.mp hz).1
      omega
    | b :: t, ⟨_, h2, h3⟩ =>
      cases k with
      | zero =>
        simp only [List.getElem?_cons_zero, Option.some_inj] at hy
        have hz' : z = b := by
          simpa using hz.symm
        subst hy
        subst hz'
        exact h2
      | succ k =>
        rw [List.getElem?_cons_succ] at hy
        rw [List.getElem?_cons_succ] at hz
        exact ih b w h3 k y z hy hz

theorem reconstruct_spec (dirs : List Pos) (grid : Grid) (rows cols : Int) (s : Pos)
    (visited : List Pos) (parent : List (Pos × Pos)) (D : Pos → Nat)
    (hDs : D s = 0) (hs : lookupParent parent s = none)
    (hchain : ∀ v ∈ visited, v ≠ s → ∃ u, lookupParent parent v = some u ∧ u ∈ visited
        ∧ stepOk dirs grid rows cols u v ∧ D v = D u + 1) :
    ∀ (n : Nat) (v : Pos), v ∈ visited → D v = n → ∀ (fuel : Nat), n ≤ fuel →
      ∀ acc, ∃ ch, reconstructPath parent s fuel v acc = ch ++ acc
        ∧ ch.length = n + 1 ∧ validPathG dirs grid rows cols s v ch := by
  intro n
  induction n with
  | zero =>
    intro v hv hD fuel _ acc
    have hvs : v = s := by
      by_contra hne
      obtain ⟨u, -, -, -, hDv⟩ := hchain v hv hne
      omega
    subst hvs
    refine ⟨[v], ?_, rfl, rfl, rfl⟩
    cases fuel with
    | zero => rfl
    | succ fuel =>
      rw [reconstructPath, hs]
      rfl
  | succ n ih =>
    intro v hv hD fuel hfuel acc
    have hne : v ≠ s := by
      intro he
      rw [he, hDs] at hD
      omega
    obtain ⟨u, hlook, huv, hstep, hDv⟩ := hchain v hv hne
    cases fuel with
    | zero => omega
    | succ fuel =>
      rw [reconstructPath, hlook]
      obtain ⟨ch, hch, hlen, hvalid⟩ := ih u huv (by omega) fuel (by omega) (v :: acc)
      show ∃ ch2, reconstructPath parent s fuel u (v :: acc) = ch2 ++ acc
        ∧ ch2.length = n + 1 + 1 ∧ validPathG dirs grid rows cols s v ch2
      refine ⟨ch ++ [v], ?_, ?_, ?_⟩
      · rw [hch]
        simp
      · rw [List.length_append, hlen]
        simp
      · exact validPathG_snoc dirs grid rows cols hstep ch s hvalid

theorem bfsExpand_spec (grid : Grid) (rows cols : Int) (cur : Pos) :
    ∀ (dirs : List Pos) (q v : List Pos) (par : List (Pos × Pos)),
      ∃ fresh : List Pos,
        dirs.foldl
          (fun st d =>
            let nb : Pos := (cur.1 + d.1, cur.2 + d.2)
            if openCell grid rows cols nb ∧ nb ∉ st.2.1 then
              (st.1 ++ [nb], nb :: st.2.1, (nb, cur) :: st.2.2)
            else st) (q, v, par)
          = (q ++ fresh, fresh.reverse ++ v,
              (fresh.reverse.map fun nb => (nb, cur)) ++ par)
        ∧ fresh.Nodup
        ∧ (∀ nb ∈ fresh, nb ∉ v ∧ openCell grid rows cols nb = true
            ∧ (nb.1 - cur.1, nb.2 - cur.2) ∈ dirs)
        ∧ (∀ d ∈ dirs, openCell grid rows cols (cur.1 + d.1, cur.2 + d.2) = true →
            (cur.1 + d.1, cur.2 + d.2) ∈ fresh.reverse ++ v) := by
  intro dirs
  induction dirs with
  | nil =>
    intro q v par
    exact ⟨[], by simp, List.nodup_nil, by simp, by simp⟩
  | cons d rest ih =>
    intro q v par
    rw [List.foldl_cons]
    by_cases hc : openCell grid rows cols (cur.1 + d.1, cur.2 + d.2) = true
        ∧ (cur.1 + d.1, cur.2 + d.2) ∉ v
    · rw [if_pos (by exact hc)]
      obtain ⟨fresh1, heq, hnd, hfr, hcomp⟩ := ih (q ++ [(cur.1 + d.1, cur.2 + d.2)])
        ((cur.1 + d.1, cur.2 + d.2) :: v) (((cur.1 + d.1, cur.2 + d.2), cur) :: par)
      refine ⟨(cur.1 + d.1, cur.2 + d.2) :: fresh1, ?_, ?_, ?_, ?_⟩
      · rw [heq]
        simp
      · rw [List.nodup_cons]
        refine ⟨fun hmem => ?_, hnd⟩
        exact (hfr _ hmem).1 (List.mem_cons_self _ _)
      · intro nb hnb
        rcases List.mem_cons.mp hnb with rfl | hnb
        · refine ⟨hc.2, hc.1, ?_⟩
          have h1 : cur.1 + d.1 - cur.1 = d.1 := by omega
          have h2 : cur.2 + d.2 - cur.2 = d.2 := by omega
          simp only [h1, h2]
          exact List.mem_cons_self _ _
        · obtain ⟨hnv, hop, hd⟩ := hfr nb hnb
          refine ⟨fun hmem => hnv (List.mem_cons_of_mem _ hmem), hop,
            List.mem_cons_of_mem _ hd⟩
      · intro d' hd' hop
        rcases List.mem_cons.mp hd' with rfl | hd'
        · simp [List.mem_append, List.mem_reverse]
        · have := hcomp d' hd' hop
          simp only [List.mem_append, List.mem_reverse, List.mem_cons] at this ⊢
          tauto
    · rw [if_neg hc]
      obtain ⟨fresh1, heq, hnd, hfr, hcomp⟩ := ih q v par
      refine ⟨fresh1, heq, hnd, ?_, ?_⟩
      · intro nb hnb
        obtain ⟨hnv, hop, hd⟩ := hfr nb hnb
        exact ⟨hnv, hop, List.mem_cons_of_mem _ hd⟩
      · intro d' hd' hop
        rcases List.mem_cons.mp hd' with rfl | hd'
        · rcases not_and_or.mp hc with h | h
          · exact absurd hop h
          · rw [not_not] at h
            simp only [List.mem_append, List.mem_reverse]
            exact Or.inr h
        · exact hcomp d' hd' hop

theorem bfsInv_preserve (grid : Grid) (rows cols : Int) (s : Pos)
    (cur : Pos) (rest visited : List Pos) (parent : List (Pos × Pos)) (D : Pos → Nat)
    (fresh : List Pos)
    (hinv : bfsInv grid rows cols s (cur :: rest) visited parent D)
    (hfr : ∀ nb ∈ fresh, nb ∉ visited ∧ openCell grid rows cols nb = true
        ∧ (nb.1 - cur.1, nb.2 - cur.2) ∈ directions4)
    (hcomp : ∀ nb, stepOk directions4 grid rows cols cur nb →
        nb ∈ fresh.reverse ++ visited) :
    bfsInv grid rows cols s (rest ++ fresh) (fresh.reverse ++ visited)
      ((fresh.reverse.map fun nb => (nb, cur)) ++ parent)
      (fun x => if x ∈ fresh then D cur + 1 else D x) := by
  obtain ⟨I1, hsvis, hDs, hslook, I3, I4, I5, I6, I8, I7⟩ := hinv
  have hfrnv : ∀ nb ∈ fresh, nb ∉ visited := fun nb h => (hfr nb h).1
  have hfreshstep : ∀ nb ∈ fresh, stepOk directions4 grid rows cols cur nb := by
    intro nb h
    exact ⟨(hfr nb h).2.2, (hfr nb h).2.1⟩
  have hcurvis : cur ∈ visited := I1 cur (List.mem_cons_self _ _)
  have hcurnf : cur ∉ fresh := fun h => hfrnv cur h hcurvis
  have hheadmin : ∀ b ∈ cur :: rest, D cur ≤ D b := by
    intro b hb
    rcases List.mem_cons.mp hb with rfl | hb
    · exact le_refl _
    · exact (List.pairwise_cons.mp I5).1 b hb
  have hmemv' : ∀ x ∈ visited, x ∈ fresh.reverse ++ visited :=
    fun x hx => List.mem_append_right _ hx
  have hfmem : ∀ x ∈ fresh, x ∈ fresh.reverse ++ visited :=
    fun x hx => List.mem_append_left _ (List.mem_reverse.mpr hx)
  have hDold : ∀ x, x ∈ visited → (if x ∈ fresh then D cur + 1 else D x) = D x := by
    intro x hx
    rw [if_neg (fun h => hfrnv x h hx)]
  refine ⟨?_, hmemv' s hsvis, ?_, ?_, ?_, ?_, ?_, ?_, ?_, ?_⟩
  · intro v hv
    rcases List.mem_append.mp hv with hv | hv
    · exact hmemv' v (I1 v (List.mem_cons_of_mem _ hv))
    · exact hfmem v hv
  · dsimp only
    rw [hDold s hsvis]
    exact hDs
  · rw [lookupParent_old _ cur parent s
      (fun h => hfrnv s (List.mem_reverse.mp h) hsvis)]
    exact hslook
  · intro v hv hvs
    rcases List.mem_append.mp hv with hv | hv
    · have hvf := List.mem_reverse.mp hv
      refine ⟨cur, lookupParent_new _ cur parent v hv, hmemv' cur hcurvis,
        hfreshstep v hvf, ?_⟩
      dsimp only
      rw [if_pos hvf, if_neg hcurnf]
    · obtain ⟨u, hlook, huv, hstep, hDv⟩ := I3 v hv hvs
      refine ⟨u, ?_, hmemv' u huv, hstep, ?_⟩
      · rw [lookupParent_old _ cur parent v
          (fun h => hfrnv v (List.mem_reverse.mp h) hv)]
        exact hlook
      · dsimp only
        rw [hDold v hv, hDold u huv]
        exact hDv
  · intro u hu hunq nb hstep
    rcases List.mem_append.mp hu with hu | hu
    · exact absurd (List.mem_append_right rest (List.mem_reverse.mp hu)) hunq
    · by_cases hq : u ∈ cur :: rest
      · rcases List.mem_cons.mp hq with rfl | hq
        · exact hcomp nb hstep
        · exact absurd (List.mem_append_left fresh hq) hunq
      · exact hmemv' nb (I4 u hu hq nb hstep)
  · rw [List.pairwise_append]
    refine ⟨?_, ?_, ?_⟩
    · refine List.Pairwise.imp_of_mem ?_ (List.pairwise_cons.mp I5).2
      intro a b ha hb hab
      dsimp only
      rw [hDold a (I1 a (List.mem_cons_of_mem _ ha)),
        hDold b (I1 b (List.mem_cons_of_mem _ hb))]
      exact hab
    · apply List.pairwise_iff_getElem.mpr
      intro i k hi hk hik
      dsimp only
      rw [if_pos (List.getElem_mem hi), if_pos (List.getElem_mem hk)]
    · intro a ha b hb
      dsimp only
      rw [hDold a (I1 a (List.mem_cons_of_mem _ ha)), if_pos hb]
      have := I6 a (I1 a (List.mem_cons_of_mem _ ha)) cur (List.mem_cons_self _ _)
      omega
  · intro a ha b hb
    dsimp only
    rcases List.mem_append.mp ha with haf | hav
    · rw [if_pos (List.mem_reverse.mp haf)]
      rcases List.mem_append.mp hb with hbr | hbf
      · rw [hDold b (I1 b (List.mem_cons_of_mem _ hbr))]
        have := hheadmin b (List.mem_cons_of_mem _ hbr)
        omega
      · rw [if_pos hbf]
        omega
    · rw [hDold a hav]
      rcases List.mem_append.mp hb with hbr | hbf
      · rw [hDold b (I1 b (List.mem_cons_of_mem _ hbr))]
        exact I6 a hav b (List.mem_cons_of_mem _ hbr)
      · rw [if_pos hbf]
        have := I6 a hav cur (List.mem_cons_self _ _)
        omega
  · intro v hv
    have hplen : ((fresh.reverse.map fun nb => (nb, cur)) ++ parent).length
        = fresh.length + parent.length := by
      rw [List.length_append, List.length_map, List.length_reverse]
    rcases List.mem_append.mp hv with hvf | hvv
    · dsimp only
      have hf := List.mem_reverse.mp hvf
      rw [if_pos hf, hplen]
      have h1 := I8 cur hcurvis
      have h2 : 0 < fresh.length := List.length_pos.mpr (List.ne_nil_of_mem hf)
      omega
    · dsimp only
      rw [hDold v hvv, hplen]
      have := I8 v hvv
      omega
  · intro w p hpath
    rcases I7 w p hpath with ⟨hwv, hDw⟩ | ⟨j, x, hj, hq, hDx, hsuf⟩
    · left
      refine ⟨hmemv' w hwv, ?_⟩
      dsimp only
      rw [hDold w hwv]
      exact hDw
    · obtain ⟨hjlen, hpj⟩ := List.getElem?_eq_some_iff.mp hj
      set v' := fresh.reverse ++ visited with hv'def
      have hQj : j < p.length ∧ p.getD j s ∈ v' := by
        refine ⟨hjlen, ?_⟩
        rw [List.getD_eq_getElem _ _ hjlen, hpj]
        exact hmemv' x (I1 x hq)
      have hQj2 : (fun k => k < p.length ∧ p.getD k s ∈ v')
          (Nat.findGreatest (fun k => k < p.length ∧ p.getD k s ∈ v') p.length) :=
        @Nat.findGreatest_spec j (fun k => k < p.length ∧ p.getD k s ∈ v') _ p.length
          (le_of_lt hjlen) hQj
      have hjj2 : j ≤ Nat.findGreatest (fun k => k < p.length ∧ p.getD k s ∈ v') p.length :=
        @Nat.le_findGreatest j (fun k => k < p.length ∧ p.getD k s ∈ v') _ p.length
          (le_of_lt hjlen) hQj
      have hmax : ∀ k2, Nat.findGreatest (fun k => k < p.length ∧ p.getD k s ∈ v') p.length < k2
          → k2 < p.length → p.getD k2 s ∉ v' := by
        intro k2 h1 h2 hmem
        exact @Nat.findGreatest_is_greatest k2 (fun k => k < p.length ∧ p.getD k s ∈ v') _
          p.length h1 (le_of_lt h2) ⟨h2, hmem⟩
      dsimp only at hQj2
      set j2 := Nat.findGreatest (fun k => k < p.length ∧ p.getD k s ∈ v') p.length
        with hj2def
      obtain ⟨hj2len, hy2mem⟩ := hQj2
      have hp2 : p[j2]? = some (p.getD j2 s) := by
        rw [List.getD_eq_getElem _ _ hj2len]
        exact List.getElem?_eq_getElem hj2len
      set y2 := p.getD j2 s with hy2def
      have hsuf2 : ∀ (k : Nat) (y : Pos), j2 < k → p[k]? = some y → y ∉ v' := by
        intro k y hk hpk hymem
        obtain ⟨hklen, hpky⟩ := List.getElem?_eq_some_iff.mp hpk
        apply hmax k hk hklen
        rw [List.getD_eq_getElem _ _ hklen, hpky]
        exact hymem
      have hlastidx : p[p.length - 1]? = some w :=
        validPathG_last directions4 grid rows cols p s w hpath
      rcases List.mem_append.mp hy2mem with hyf | hyold
      · have hyf' : y2 ∈ fresh := List.mem_reverse.mp hyf
        have hjlt : j < j2 := by
          rcases lt_or_eq_of_le hjj2 with h | h
          · exact h
          · exfalso
            rw [← h] at hp2
            rw [hj] at hp2
            exact hfrnv y2 hyf' ((Option.some_inj.mp hp2) ▸ I1 x hq)
        have hDcur : D cur + 1 ≤ j2 := by
          have h1 : D cur ≤ D x := hheadmin x hq
          omega
        by_cases hlast : j2 + 1 < p.length
        · right
          refine ⟨j2, y2, hp2, List.mem_append_right _ hyf', ?_, hsuf2⟩
          dsimp only
          rw [if_pos hyf']
          omega
        · left
          have hj2last : j2 = p.length - 1 := by omega
          have hy2w : y2 = w := by
            rw [← hj2last] at hlastidx
            rw [hp2] at hlastidx
            exact Option.some_inj.mp hlastidx
          refine ⟨hy2w ▸ hy2mem, ?_⟩
          dsimp only
          rw [if_pos (hy2w ▸ hyf' : w ∈ fresh)]
          omega
      · have hj2j : j2 = j := by
          by_contra hne
          exact hsuf j2 y2 (lt_of_le_of_ne hjj2 (Ne.symm hne)) hp2 hyold
        have hyx : y2 = x := by
          rw [hj2j] at hp2
          rw [hj] at hp2
          exact (Option.some_inj.mp hp2).symm
        have hDy2 : D y2 + 1 ≤ j2 + 1 := by
          rw [hyx, hj2j]
          exact hDx
        rcases List.mem_cons.mp hq with hxcur | hxrest
        · by_cases hlast : j2 + 1 < p.length
          · exfalso
            have hnb : p[j2 + 1]? = some (p.getD (j2 + 1) s) := by
              rw [List.getD_eq_getElem _ _ hlast]
              exact List.getElem?_eq_getElem hlast
            have hstep := validPathG_step directions4 grid rows cols p s w hpath j2 y2
              (p.getD (j2 + 1) s) hp2 hnb
            rw [hyx, hxcur] at hstep
            exact hmax (j2 + 1) (Nat.lt_succ_self j2) hlast (hcomp _ hstep)
          · left
            have hj2last : j2 = p.length - 1 := by omega
            have hy2w : y2 = w := by
              rw [← hj2last] at hlastidx
              rw [hp2] at hlastidx
              exact Option.some_inj.mp hlastidx
            rw [hy2w] at hDy2 hyold
            refine ⟨hmemv' w hyold, ?_⟩
            dsimp only
            rw [if_neg (fun h => hfrnv w h hyold)]
            omega
        · right
          refine ⟨j2, y2, hp2, List.mem_append_left _ (hyx ▸ hxrest), ?_, hsuf2⟩
          dsimp only
          rw [if_neg (fun h => hfrnv y2 h hyold)]
          exact hDy2

theorem bfsLoop_c5 (grid : Grid) (n m : Nat) (s e : Pos) :
    ∀ (fuel : Nat) (queue visited : List Pos) (parent : List (Pos × Pos)) (D : Pos → Nat),
      bfsInv grid (n : Int) (m : Int) s queue visited parent D →
      queue.length + cellsUnvis n m visited ≤ fuel →
      (∃ q, validPathG directions4 grid (n : Int) (m : Int) s e q) →
      (e ∉ visited ∨ e ∈ queue) →
      ∃ p, (bfsLoop grid (n : Int) (m : Int) s e fuel queue visited parent).getLast?
            = some (PathStep.path p)
        ∧ validPathG directions4 grid (n : Int) (m : Int) s e p
        ∧ ∀ q, validPathG directions4 grid (n : Int) (m : Int) s e q →
            p.length ≤ q.length := by
  intro fuel
  induction fuel with
  | zero =>
    intro queue visited parent D hinv hfuel hex hecond
    exfalso
    have hq : queue = [] := by
      have : queue.length = 0 := by omega
      exact List.length_eq_zero.mp this
    subst hq
    obtain ⟨q, hq⟩ := hex
    obtain ⟨I1, hsvis, hDs, hslook, I3, I4, I5, I6, I8, I7⟩ := hinv
    rcases I7 e q hq with ⟨hev, -⟩ | ⟨j, x, -, hx, -, -⟩
    · rcases hecond with h | h
      · exact h hev
      · cases h
    · cases hx
  | succ fuel ih =>
    intro queue visited parent D hinv hfuel hex hecond
    cases queue with
    | nil =>
      exfalso
      obtain ⟨q, hq⟩ := hex
      obtain ⟨I1, hsvis, hDs, hslook, I3, I4, I5, I6, I8, I7⟩ := hinv
      rcases I7 e q hq with ⟨hev, -⟩ | ⟨j, x, -, hx, -, -⟩
      · rcases hecond with h | h
        · exact h hev
        · cases h
      · cases hx
    | cons cur rest =>
      by_cases hce : cur = e
      · subst hce
        rw [bfsLoop, if_pos rfl]
        obtain ⟨I1, hsvis, hDs, hslook, I3, I4, I5, I6, I8, I7⟩ := hinv
        have hcurvis : cur ∈ visited := I1 cur (List.mem_cons_self _ _)
        obtain ⟨ch, hch, hlen, hvalid⟩ := reconstruct_spec directions4 grid (n : Int)
          (m : Int) s visited parent D hDs hslook I3 (D cur) cur hcurvis rfl
          (parent.length + 1) (by have := I8 cur hcurvis; omega) []
        rw [List.append_nil] at hch
        refine ⟨ch, ?_, hvalid, ?_⟩
        · rw [hch]
          simp
        · intro q hq
          have hqlast : q[q.length - 1]? = some cur :=
            validPathG_last directions4 grid (n : Int) (m : Int) q s cur hq
          rcases I7 cur q hq with ⟨-, hDe⟩ | ⟨j, x, hj, hx, hDx, hsuf⟩
          · omega
          · obtain ⟨hjlen, -⟩ := List.getElem?_eq_some_iff.mp hj
            by_cases hjl : j < q.length - 1
            · exact absurd hcurvis (hsuf (q.length - 1) cur hjl hqlast)
            · have hje : j = q.length - 1 := by omega
              rw [hje] at hj
              rw [hqlast] at hj
              have hxe : x = cur := Option.some_inj.mp hj.symm
              rw [hxe] at hDx
              omega
      · rw [bfsLoop, if_neg hce]
        dsimp only
        obtain ⟨fresh, heq, hnd, hfr, hcomp⟩ := bfsExpand_spec grid (n : Int) (m : Int)
          cur directions4 rest visited parent
        have hst : bfsExpand grid (n : Int) (m : Int) cur (rest, visited, parent)
            = (rest ++ fresh, fresh.reverse ++ visited,
                (fresh.reverse.map fun nb => (nb, cur)) ++ parent) := by
          rw [bfsExpand]
          exact heq
        rw [hst]
        dsimp only
        have hcomp' : ∀ nb, stepOk directions4 grid (n : Int) (m : Int) cur nb →
            nb ∈ fresh.reverse ++ visited := by
          intro nb hstep
          obtain ⟨hd, hopen⟩ := hstep
          have heqnb : ((cur.1 + (nb.1 - cur.1), cur.2 + (nb.2 - cur.2)) : Pos) = nb := by
            obtain ⟨a, b⟩ := nb
            simp only [Prod.mk.injEq]
            constructor <;> omega
          have hres := hcomp (nb.1 - cur.1, nb.2 - cur.2) hd (by rw [heqnb]; exact hopen)
          rw [heqnb] at hres
          exact hres
        have hinv' := bfsInv_preserve grid (n : Int) (m : Int) s cur rest visited parent
          D fresh hinv hfr hcomp'
        have hfresh_cell : ∀ x ∈ fresh, x ∉ visited ∧ x ∈ cellList n m := by
          intro x hx
          refine ⟨(hfr x hx).1, ?_⟩
          rw [mem_cellList]
          exact openCell_bounds grid (n : Int) (m : Int) x (hfr x hx).2.1
        have hmeasure := cellsUnvis_fresh n m fresh visited hnd hfresh_cell
        have hecond' : e ∉ fresh.reverse ++ visited ∨ e ∈ rest ++ fresh := by
          rcases hecond with h | h
          · by_cases hef : e ∈ fresh
            · exact Or.inr (List.mem_append_right _ hef)
            · left
              intro hmem
              rcases List.mem_append.mp hmem with hm | hm
              · exact hef (List.mem_reverse.mp hm)
              · exact h hm
          · rcases List.mem_cons.mp h with heqc | h
            · exact absurd heqc.symm hce
            · exact Or.inr (List.mem_append_left _ h)
        simp only [List.length_cons] at hfuel
        obtain ⟨p, hlast, hvalid, hmin⟩ := ih (rest ++ fresh) (fresh.reverse ++ visited)
          ((fresh.reverse.map fun nb => (nb, cur)) ++ parent)
          (fun x => if x ∈ fresh then D cur + 1 else D x)
          hinv'
          (by rw [List.length_append]; omega)
          hex hecond'
        refine ⟨p, ?_, hvalid, hmin⟩
        rw [← List.singleton_append, List.getLast?_append, hlast]
        rfl

theorem cellList_length (n m : Nat) : (cellList n m).length = n * m := by
  rw [cellList, List.length_flatMap]
  have h1 : List.map (List.length ∘ fun i => (List.range m).map
        fun j => ((Int.ofNat i, Int.ofNat j) : Pos)) (List.range n)
      = List.map (fun _ => m) (List.range n) := by
    apply List.map_congr_left
    intro a _
    simp [Function.comp]
  rw [h1]
  have h2 : ∀ (l : List Nat), (l.map fun _ => m).sum = l.length * m := by
    intro l
    induction l with
    | nil => simp
    | cons a t iht =>
      simp only [List.map_cons, List.sum_cons, iht, List.length_cons]
      ring
  rw [h2, List.length_range]

theorem bfsInv_init (grid : Grid) (rows cols : Int) (s : Pos) :
    bfsInv grid rows cols s [s] [s] [] (fun _ => 0) := by
  refine ⟨?_, List.mem_singleton.mpr rfl, rfl, rfl, ?_, ?_, List.pairwise_singleton _ _,
    ?_, ?_, ?_⟩
  · intro v hv
    exact hv
  · intro v hv hvs
    exact absurd (List.mem_singleton.mp hv) hvs
  · intro u hu hunq
    exact absurd hu hunq
  · intro a _ b _
    simp
  · intro v _
    simp
  · intro w p hpath
    right
    have hp0 : p[0]? = some s := validPathG_head directions4 grid rows cols s w p hpath
    obtain ⟨h0len, hp0'⟩ := List.getElem?_eq_some_iff.mp hp0
    have hQ0 : (fun k => k < p.length ∧ p.getD k s ∈ [s]) 0 := by
      refine ⟨h0len, ?_⟩
      rw [List.getD_eq_getElem _ _ h0len, hp0']
      exact List.mem_singleton.mpr rfl
    have hQj2 : (fun k => k < p.length ∧ p.getD k s ∈ [s])
        (Nat.findGreatest (fun k => k < p.length ∧ p.getD k s ∈ [s]) p.length) :=
      @Nat.findGreatest_spec 0 (fun k => k < p.length ∧ p.getD k s ∈ [s]) _ p.length
        (Nat.zero_le _) hQ0
    have hmax : ∀ k2, Nat.findGreatest (fun k => k < p.length ∧ p.getD k s ∈ [s])
        p.length < k2 → k2 < p.length → p.getD k2 s ∉ [s] := by
      intro k2 h1 h2 hmem
      exact @Nat.findGreatest_is_greatest k2 (fun k => k < p.length ∧ p.getD k s ∈ [s]) _
        p.length h1 (le_of_lt h2) ⟨h2, hmem⟩
    dsimp only at hQj2
    set j2 := Nat.findGreatest (fun k => k < p.length ∧ p.getD k s ∈ [s]) p.length
      with hj2def
    obtain ⟨hj2len, hy2⟩ := hQj2
    have hy2s : p.getD j2 s = s := List.mem_singleton.mp hy2
    refine ⟨j2, s, ?_, List.mem_singleton.mpr rfl, by simp, ?_⟩
    · rw [← hy2s, List.getD_eq_getElem _ _ hj2len]
      exact List.getElem?_eq_getElem hj2len
    · intro k y hk hpk hymem
      obtain ⟨hklen, hpky⟩ := List.getElem?_eq_some_iff.mp hpk
      apply hmax k hk hklen
      rw [List.getD_eq_getElem _ _ hklen, hpky]
      exact hymem

/-- C5: whenever an obstacle-free 4-directional path from start to end
exists, `bfs`'s last step is a `path` step carrying a valid path of
minimal cell count; and on the all-open 3×3 grid from `[0,0]` to
`[2,2]` the last step is a `path` step with exactly 5 cells. -/
theorem c5_bfs_shortest_path (grid : Grid) (s e : Pos)
    (hex : ∃ q, validPath4 grid s e q) :
    (∃ p, (bfs grid s e).getLast? = some (PathStep.path p)
        ∧ validPath4 grid s e p
        ∧ ∀ q, validPath4 grid s e q → p.length ≤ q.length)
      ∧ ∃ p3, (bfs [[0, 0, 0], [0, 0, 0], [0, 0, 0]] (0, 0) (2, 2)).getLast?
          = some (PathStep.path p3) ∧ p3.length = 5 := by
  constructor
  · have hmeas : ([s] : List Pos).length
        + cellsUnvis grid.length (grid.getD 0 []).length [s]
        ≤ grid.length * (grid.getD 0 []).length + 1 := by
      have h1 : cellsUnvis grid.length (grid.getD 0 []).length [s]
          ≤ grid.length * (grid.getD 0 []).length := by
        calc cellsUnvis grid.length (grid.getD 0 []).length [s]
            ≤ (cellList grid.length (grid.getD 0 []).length).toFinset.card :=
              Finset.card_filter_le _ _
          _ ≤ (cellList grid.length (grid.getD 0 []).length).length :=
              List.toFinset_card_le _
          _ = grid.length * (grid.getD 0 []).length := cellList_length _ _
      simp only [List.length_singleton]
      omega
    have hecond : e ∉ ([s] : List Pos) ∨ e ∈ ([s] : List Pos) := by
      by_cases he : e ∈ ([s] : List Pos)
      · exact Or.inr he
      · exact Or.inl he
    obtain ⟨p, h1, h2, h3⟩ := bfsLoop_c5 grid grid.length (grid.getD 0 []).length s e
      (grid.length * (grid.getD 0 []).length + 1) [s] [s] [] (fun _ => 0)
      (bfsInv_init grid _ _ s) hmeas hex hecond
    exact ⟨p, h1, h2, h3⟩
  · exact ⟨[(0, 0), (1, 0), (2, 0), (2, 1), (2, 2)], by decide, rfl⟩

/-- C5 witness: on the 1×1 open grid with start = end = `(0,0)`, a path
exists and `bfs` returns the one-cell path `[(0,0)]`, which is minimal. -/
theorem c5_bfs_shortest_path_witness :
    ((∃ p, (bfs [[0]] (0, 0) (0, 0)).getLast? = some (PathStep.path p)
        ∧ validPath4 [[0]] (0, 0) (0, 0) p
        ∧ ∀ q, validPath4 [[0]] (0, 0) (0, 0) q → p.length ≤ q.length)
      ∧ ∃ p3, (bfs [[0, 0, 0], [0, 0, 0], [0, 0, 0]] (0, 0) (2, 2)).getLast?
          = some (PathStep.path p3) ∧ p3.length = 5) :=
  c5_bfs_shortest_path [[0]] (0, 0) (0, 0) ⟨[(0, 0)], ⟨rfl, rfl⟩⟩

/-! ### C2: path cost optimality of `dijkstra` (and `aStar`'s failure) -/

theorem moveCost_ge_one (a b : Pos) : 1 ≤ moveCost a b := by
  rw [moveCost]
  split
  · exact le_refl 1
  · norm_num

theorem pathCost_nonneg : ∀ (l : List Pos), 0 ≤ pathCost l
  | [] => le_refl 0
  | [_] => le_refl 0
  | a :: b :: t => by
    have h1 := moveCost_ge_one a b
    have h2 := pathCost_nonneg (b :: t)
    show 0 ≤ moveCost a b + pathCost (b :: t)
    linarith

theorem pathCost_take_le : ∀ (l : List Pos) (j : Nat), pathCost (l.take j) ≤ pathCost l
  | [], j => by rw [List.take_nil]
  | [x], j => by
    cases j with
    | zero =>
      show (0 : ℚ) ≤ 0
      exact le_refl 0
    | succ j =>
      rw [List.take_succ_cons, List.take_nil]
  | a :: b :: t, 0 => by
    simp only [List.take_zero]
    exact pathCost_nonneg _
  | a :: b :: t, 1 => by
    rw [List.take_succ_cons, List.take_zero]
    have h1 := moveCost_ge_one a b
    have h2 := pathCost_nonneg (b :: t)
    show (0 : ℚ) ≤ moveCost a b + pathCost (b :: t)
    linarith
  | a :: b :: t, j + 2 => by
    rw [List.take_succ_cons, List.take_succ_cons]
    show moveCost a b + pathCost (b :: t.take j) ≤ moveCost a b + pathCost (b :: t)
    have hrec := pathCost_take_le (b :: t) (j + 1)
    rw [List.take_succ_cons] at hrec
    linarith

theorem validPathG_pathCost_snoc (dirs : List Pos) (grid : Grid) (rows cols : Int) :
    ∀ (c : List Pos) (s u v : Pos), validPathG dirs grid rows cols s u c →
      pathCost (c ++ [v]) = pathCost c + moveCost u v := by
  intro c
  induction c with
  | nil => intro s u v hp; cases hp
  | cons a rest ih =>
    intro s u v hp
    match rest, hp with
    | [], ⟨_, h2⟩ =>
      subst h2
      show moveCost a v + 0 = 0 + moveCost a v
      ring
    | b :: t, ⟨_, _, h3⟩ =>
      have hbt := ih b u v h3
      show moveCost a b + pathCost ((b :: t) ++ [v])
        = moveCost a b + pathCost (b :: t) + moveCost u v
      rw [hbt]
      ring

theorem pathCost_append_singleton :
    ∀ (c : List Pos) (u v : Pos), c.getLast? = some u →
      pathCost (c ++ [v]) = pathCost c + moveCost u v := by
  intro c
  induction c with
  | nil => intro u v h; cases h
  | cons a rest ih =>
    intro u v h
    match rest with
    | [] =>
      rw [List.getLast?_singleton, Option.some_inj] at h
      subst h
      show moveCost a v + 0 = 0 + moveCost a v
      ring
    | b :: t =>
      rw [List.getLast?_cons_cons] at h
      have hbt := ih u v h
      show moveCost a b + pathCost ((b :: t) ++ [v])
        = moveCost a b + pathCost (b :: t) + moveCost u v
      rw [hbt]
      ring

theorem pathCost_take_succ (q : List Pos) (k : Nat) (y z : Pos)
    (hy : q[k]? = some y) (hz : q[k + 1]? = some z) :
    pathCost (q.take (k + 2)) = pathCost (q.take (k + 1)) + moveCost y z := by
  have h1 : q.take (k + 2) = q.take (k + 1) ++ [z] := by
    rw [List.take_succ, hz]
    rfl
  have h0 : q.take (k + 1) = q.take k ++ [y] := by
    rw [List.take_succ, hy]
    rfl
  rw [h1, pathCost_append_singleton _ y z (by rw [h0, List.getLast?_concat])]

theorem ltInf_irrefl (a : Option ℚ) : ltInf a a = false := by
  cases a with
  | none => rfl
  | some x => simp [ltInf]

theorem ltInf_asymm (a b : Option ℚ) (h : ltInf a b = true) : ltInf b a = false := by
  cases a with
  | none => cases h
  | some x =>
    cases b with
    | none => rfl
    | some y =>
      simp only [ltInf, decide_eq_true_eq] at h
      simp only [ltInf, decide_eq_false_iff_not]
      linarith

theorem ltInf_le_trans (a b c : Option ℚ) (h1 : ltInf a b = false) (h2 : ltInf b c = false) :
    ltInf a c = false := by
  cases a with
  | none => rfl
  | some x =>
    cases b with
    | none => exact absurd h1 (by simp [ltInf])
    | some y =>
      cases c with
      | none => exact absurd h2 (by simp [ltInf])
      | some z =>
        simp only [ltInf, decide_eq_false_iff_not] at h1 h2 ⊢
        linarith

theorem directions8_facts (cur : Pos) :
    ∀ dc ∈ directions8,
      (((cur.1 + dc.1.1) - cur.1, (cur.2 + dc.1.2) - cur.2) : Pos) ∈ dirs8
        ∧ ((cur.1 + dc.1.1, cur.2 + dc.1.2) : Pos) ≠ cur
        ∧ dc.2 = moveCost cur (cur.1 + dc.1.1, cur.2 + dc.1.2) := by
  intro dc hdc
  fin_cases hdc <;>
    refine ⟨by simp only [add_sub_cancel_left]; decide, fun h => ?_, ?_⟩ <;>
    first
      | (rw [Prod.ext_iff] at h; dsimp only at h; omega)
      | (dsimp only; rw [moveCost, if_pos (by omega)])
      | (dsimp only; rw [moveCost, if_neg (by omega)])

theorem lookupParent_head (p u : Pos) (rest : List (Pos × Pos)) :
    lookupParent ((p, u) :: rest) p = some u := by
  rw [lookupParent, List.find?_cons_of_pos _ (by simp)]
  rfl

theorem lookupParent_cons_ne (q u : Pos) (rest : List (Pos × Pos)) (p : Pos) (h : q ≠ p) :
    lookupParent ((q, u) :: rest) p = lookupParent rest p := by
  rw [lookupParent, List.find?_cons_of_neg _ (by simp [h])]
  rfl

theorem dijkstraRelax_go (grid : Grid) (rows cols : Int) (cur : Pos)
    (f : ((Pos → Option ℚ) × List (Pos × Pos)) → (Pos × ℚ)
      → ((Pos → Option ℚ) × List (Pos × Pos)))
    (hf : ∀ st dc, f st dc =
      if openCell grid rows cols (cur.1 + dc.1.1, cur.2 + dc.1.2) then
        (if ltInf (addInf (st.1 cur) dc.2) (st.1 (cur.1 + dc.1.1, cur.2 + dc.1.2)) then
          (setMap st.1 (cur.1 + dc.1.1, cur.2 + dc.1.2) (addInf (st.1 cur) dc.2),
            ((cur.1 + dc.1.1, cur.2 + dc.1.2), cur) :: st.2)
        else st)
      else st) :
    ∀ (dirs : List (Pos × ℚ)),
      (∀ dc ∈ dirs,
        (((cur.1 + dc.1.1) - cur.1, (cur.2 + dc.1.2) - cur.2) : Pos) ∈ dirs8
          ∧ ((cur.1 + dc.1.1, cur.2 + dc.1.2) : Pos) ≠ cur
          ∧ dc.2 = moveCost cur (cur.1 + dc.1.1, cur.2 + dc.1.2)) →
      ∀ (st : (Pos → Option ℚ) × List (Pos × Pos)),
      (∀ p : Pos,
        ((dirs.foldl f st).1 p = st.1 p
          ∧ lookupParent (dirs.foldl f st).2 p = lookupParent st.2 p)
        ∨ (stepOk dirs8 grid rows cols cur p
            ∧ (dirs.foldl f st).1 p = addInf (st.1 cur) (moveCost cur p)
            ∧ ltInf (addInf (st.1 cur) (moveCost cur p)) (st.1 p) = true
            ∧ lookupParent (dirs.foldl f st).2 p = some cur))
      ∧ (∀ dc ∈ dirs, openCell grid rows cols (cur.1 + dc.1.1, cur.2 + dc.1.2) = true →
          ltInf (addInf (st.1 cur) dc.2)
            ((dirs.foldl f st).1 (cur.1 + dc.1.1, cur.2 + dc.1.2)) = false)
      ∧ (∀ pr ∈ st.2, pr ∈ (dirs.foldl f st).2)
      ∧ (dirs.foldl f st).1 cur = st.1 cur := by
  intro dirs
  induction dirs with
  | nil =>
    intro _ st
    exact ⟨fun p => Or.inl ⟨rfl, rfl⟩, by simp, fun pr hpr => hpr, rfl⟩
  | cons dc rest ih =>
    intro hdirs st
    obtain ⟨hmem8, hne, hcost⟩ := hdirs dc (List.mem_cons_self _ _)
    have hdirs2 := fun d hd => hdirs d (List.mem_cons_of_mem _ hd)
    rw [List.foldl_cons, hf st dc]
    by_cases hopen : openCell grid rows cols (cur.1 + dc.1.1, cur.2 + dc.1.2) = true
    · by_cases hfire : ltInf (addInf (st.1 cur) dc.2)
          (st.1 (cur.1 + dc.1.1, cur.2 + dc.1.2)) = true
      · rw [if_pos hopen, if_pos hfire]
        set st' := (setMap st.1 (cur.1 + dc.1.1, cur.2 + dc.1.2) (addInf (st.1 cur) dc.2),
          ((cur.1 + dc.1.1, cur.2 + dc.1.2), cur) :: st.2) with hst'
        obtain ⟨R1, R2, R3, R4⟩ := ih hdirs2 st'
        have hcur' : st'.1 cur = st.1 cur := by
          rw [hst']
          dsimp only
          rw [setMap, if_neg (fun h => hne h.symm)]
        have hnb' : st'.1 (cur.1 + dc.1.1, cur.2 + dc.1.2) = addInf (st.1 cur) dc.2 := by
          rw [hst']
          dsimp only
          rw [setMap, if_pos rfl]
        refine ⟨?_, ?_, ?_, ?_⟩
        · intro p
          by_cases hp : p = (cur.1 + dc.1.1, cur.2 + dc.1.2)
          · right
            rw [hp]
            refine ⟨⟨hmem8, hopen⟩, ?_, ?_, ?_⟩
            · rcases R1 (cur.1 + dc.1.1, cur.2 + dc.1.2) with ⟨h1, -⟩ | ⟨-, h1, -, -⟩
              · rw [h1, hnb', hcost]
              · rw [h1, hcur']
            · rw [← hcost]
              exact hfire
            · rcases R1 (cur.1 + dc.1.1, cur.2 + dc.1.2) with ⟨-, h2⟩ | ⟨-, -, -, h2⟩
              · rw [h2, hst']
                exact lookupParent_head _ _ _
              · exact h2
          · have hstp : st'.1 p = st.1 p := by
              rw [hst']
              dsimp only
              rw [setMap, if_neg hp]
            have hstl : lookupParent st'.2 p = lookupParent st.2 p := by
              rw [hst']
              exact lookupParent_cons_ne _ _ _ _ (fun h => hp h.symm)
            rcases R1 p with ⟨h1, h2⟩ | ⟨hs1, h1, h2, h3⟩
            · exact Or.inl ⟨by rw [h1, hstp], by rw [h2, hstl]⟩
            · right
              refine ⟨hs1, ?_, ?_, h3⟩
              · rw [h1, hcur']
              · rw [← hstp, ← hcur']
                exact h2
        · intro d hd hod
          rcases List.mem_cons.mp hd with heqd | hd
          · subst heqd
            have hval : (rest.foldl f st').1 (cur.1 + d.1.1, cur.2 + d.1.2)
                = addInf (st.1 cur) d.2 := by
              rcases R1 (cur.1 + d.1.1, cur.2 + d.1.2) with ⟨h1, -⟩ | ⟨-, h1, -, -⟩
              · rw [h1, hnb']
              · rw [h1, hcur', hcost]
            rw [hval]
            exact ltInf_irrefl _
          · have hb := R2 d hd hod
            rw [hcur'] at hb
            exact hb
        · intro pr hpr
          exact R3 pr (by rw [hst']; exact List.mem_cons_of_mem _ hpr)
        · rw [R4, hcur']
      · rw [if_pos hopen, if_neg hfire]
        obtain ⟨R1, R2, R3, R4⟩ := ih hdirs2 st
        refine ⟨R1, ?_, R3, R4⟩
        intro d hd hod
        rcases List.mem_cons.mp hd with heqd | hd
        · subst heqd
          rcases R1 (cur.1 + d.1.1, cur.2 + d.1.2) with ⟨h1, -⟩ | ⟨-, h1, -, -⟩
          · rw [h1]
            exact Bool.eq_false_iff.mpr (fun h => hfire h)
          · rw [h1, hcost]
            exact ltInf_irrefl _
        · exact R2 d hd hod
    · rw [if_neg hopen]
      obtain ⟨R1, R2, R3, R4⟩ := ih hdirs2 st
      refine ⟨R1, ?_, R3, R4⟩
      intro d hd hod
      rcases List.mem_cons.mp hd with heqd | hd
      · subst heqd
        exact absurd hod hopen
      · exact R2 d hd hod

theorem dijkstraRelax_spec (grid : Grid) (rows cols : Int) (cur : Pos)
    (st : (Pos → Option ℚ) × List (Pos × Pos)) :
    (∀ p : Pos,
      ((dijkstraRelax grid rows cols cur st).1 p = st.1 p
        ∧ lookupParent (dijkstraRelax grid rows cols cur st).2 p = lookupParent st.2 p)
      ∨ (stepOk dirs8 grid rows cols cur p
          ∧ (dijkstraRelax grid rows cols cur st).1 p
              = addInf (st.1 cur) (moveCost cur p)
          ∧ ltInf (addInf (st.1 cur) (moveCost cur p)) (st.1 p) = true
          ∧ lookupParent (dijkstraRelax grid rows cols cur st).2 p = some cur))
    ∧ (∀ nb : Pos, stepOk dirs8 grid rows cols cur nb →
        ltInf (addInf (st.1 cur) (moveCost cur nb))
          ((dijkstraRelax grid rows cols cur st).1 nb) = false)
    ∧ (∀ pr ∈ st.2, pr ∈ (dijkstraRelax grid rows cols cur st).2)
    ∧ (dijkstraRelax grid rows cols cur st).1 cur = st.1 cur := by
  have h := dijkstraRelax_go grid rows cols cur
    (fun st dc =>
      let nb : Pos := (cur.1 + dc.1.1, cur.2 + dc.1.2)
      if openCell grid rows cols nb then
        let newDist := addInf (st.1 cur) dc.2
        if ltInf newDist (st.1 nb) then (setMap st.1 nb newDist, (nb, cur) :: st.2)
        else st
      else st)
    (fun _ _ => rfl) directions8 (directions8_facts cur) st
  obtain ⟨R1, R2, R3, R4⟩ := h
  refine ⟨R1, ?_, R3, R4⟩
  intro nb hstep
  obtain ⟨hd8, hopen⟩ := hstep
  rw [dirs8, List.mem_map] at hd8
  obtain ⟨d8, hd8mem, hd8eq⟩ := hd8
  have hnb : nb = (cur.1 + ((nb.1 - cur.1, nb.2 - cur.2) : Pos).1,
      cur.2 + ((nb.1 - cur.1, nb.2 - cur.2) : Pos).2) := by
    obtain ⟨a, b⟩ := nb
    simp only [Prod.mk.injEq]
    constructor <;> omega
  obtain ⟨dcpair, hdcmem, hdceq⟩ : ∃ dc ∈ directions8,
      dc.1 = ((nb.1 - cur.1, nb.2 - cur.2) : Pos) := by
    refine ⟨d8, hd8mem, ?_⟩
    rw [hd8eq]
  have hcost := (directions8_facts cur dcpair hdcmem).2.2
  have hnb2 : (cur.1 + dcpair.1.1, cur.2 + dcpair.1.2) = nb := by
    rw [hdceq]
    exact hnb.symm
  have hres := R2 dcpair hdcmem (by rw [hnb2]; exact hopen)
  rw [hnb2] at hres
  rw [hcost, hnb2] at hres
  exact hres

theorem dijkstraScan_go (dist : Pos → Option ℚ) (visited : List Pos)
    (f : (Option Pos × Option ℚ) → Pos → (Option Pos × Option ℚ))
    (hf : ∀ acc p, f acc p =
      if p ∉ visited ∧ ltInf (dist p) acc.2 = true then (some p, dist p) else acc) :
    ∀ (cells : List Pos) (acc : Option Pos × Option ℚ),
      ltInf acc.2 ((cells.foldl f acc).2) = false
      ∧ (∀ q, (cells.foldl f acc).1 = some q →
          ((cells.foldl f acc) = acc ∧ acc.1 = some q)
          ∨ (q ∈ cells ∧ q ∉ visited ∧ (cells.foldl f acc).2 = dist q
              ∧ ∃ y, dist q = some y))
      ∧ ((cells.foldl f acc).1 = none →
          acc.1 = none ∧ (acc.2 = none → ∀ p ∈ cells, p ∉ visited → dist p = none))
      ∧ (∀ p ∈ cells, p ∉ visited → ltInf (dist p) ((cells.foldl f acc).2) = false) := by
  intro cells
  induction cells with
  | nil =>
    intro acc
    exact ⟨ltInf_irrefl _, fun q hq => Or.inl ⟨rfl, hq⟩,
      fun h => ⟨h, fun _ p hp => absurd hp (List.not_mem_nil p)⟩,
      fun p hp => absurd hp (List.not_mem_nil p)⟩
  | cons p rest ih =>
    intro acc
    rw [List.foldl_cons, hf acc p]
    by_cases hfire : p ∉ visited ∧ ltInf (dist p) acc.2 = true
    · rw [if_pos hfire]
      obtain ⟨mono, found, nonec, minc⟩ := ih (some p, dist p)
      have hfin : ∃ y, dist p = some y := by
        rcases hdp : dist p with - | y
        · rw [hdp] at hfire
          cases acc.2 with
          | none => cases hfire.2
          | some z => cases hfire.2
        · exact ⟨y, rfl⟩
      refine ⟨?_, ?_, ?_, ?_⟩
      · exact ltInf_le_trans _ _ _ (ltInf_asymm _ _ hfire.2) mono
      · intro q hq
        rcases found q hq with ⟨h1, h2⟩ | ⟨h1, h2, h3, h4⟩
        · right
          rw [h1]
          simp only [Option.some_inj] at h2
          subst h2
          exact ⟨List.mem_cons_self _ _, hfire.1, rfl, hfin⟩
        · exact Or.inr ⟨List.mem_cons_of_mem _ h1, h2, h3, h4⟩
      · intro h
        obtain ⟨h1, -⟩ := nonec h
        cases h1
      · intro q hq hqv
        rcases List.mem_cons.mp hq with heq | hq
        · subst heq
          exact ltInf_le_trans _ _ _ (by dsimp only; exact ltInf_irrefl _) mono
        · exact minc q hq hqv
    · rw [if_neg hfire]
      obtain ⟨mono, found, nonec, minc⟩ := ih acc
      refine ⟨mono, ?_, ?_, ?_⟩
      · intro q hq
        rcases found q hq with ⟨h1, h2⟩ | ⟨h1, h2, h3, h4⟩
        · exact Or.inl ⟨h1, h2⟩
        · exact Or.inr ⟨List.mem_cons_of_mem _ h1, h2, h3, h4⟩
      · intro h
        obtain ⟨h1, h2⟩ := nonec h
        refine ⟨h1, fun hacc2 => ?_⟩
        intro q hq hqv
        rcases List.mem_cons.mp hq with heq | hq
        · subst heq
          rcases hdq : dist q with - | y
          · rfl
          · exfalso
            apply hfire
            refine ⟨hqv, ?_⟩
            rw [hacc2, hdq]
            rfl
        · exact h2 hacc2 q hq hqv
      · intro q hq hqv
        rcases List.mem_cons.mp hq with heq | hq
        · subst heq
          have hnf : ltInf (dist q) acc.2 = false := by
            rcases hlt : ltInf (dist q) acc.2 with - | -
            · rfl
            · exact absurd ⟨hqv, hlt⟩ hfire
          exact ltInf_le_trans _ _ _ hnf mono
        · exact minc q hq hqv

theorem dijkstraScan_spec (dist : Pos → Option ℚ) (visited : List Pos) (n m : Nat) :
    (∀ cur, (dijkstraScan dist visited n m).1 = some cur →
        cur ∈ cellList n m ∧ cur ∉ visited
          ∧ (dijkstraScan dist visited n m).2 = dist cur ∧ ∃ y, dist cur = some y)
    ∧ ((dijkstraScan dist visited n m).1 = none →
        ∀ p ∈ cellList n m, p ∉ visited → dist p = none)
    ∧ (∀ p ∈ cellList n m, p ∉ visited →
        ltInf (dist p) ((dijkstraScan dist visited n m).2) = false) := by
  have h := dijkstraScan_go dist visited
    (fun acc p => if p ∉ visited ∧ ltInf (dist p) acc.2 then (some p, dist p) else acc)
    (fun _ _ => rfl) (cellList n m) (none, none)
  obtain ⟨mono, found, nonec, minc⟩ := h
  refine ⟨?_, ?_, minc⟩
  · intro cur hcur
    rcases found cur hcur with ⟨h1, h2⟩ | ⟨h1, h2, h3, h4⟩
    · cases h2
    · exact ⟨h1, h2, h3, h4⟩
  · intro h
    obtain ⟨-, h2⟩ := nonec h
    exact h2 rfl

/-- Dijkstra path reconstruction: under the chain invariant maintained
by the loop, `reconstructPath` with fuel exceeding the number of parent
keys whose tentative distance is at most `x` produces a valid path from
`s` to `cur` of weighted cost at most `x`.  Along the chain the
tentative distance drops by at least `1` per hop, so the measured key
set strictly shrinks. -/
theorem dijkstra_reconstruct (grid : Grid) (rows cols : Int) (s : Pos)
    (dist : Pos → Option ℚ) (parent : List (Pos × Pos))
    (hJ1 : dist s = some 0)
    (hJ2 : lookupParent parent s = none)
    (hCH : ∀ v x, dist v = some x → v ≠ s →
      ∃ u y, lookupParent parent v = some u ∧ dist u = some y
        ∧ stepOk dirs8 grid rows cols u v ∧ y + moveCost u v ≤ x) :
    ∀ (fuel : Nat) (cur : Pos) (x : ℚ), dist cur = some x →
      ((parent.map Prod.fst).toFinset.filter
          (fun w => ltInf (some x) (dist w) = false)).card < fuel →
      ∃ c, (∀ acc, reconstructPath parent s fuel cur acc = c ++ acc)
        ∧ validPathG dirs8 grid rows cols s cur c
        ∧ pathCost c ≤ x := by
  intro fuel
  induction fuel with
  | zero => intro cur x hx hcard; omega
  | succ fuel ih =>
    intro cur x hx hcard
    by_cases hcs : cur = s
    · subst hcs
      rw [hJ1, Option.some_inj] at hx
      refine ⟨[cur], fun acc => ?_, validPathG_single _ _ _ _ _, ?_⟩
      · rw [reconstructPath, hJ2]
        rfl
      · rw [← hx]
        show (0 : ℚ) ≤ 0
        exact le_refl 0
    · obtain ⟨u, y, hlook, hy, hstep, hyx⟩ := hCH cur x hx hcs
      have hyltx : y < x := by
        have := moveCost_ge_one u cur
        linarith
      have hcurkey : cur ∈ parent.map Prod.fst := by
        rw [lookupParent] at hlook
        rcases hfind : parent.find? (fun q => q.1 = cur) with - | pr
        · rw [hfind] at hlook
          cases hlook
        · have hm := List.mem_of_find?_eq_some hfind
          have hp := List.find?_some hfind
          simp only [decide_eq_true_eq] at hp
          exact List.mem_map.mpr ⟨pr, hm, hp⟩
      have hsub : ((parent.map Prod.fst).toFinset.filter
            (fun w => ltInf (some y) (dist w) = false))
          ⊆ ((parent.map Prod.fst).toFinset.filter
            (fun w => ltInf (some x) (dist w) = false)) := by
        intro w hw
        rw [Finset.mem_filter] at hw ⊢
        refine ⟨hw.1, ltInf_le_trans _ _ _ ?_ hw.2⟩
        show ltInf (some x) (some y) = false
        simp only [ltInf, decide_eq_false_iff_not, not_lt]
        linarith
      have hcur_in : cur ∈ (parent.map Prod.fst).toFinset.filter
          (fun w => ltInf (some x) (dist w) = false) := by
        rw [Finset.mem_filter]
        refine ⟨List.mem_toFinset.mpr hcurkey, ?_⟩
        rw [hx]
        exact ltInf_irrefl _
      have hcur_out : cur ∉ (parent.map Prod.fst).toFinset.filter
          (fun w => ltInf (some y) (dist w) = false) := by
        rw [Finset.mem_filter]
        rintro ⟨-, h2⟩
        rw [hx] at h2
        simp only [ltInf, decide_eq_false_iff_not, not_lt] at h2
        linarith
      have hlt := Finset.card_lt_card
        ((Finset.ssubset_iff_of_subset hsub).mpr ⟨cur, hcur_in, hcur_out⟩)
      obtain ⟨c, hc, hvalid, hcost⟩ := ih u y hy (by omega)
      refine ⟨c ++ [cur], ?_, validPathG_snoc _ _ _ _ hstep c s hvalid, ?_⟩
      · intro acc
        rw [reconstructPath, hlook]
        show reconstructPath parent s fuel u (cur :: acc) = (c ++ [cur]) ++ acc
        rw [hc (cur :: acc)]
        simp
      · rw [validPathG_pathCost_snoc dirs8 grid rows cols c s u cur hvalid]
        have := moveCost_ge_one u cur
        linarith

theorem addInf_some (y c : ℚ) : addInf (some y) c = some (y + c) := rfl

theorem ltInf_finite_le (b : ℚ) : ∀ (o : Option ℚ), ltInf (some b) o = false →
    ∃ v, o = some v ∧ v ≤ b
  | none, h => by simp [ltInf] at h
  | some v, h => ⟨v, rfl, by
      simp only [ltInf, decide_eq_false_iff_not, not_lt] at h
      exact h⟩

theorem ltInf_of_le (a b : ℚ) (h : b ≤ a) : ltInf (some a) (some b) = false := by
  simp only [ltInf, decide_eq_false_iff_not, not_lt]
  exact h

theorem le_of_ltInf_false (a b : ℚ) (h : ltInf (some a) (some b) = false) : b ≤ a := by
  simp only [ltInf, decide_eq_false_iff_not, not_lt] at h
  exact h

theorem pathCost_take_one : ∀ (q : List Pos), pathCost (q.take 1) = 0
  | [] => rfl
  | _ :: _ => rfl

/-- A Nodup list of cells avoiding at least one grid cell is strictly
shorter than the full cell count. -/
theorem visited_lt_cells (n m : Nat) (visited : List Pos) (z : Pos)
    (hnd : visited.Nodup) (hsub : ∀ u ∈ visited, u ∈ cellList n m)
    (hz : z ∈ cellList n m) (hzv : z ∉ visited) :
    visited.length < n * m := by
  have h1 : visited.toFinset ⊆ (cellList n m).toFinset.erase z := by
    intro u hu
    rw [List.mem_toFinset] at hu
    rw [Finset.mem_erase]
    exact ⟨fun he => hzv (he ▸ hu), List.mem_toFinset.mpr (hsub u hu)⟩
  have h2 : visited.toFinset.card ≤ ((cellList n m).toFinset.erase z).card :=
    Finset.card_le_card h1
  have h3 : ((cellList n m).toFinset.erase z).card + 1 = (cellList n m).toFinset.card :=
    Finset.card_erase_add_one (List.mem_toFinset.mpr hz)
  have h4 : visited.toFinset.card = visited.length := List.toFinset_card_of_nodup hnd
  have h5 : (cellList n m).toFinset.card ≤ (cellList n m).length :=
    List.toFinset_card_le _
  have h6 := cellList_length n m
  omega

/-- The greatest index at which a given value occurs in a list. -/
theorem greatest_occurrence (q : List Pos) (cur : Pos) (k0 : Nat)
    (hk0 : q[k0]? = some cur) :
    ∃ jc, q[jc]? = some cur ∧ k0 ≤ jc ∧ jc < q.length
      ∧ ∀ k, jc < k → q[k]? ≠ some cur := by
  have hk0len : k0 < q.length := (List.getElem?_eq_some_iff.mp hk0).1
  have hk0le : k0 ≤ q.length - 1 := by omega
  have hle := @Nat.findGreatest_le (fun k => q[k]? = some cur) _ (q.length - 1)
  refine ⟨Nat.findGreatest (fun k => q[k]? = some cur) (q.length - 1), ?_, ?_, ?_, ?_⟩
  · exact @Nat.findGreatest_spec k0 (fun k => q[k]? = some cur) _ (q.length - 1) hk0le hk0
  · exact Nat.le_findGreatest hk0le hk0
  · omega
  · intro k h1 h2
    by_cases hk : k ≤ q.length - 1
    · exact Nat.findGreatest_is_greatest h1 hk h2
    · have := (List.getElem?_eq_some_iff.mp h2).1
      omega

/-- Main correctness lemma for `dijkstraLoop`: under the loop's
invariants (start distance `0` and unparented, chain inequality,
nonnegative finite distances, Nodup in-bounds visited set, enough fuel,
and for every valid path a not-yet-visited frontier vertex whose
tentative distance is at most the cost of the path prefix reaching it,
with the whole path suffix after it unvisited), the loop ends in a
`path` step carrying a valid path of minimal weighted cost. -/
theorem dijkstraLoop_c2 (grid : Grid) (s e : Pos) (n m : Nat) :
    ∀ (fuel : Nat) (dist : Pos → Option ℚ) (visited : List Pos)
      (parent : List (Pos × Pos)),
      dist s = some 0 →
      lookupParent parent s = none →
      (∀ v x, dist v = some x → v ≠ s →
        ∃ u y, lookupParent parent v = some u ∧ dist u = some y
          ∧ stepOk dirs8 grid (n : Int) (m : Int) u v ∧ y + moveCost u v ≤ x) →
      (∀ v x, dist v = some x → 0 ≤ x) →
      visited.Nodup →
      (∀ u ∈ visited, u ∈ cellList n m) →
      n * m ≤ fuel + visited.length →
      (∀ q, validPathG dirs8 grid (n : Int) (m : Int) s e q →
        ∃ j z, q[j]? = some z ∧ z ∉ visited
          ∧ openCell grid (n : Int) (m : Int) z = true
          ∧ ltInf (some (pathCost (q.take (j + 1)))) (dist z) = false
          ∧ ∀ k w, j < k → q[k]? = some w → w ∉ visited) →
      (∃ q0, validPathG dirs8 grid (n : Int) (m : Int) s e q0) →
      ∃ p, (dijkstraLoop grid s e n m fuel dist visited parent).getLast?
            = some (PathStep.path p)
        ∧ validPathG dirs8 grid (n : Int) (m : Int) s e p
        ∧ ∀ q, validPathG dirs8 grid (n : Int) (m : Int) s e q →
            pathCost p ≤ pathCost q := by
  intro fuel
  induction fuel with
  | zero =>
    intro dist visited parent hJ1 hJ2 hCH hJ4 hnd hsub hfuel hF hex
    exfalso
    obtain ⟨q0, hq0⟩ := hex
    obtain ⟨j, z, hj, hzv, hzopen, -, -⟩ := hF q0 hq0
    have hzc : z ∈ cellList n m :=
      (mem_cellList n m z).mpr (openCell_bounds _ _ _ _ hzopen)
    have := visited_lt_cells n m visited z hnd hsub hzc hzv
    omega
  | succ fuel ih =>
    intro dist visited parent hJ1 hJ2 hCH hJ4 hnd hsub hfuel hF hex
    obtain ⟨q0, hq0⟩ := hex
    obtain ⟨j0, z0, hj0, hz0v, hz0open, hz0d, hsuf0⟩ := hF q0 hq0
    have hz0c : z0 ∈ cellList n m :=
      (mem_cellList n m z0).mpr (openCell_bounds _ _ _ _ hz0open)
    have hguard : visited.length < n * m :=
      visited_lt_cells n m visited z0 hnd hsub hz0c hz0v
    obtain ⟨sfound, snone, smin⟩ := dijkstraScan_spec dist visited n m
    rcases hscan : (dijkstraScan dist visited n m).1 with - | cur
    · exfalso
      have hzn := snone hscan z0 hz0c hz0v
      rw [hzn] at hz0d
      simp [ltInf] at hz0d
    · obtain ⟨hcurc, hcurv, hacc, y, hy⟩ := sfound cur hscan
      rw [hacc] at smin
      rw [dijkstraLoop, if_pos hguard, hscan]
      dsimp only
      by_cases hce : cur = e
      · subst hce
        rw [if_pos rfl]
        have hmeas : ((parent.map Prod.fst).toFinset.filter
            (fun w => ltInf (some y) (dist w) = false)).card < parent.length + 1 := by
          have h1 := Finset.card_filter_le (parent.map Prod.fst).toFinset
            (fun w => ltInf (some y) (dist w) = false)
          have h2 := List.toFinset_card_le (parent.map Prod.fst)
          rw [List.length_map] at h2
          omega
        obtain ⟨c, hc, hcvalid, hccost⟩ := dijkstra_reconstruct grid (n : Int) (m : Int)
          s dist parent hJ1 hJ2 hCH (parent.length + 1) cur y hy hmeas
        refine ⟨c, ?_, hcvalid, ?_⟩
        · have hc0 := hc []
          rw [List.append_nil] at hc0
          rw [hc0]
          simp
        · intro q hq
          obtain ⟨j, z, hj, hzv, hzopen, hzd, -⟩ := hF q hq
          have hzc : z ∈ cellList n m :=
            (mem_cellList n m z).mpr (openCell_bounds _ _ _ _ hzopen)
          obtain ⟨zv, hzv2, hzle⟩ := ltInf_finite_le _ _ hzd
          have hminz := smin z hzc hzv
          rw [hzv2, hy] at hminz
          have hyzv := le_of_ltInf_false _ _ hminz
          have htake := pathCost_take_le q (j + 1)
          linarith
      · rw [if_neg hce]
        obtain ⟨R1, R2, R3, R4⟩ :=
          dijkstraRelax_spec grid (n : Int) (m : Int) cur (dist, parent)
        dsimp only at R1 R2 R3 R4
        set dist' := (dijkstraRelax grid (n : Int) (m : Int) cur (dist, parent)).1
          with hdisteq
        set parent' := (dijkstraRelax grid (n : Int) (m : Int) cur (dist, parent)).2
          with hpareq
        have hns : ∀ mc : ℚ, 1 ≤ mc →
            ltInf (addInf (dist cur) mc) (dist s) = true → False := by
          intro mc hmc hlt
          rw [hy, addInf_some, hJ1] at hlt
          have h0 := hJ4 cur y hy
          simp only [ltInf, decide_eq_true_eq] at hlt
          linarith
        have hJ1' : dist' s = some 0 := by
          rcases R1 s with ⟨hu, -⟩ | ⟨-, -, hlt, -⟩
          · rw [hu]
            exact hJ1
          · exact (hns _ (moveCost_ge_one cur s) hlt).elim
        have hJ2' : lookupParent parent' s = none := by
          rcases R1 s with ⟨-, hl⟩ | ⟨-, -, hlt, -⟩
          · rw [hl]
            exact hJ2
          · exact (hns _ (moveCost_ge_one cur s) hlt).elim
        have hmono : ∀ w yw, dist w = some yw →
            ∃ yw2, dist' w = some yw2 ∧ yw2 ≤ yw := by
          intro w yw hw
          rcases R1 w with ⟨hu, -⟩ | ⟨-, hupd, hlt, -⟩
          · exact ⟨yw, by rw [hu]; exact hw, le_refl yw⟩
          · rw [hy, addInf_some] at hupd hlt
            rw [hw] at hlt
            simp only [ltInf, decide_eq_true_eq] at hlt
            exact ⟨y + moveCost cur w, hupd, le_of_lt hlt⟩
        have hJ4' : ∀ v xv, dist' v = some xv → 0 ≤ xv := by
          intro v xv hxv
          rcases R1 v with ⟨hu, -⟩ | ⟨-, hupd, -, -⟩
          · rw [hu] at hxv
            exact hJ4 v xv hxv
          · rw [hy, addInf_some] at hupd
            rw [hupd, Option.some_inj] at hxv
            have h1 := hJ4 cur y hy
            have h2 := moveCost_ge_one cur v
            rw [← hxv]
            linarith
        have hCH' : ∀ v xv, dist' v = some xv → v ≠ s →
            ∃ u yu, lookupParent parent' v = some u ∧ dist' u = some yu
              ∧ stepOk dirs8 grid (n : Int) (m : Int) u v ∧ yu + moveCost u v ≤ xv := by
          intro v xv hxv hvs
          rcases R1 v with ⟨hu, hl⟩ | ⟨hstepv, hupd, -, hl⟩
          · rw [hu] at hxv
            obtain ⟨u, yu, hlook, hyu, hstepu, hle⟩ := hCH v xv hxv hvs
            obtain ⟨yu2, hyu2, hyu2le⟩ := hmono u yu hyu
            exact ⟨u, yu2, by rw [hl]; exact hlook, hyu2, hstepu, by linarith⟩
          · rw [hy, addInf_some] at hupd
            refine ⟨cur, y, hl, ?_, hstepv, ?_⟩
            · rw [R4]
              exact hy
            · rw [hupd, Option.some_inj] at hxv
              exact le_of_eq hxv
        have hnd' : (cur :: visited).Nodup := List.nodup_cons.mpr ⟨hcurv, hnd⟩
        have hsub' : ∀ u ∈ cur :: visited, u ∈ cellList n m := by
          intro u hu
          rcases List.mem_cons.mp hu with h | h
          · rw [h]
            exact hcurc
          · exact hsub u h
        have hfuel' : n * m ≤ fuel + (cur :: visited).length := by
          rw [List.length_cons]
          omega
        have hF' : ∀ q, validPathG dirs8 grid (n : Int) (m : Int) s e q →
            ∃ j z, q[j]? = some z ∧ z ∉ cur :: visited
              ∧ openCell grid (n : Int) (m : Int) z = true
              ∧ ltInf (some (pathCost (q.take (j + 1)))) (dist' z) = false
              ∧ ∀ k w, j < k → q[k]? = some w → w ∉ cur :: visited := by
          intro q hq
          obtain ⟨j, z, hj, hzv, hzopen, hzd, hsuf⟩ := hF q hq
          by_cases hon : ∃ k, j ≤ k ∧ q[k]? = some cur
          · obtain ⟨k0, hk0j, hk0⟩ := hon
            obtain ⟨jc, hjc, hjcge, hjclen, hjmax⟩ := greatest_occurrence q cur k0 hk0
            have hjle : j ≤ jc := le_trans hk0j hjcge
            have hlastq : q[q.length - 1]? = some e :=
              validPathG_last dirs8 grid _ _ q s e hq
            have hjclt : jc + 1 < q.length := by
              rcases Nat.lt_or_ge (jc + 1) q.length with h | h
              · exact h
              · exfalso
                have hje : jc = q.length - 1 := by omega
                rw [hje, hlastq] at hjc
                exact hce (Option.some_inj.mp hjc).symm
            obtain ⟨w, hw⟩ : ∃ w, q[jc + 1]? = some w := by
              rcases hwo : q[jc + 1]? with - | w
              · rw [List.getElem?_eq_none_iff] at hwo
                omega
              · exact ⟨w, rfl⟩
            have hwv : w ∉ visited := hsuf (jc + 1) w (by omega) hw
            have hwne : w ≠ cur := by
              intro hwe
              rw [hwe] at hw
              exact hjmax (jc + 1) (by omega) hw
            have hstepw : stepOk dirs8 grid (n : Int) (m : Int) cur w :=
              validPathG_step dirs8 grid _ _ q s e hq jc cur w hjc hw
            refine ⟨jc + 1, w, hw, ?_, hstepw.2, ?_, ?_⟩
            · intro hmem
              rcases List.mem_cons.mp hmem with h | h
              · exact hwne h
              · exact hwv h
            · obtain ⟨zv, hzv2, hzle⟩ := ltInf_finite_le _ _ hzd
              have hzc2 : z ∈ cellList n m :=
                (mem_cellList n m z).mpr (openCell_bounds _ _ _ _ hzopen)
              have hminz := smin z hzc2 hzv
              rw [hzv2, hy] at hminz
              have hyzv := le_of_ltInf_false _ _ hminz
              have hbound := R2 w hstepw
              rw [hy, addInf_some] at hbound
              obtain ⟨wv, hwv2, hwle⟩ := ltInf_finite_le _ _ hbound
              rw [hwv2]
              apply ltInf_of_le
              have htsucc := pathCost_take_succ q jc cur w hjc hw
              have htle : pathCost (q.take (j + 1)) ≤ pathCost (q.take (jc + 1)) := by
                have h1 := pathCost_take_le (q.take (jc + 1)) (j + 1)
                rw [List.take_take] at h1
                have hmin : min (j + 1) (jc + 1) = j + 1 := by omega
                rw [hmin] at h1
                exact h1
              have he2 : jc + 1 + 1 = jc + 2 := by omega
              rw [he2]
              linarith
            · intro k w' hk hw' hmem
              rcases List.mem_cons.mp hmem with h | h
              · rw [h] at hw'
                exact hjmax k (by omega) hw'
              · exact hsuf k w' (by omega) hw' h
          · refine ⟨j, z, hj, ?_, hzopen, ?_, ?_⟩
            · intro hmem
              rcases List.mem_cons.mp hmem with h | h
              · exact hon ⟨j, le_refl j, by rw [← h]; exact hj⟩
              · exact hzv h
            · rcases R1 z with ⟨hu, -⟩ | ⟨-, hupd, hlt, -⟩
              · rw [hu]
                exact hzd
              · have h1 : ltInf (dist z) (dist' z) = false := by
                  rw [hupd]
                  exact ltInf_asymm _ _ hlt
                exact ltInf_le_trans _ _ _ hzd h1
            · intro k w' hk hw' hmem
              rcases List.mem_cons.mp hmem with h | h
              · exact hon ⟨k, by omega, by rw [← h]; exact hw'⟩
              · exact hsuf k w' hk hw' h
        obtain ⟨p, hlastp, hpvalid, hpmin⟩ := ih dist' (cur :: visited) parent'
          hJ1' hJ2' hCH' hJ4' hnd' hsub' hfuel' hF' ⟨q0, hq0⟩
        refine ⟨p, ?_, hpvalid, hpmin⟩
        rw [← List.singleton_append, List.getLast?_append, hlastp]
        rfl

/-- C2 (amended): for every grid with open start cell, whenever an
obstacle-free 8-directional path from start to end exists, `dijkstra`'s
last step is a `path` step carrying a valid path whose weighted cost
(`1` per orthogonal move, `1.4` per diagonal move) is minimal among all
valid 8-directional paths from start to end.  The original claim also
asserted this for `aStar`; that half is refuted by
`c2_counterexample`. -/
theorem c2_dijkstra_minimal_cost (grid : Grid) (s e : Pos)
    (hs : openCell grid grid.length (grid.getD 0 []).length s = true)
    (hex : ∃ q, validPath8 grid s e q) :
    ∃ p, (dijkstra grid s e).getLast? = some (PathStep.path p)
      ∧ validPath8 grid s e p
      ∧ ∀ q, validPath8 grid s e q → pathCost p ≤ pathCost q := by
  obtain ⟨q1, hq1⟩ := hex
  have hmain := dijkstraLoop_c2 grid s e grid.length (grid.getD 0 []).length
    (grid.length * (grid.getD 0 []).length + 1)
    (fun p => if p = s then some 0 else none) [] []
    (by simp)
    rfl
    (by
      intro v x hx hvs
      dsimp only at hx
      rw [if_neg hvs] at hx
      cases hx)
    (by
      intro v x hx
      dsimp only at hx
      by_cases h : v = s
      · rw [if_pos h, Option.some_inj] at hx
        rw [← hx]
      · rw [if_neg h] at hx
        cases hx)
    List.nodup_nil
    (by intro u hu; exact absurd hu (List.not_mem_nil u))
    (by omega)
    (by
      intro q hq
      refine ⟨0, s, validPathG_head dirs8 grid _ _ s e q hq, List.not_mem_nil s, hs, ?_,
        fun k w _ _ => List.not_mem_nil w⟩
      have h01 : (0 : Nat) + 1 = 1 := rfl
      rw [h01, pathCost_take_one]
      dsimp only
      rw [if_pos rfl]
      exact ltInf_irrefl _)
    ⟨q1, hq1⟩
  obtain ⟨p, h1, h2, h3⟩ := hmain
  exact ⟨p, h1, h2, h3⟩

/-- C2 witness: the amended theorem applied to the all-open `1x1` grid
with start = end = `(0,0)`, both hypotheses discharged concretely. -/
theorem c2_dijkstra_minimal_cost_witness :
    (openCell ([[0]] : Grid) ([[0]] : Grid).length (([[0]] : Grid).getD 0 []).length
        (0, 0) = true)
    ∧ ∃ p, (dijkstra [[0]] (0, 0) (0, 0)).getLast? = some (PathStep.path p)
        ∧ validPath8 [[0]] (0, 0) (0, 0) p
        ∧ ∀ q, validPath8 [[0]] (0, 0) (0, 0) q → pathCost p ≤ pathCost q :=
  ⟨by decide, c2_dijkstra_minimal_cost [[0]] (0, 0) (0, 0) (by decide)
    ⟨[(0, 0)], rfl, rfl⟩⟩

set_option maxRecDepth 10000 in
/-- C2 counterexample: on the grid `[[0,0,0,0],[0,1,0,0],[0,0,0,0]]`
from `(0,0)` to `(2,3)`, `aStar`'s final step carries the path
`[(0,0),(1,0),(2,1),(2,2),(2,3)]` of weighted cost `22/5`, while the
valid 8-directional path `[(0,0),(0,1),(1,2),(2,3)]` costs only `19/5`:
`aStar`'s returned path is not cost-minimal (its Manhattan heuristic
overestimates along diagonals, so it is inadmissible). -/
theorem c2_counterexample :
    ∃ p, (aStar [[0, 0, 0, 0], [0, 1, 0, 0], [0, 0, 0, 0]] (0, 0) (2, 3)).getLast?
          = some (PathStep.path p)
      ∧ validPath8 [[0, 0, 0, 0], [0, 1, 0, 0], [0, 0, 0, 0]] (0, 0) (2, 3)
          [(0, 0), (0, 1), (1, 2), (2, 3)]
      ∧ pathCost [(0, 0), (0, 1), (1, 2), (2, 3)] < pathCost p := by
  refine ⟨[(0, 0), (1, 0), (2, 1), (2, 2), (2, 3)], by with_unfolding_all rfl, ?_,
    by norm_num [pathCost, moveCost]⟩
  exact ⟨rfl, ⟨by decide, by decide⟩, rfl, ⟨by decide, by decide⟩, rfl,
    ⟨by decide, by decide⟩, rfl, rfl⟩

/-- C1 witness: on the input `[2, 1]` the three final snapshots are all
`[1, 2]`, a sorted permutation of the input. -/
theorem c1_sorting_correctness_witness :
    (List.Perm (SortStep.sorted [1] [1, 2]).snapshot [2, 1]
        ∧ (SortStep.sorted [1] [1, 2]).snapshot.Sorted (· ≤ ·))
      ∧ (List.Perm (SortStep.swap [0, 1] [1, 2]).snapshot [2, 1]
        ∧ (SortStep.swap [0, 1] [1, 2]).snapshot.Sorted (· ≤ ·))
      ∧ (List.Perm (SortStep.swap [1] [1, 2]).snapshot [2, 1]
        ∧ (SortStep.swap [1] [1, 2]).snapshot.Sorted (· ≤ ·)) :=
  ⟨(c1_sorting_correctness [2, 1]).1.2 _ (by decide),
   (c1_sorting_correctness [2, 1]).2.1.2 _ (by decide),
   (c1_sorting_correctness [2, 1]).2.2 _ (by decide)⟩

end AlgoViz
